import Mathlib

/-! # A verification development for the JSON library `json.c` / `json.h`

The development embeds the parser (`string_to_json`), the two serialisers
(`json_to_string`, `json_to_formatted_string`) and the two searches (`json_find`,
`json_find_recursive`) of `src/json.c` as Lean functions and proves properties of them.

Conventions of the embedding.

* A C string (`char *`) is the list of its characters before the terminating NUL, so the
  test `**p == 0` of the source is "the list is empty", and `(*p)++` is `List.tail`.
  A pointer that may be `NULL` is an `Option`.
* `exit(EXIT_FAILURE)` after a message on `stderr` is an `Except.error` carrying a value of
  `parse_error` that names the message.
* `malloc` and `realloc` are assumed to succeed; buffers are lists.
* The only operations on `double` in the source are the C library calls `strtod` and
  `snprintf(.., "%g", ..)`. They are not part of the repository and are taken as a
  parameter, `NumLib`.
* The recursion of the parser is bounded by a fuel argument; `string_to_json` supplies
  `3 * length + 1`, which is more than the parser can use on a text of that length.
-/

namespace Json

/-! ## The C library -/

/-- `isspace` of `<ctype.h>` in the "C" locale (the program never calls `setlocale`):
space, `\t`, `\n`, `\v`, `\f` and `\r`. -/
def isspace (c : Char) : Bool :=
  c = ' ' || c = '\t' || c = '\n' || c = '\x0b' || c = '\x0c' || c = '\r'

/-- `isdigit` of `<ctype.h>`. -/
def isdigit (c : Char) : Bool :=
  decide ('0' ≤ c ∧ c ≤ '9')

/-- The numeric routines of the C library used by the source.
`strtod p` gives the value and the number of characters consumed (`endptr - p`; zero when
no conversion was performed); `fmt_g x` is the text written by `snprintf(.., "%g", x)`;
`zero` is the `double` 0. -/
structure NumLib where
  double : Type
  zero : double
  strtod : List Char → double × Nat
  fmt_g : double → List Char

/-! ## Data model (`json.h`) -/

/-- `json_type` of `json.h`. -/
inductive json_type where
  | JSON_TYPE_NULL
  | JSON_TYPE_STRING
  | JSON_TYPE_NUMBER
  | JSON_TYPE_OBJECT
  | JSON_TYPE_ARRAY
  deriving DecidableEq, Repr

/-- `json_node` of `json.h`: the `key` pointer, and the union payload selected by the type tag.
`array` is the pointer to the NULL-terminated sequence of children: `none` is the NULL
pointer, `some l` a sequence with the elements `l`. -/
inductive json_node (D : Type) where
  | NULL (key : Option (List Char))
  | STRING (key : Option (List Char)) (string : Option (List Char))
  | NUMBER (key : Option (List Char)) (number : D)
  | OBJECT (key : Option (List Char)) (array : Option (List (json_node D)))
  | ARRAY (key : Option (List Char)) (array : Option (List (json_node D)))

namespace json_node

variable {D : Type}

/-- The field `node->type`. -/
def type : json_node D → json_type
  | NULL _ => .JSON_TYPE_NULL
  | STRING _ _ => .JSON_TYPE_STRING
  | NUMBER _ _ => .JSON_TYPE_NUMBER
  | OBJECT _ _ => .JSON_TYPE_OBJECT
  | ARRAY _ _ => .JSON_TYPE_ARRAY

/-- The field `node->key`. -/
def key : json_node D → Option (List Char)
  | NULL k => k
  | STRING k _ => k
  | NUMBER k _ => k
  | OBJECT k _ => k
  | ARRAY k _ => k

/-- The assignment `node->key = k`. -/
def set_key (k : Option (List Char)) : json_node D → json_node D
  | NULL _ => NULL k
  | STRING _ s => STRING k s
  | NUMBER _ x => NUMBER k x
  | OBJECT _ a => OBJECT k a
  | ARRAY _ a => ARRAY k a

/-- The children of a node: the elements of `node->array` for an Object or Array whose
pointer is not NULL, none otherwise. -/
def children : json_node D → List (json_node D)
  | OBJECT _ (some l) => l
  | ARRAY _ (some l) => l
  | _ => []

end json_node

open json_node

/-- `create_node` (json.c 82-110). -/
def create_node (L : NumLib) : json_type → json_node L.double
  | .JSON_TYPE_OBJECT => OBJECT none none
  | .JSON_TYPE_ARRAY => ARRAY none none
  | .JSON_TYPE_STRING => STRING none none
  | .JSON_TYPE_NUMBER => NUMBER none L.zero
  | .JSON_TYPE_NULL => NULL none

/-! ## Parser (json.c 5-312) -/

/-- Which delimiter was expected: the three messages
"Expected ':' after object key.", "Expected ',' or '}' in object." and
"Expected ',' or ']' in array.". -/
inductive delimiter where
  | colon
  | comma_or_brace
  | comma_or_bracket
  deriving DecidableEq, Repr

/-- The fatal errors of the parser, one per message of the source.
`ExpectedQuote`: "Expected '"' at beginning of string literal.";
`UnterminatedString`: "Unterminated string literal.";
`InvalidNumber`: "Failed to parse number.";
`ExpectedBrace`, `ExpectedBracket`: "Expected '{' at beginning of object." and the same for '[';
`MissingDelimiter`: see `delimiter`;
`UnexpectedCharacter c`: "Unexpected character 'c' while parsing JSON.";
`TrailingContent`: "Extra characters after JSON value.";
`OutOfFuel` is not an error of the source: the bound on the recursion was reached. -/
inductive parse_error where
  | ExpectedQuote
  | UnterminatedString
  | InvalidNumber
  | ExpectedBrace
  | ExpectedBracket
  | MissingDelimiter (d : delimiter)
  | UnexpectedCharacter (c : Char)
  | TrailingContent
  | OutOfFuel
  deriving DecidableEq, Repr

/-- The character `**p`: the head of the remaining text, NUL at its end. -/
def peek (p : List Char) : Char := p.headD '\x00'

/-- `skip_whitespace` (json.c 5-9). -/
def skip_whitespace : List Char → List Char
  | [] => []
  | c :: p => if isspace c then skip_whitespace p else c :: p

/-- The `switch` of json.c 34-41: the character stored for `\c`. -/
def unescape (c : Char) : Char :=
  if c = '"' then '"'
  else if c = '\\' then '\\'
  else if c = 'n' then '\n'
  else if c = 't' then '\t'
  else c

/-- The `while` loop of `parse_string_literal` (json.c 28-58) with the test that follows
it (59-66): `buffer` holds the characters stored so far. -/
def parse_string_chars : List Char → List Char → Except parse_error (List Char × List Char)
  | [], _ => .error .UnterminatedString
  | c :: p, buffer =>
    if c = '"' then .ok (buffer, p)
    else if c = '\\' then
      match p with
      | [] => .error .UnterminatedString
      | d :: q => parse_string_chars q (buffer ++ [unescape d])
    else parse_string_chars p (buffer ++ [c])

/-- `parse_string_literal` (json.c 11-67): the decoded text and the remaining input. -/
def parse_string_literal (p : List Char) : Except parse_error (List Char × List Char) :=
  if peek p ≠ '"' then .error .ExpectedQuote
  else parse_string_chars p.tail []

/-- `parse_number_literal` (json.c 69-80). -/
def parse_number_literal (L : NumLib) (p : List Char) :
    Except parse_error (L.double × List Char) :=
  if (L.strtod p).2 = 0 then .error .InvalidNumber
  else .ok ((L.strtod p).1, p.drop (L.strtod p).2)

/-- The four characters compared by `strncmp(*p, "null", 4)`. -/
def null_literal : List Char := ['n', 'u', 'l', 'l']

mutual

/-- `parse_value` (json.c 267-299). -/
def parse_value (L : NumLib) : Nat → List Char →
    Except parse_error (json_node L.double × List Char)
  | 0, _ => .error .OutOfFuel
  | fuel + 1, p0 =>
    let p := skip_whitespace p0
    let c := peek p
    if c = '{' then parse_object L fuel p
    else if c = '[' then parse_array L fuel p
    else if c = '"' then
      match parse_string_literal p with
      | .error e => .error e
      | .ok (str, p) => .ok (STRING none (some str), p)
    else if c = '-' ∨ isdigit c = true then
      match parse_number_literal L p with
      | .error e => .error e
      | .ok (num, p) => .ok (NUMBER none num, p)
    else if p.take 4 = null_literal then .ok (NULL none, p.drop 4)
    else .error (.UnexpectedCharacter c)

/-- `parse_object` (json.c 114-194) up to the `while (1)` loop. -/
def parse_object (L : NumLib) : Nat → List Char →
    Except parse_error (json_node L.double × List Char)
  | 0, _ => .error .OutOfFuel
  | fuel + 1, p0 =>
    if peek p0 ≠ '{' then .error .ExpectedBrace
    else
      let p := skip_whitespace (skip_whitespace p0.tail)
      if peek p = '}' then .ok (OBJECT none (some []), p.tail)
      else parse_object_members L fuel p []

/-- The `while (1)` loop of `parse_object` (json.c 142-193); `members` are the members
stored so far. -/
def parse_object_members (L : NumLib) : Nat → List Char → List (json_node L.double) →
    Except parse_error (json_node L.double × List Char)
  | 0, _, _ => .error .OutOfFuel
  | fuel + 1, p0, members =>
    match parse_string_literal (skip_whitespace p0) with
    | .error e => .error e
    | .ok (key, p1) =>
      let p := skip_whitespace p1
      if peek p ≠ ':' then .error (.MissingDelimiter .colon)
      else
        match parse_value L fuel (skip_whitespace p.tail) with
        | .error e => .error e
        | .ok (value, p2) =>
          let p := skip_whitespace p2
          if peek p = ',' then
            parse_object_members L fuel (skip_whitespace p.tail)
              (members ++ [value.set_key (some key)])
          else if peek p = '}' then
            .ok (OBJECT none (some (members ++ [value.set_key (some key)])), p.tail)
          else .error (.MissingDelimiter .comma_or_brace)

/-- `parse_array` (json.c 196-265) up to the `while (1)` loop. -/
def parse_array (L : NumLib) : Nat → List Char →
    Except parse_error (json_node L.double × List Char)
  | 0, _ => .error .OutOfFuel
  | fuel + 1, p0 =>
    if peek p0 ≠ '[' then .error .ExpectedBracket
    else
      let p := skip_whitespace (skip_whitespace p0.tail)
      if peek p = ']' then .ok (ARRAY none (some []), p.tail)
      else parse_array_elements L fuel p []

/-- The `while (1)` loop of `parse_array` (json.c 224-264); `elements` are the elements
stored so far. -/
def parse_array_elements (L : NumLib) : Nat → List Char → List (json_node L.double) →
    Except parse_error (json_node L.double × List Char)
  | 0, _, _ => .error .OutOfFuel
  | fuel + 1, p0, elements =>
    match parse_value L fuel (skip_whitespace p0) with
    | .error e => .error e
    | .ok (element, p1) =>
      let p := skip_whitespace p1
      if peek p = ',' then
        parse_array_elements L fuel (skip_whitespace p.tail) (elements ++ [element])
      else if peek p = ']' then
        .ok (ARRAY none (some (elements ++ [element])), p.tail)
      else .error (.MissingDelimiter .comma_or_bracket)

end

/-- `string_to_json` (json.c 301-312). -/
def string_to_json (L : NumLib) (string : List Char) :
    Except parse_error (json_node L.double) :=
  match parse_value L (3 * string.length + 1) string with
  | .error e => .error e
  | .ok (root, p) =>
    if skip_whitespace p ≠ [] then .error .TrailingContent
    else .ok root

end Json


namespace Json

open json_node

/-! ## Serialisers (json.c 316-519) -/

/-- `StringBuffer` (json.c 316-321): the text accumulated in `data`. The capacity and its
doubling are storage management and are not represented. -/
abbrev StringBuffer := List Char

/-- `sb_init` (json.c 323-334). -/
def sb_init : StringBuffer := []

/-- `sb_append` (json.c 336-351). -/
def sb_append (sb : StringBuffer) (str : List Char) : StringBuffer := sb ++ str

/-- `sb_append_char` (json.c 353-367). -/
def sb_append_char (sb : StringBuffer) (c : Char) : StringBuffer := sb ++ [c]

/-- The `for` loop of `sb_append_escaped` (json.c 372-385). -/
def sb_append_escaped_chars : List Char → StringBuffer → StringBuffer
  | [], sb => sb
  | c :: p, sb =>
    if c = '"' ∨ c = '\\' then
      sb_append_escaped_chars p (sb_append_char (sb_append_char sb '\\') c)
    else if c = '\n' then sb_append_escaped_chars p (sb_append sb ['\\', 'n'])
    else if c = '\t' then sb_append_escaped_chars p (sb_append sb ['\\', 't'])
    else sb_append_escaped_chars p (sb_append_char sb c)

/-- `sb_append_escaped` (json.c 369-387). The loop reads `*str`, so a NULL `str` is a
NULL dereference: the result is `none`. -/
def sb_append_escaped (sb : StringBuffer) : Option (List Char) → Option StringBuffer
  | none => none
  | some str => some (sb_append_char (sb_append_escaped_chars str (sb_append_char sb '"')) '"')

mutual

/-- `json_to_string_internal` (json.c 389-439); `none` when a NULL string or key is
dereferenced. -/
def json_to_string_internal (L : NumLib) : json_node L.double → StringBuffer →
    Option StringBuffer
  | NULL _, sb => some (sb_append sb null_literal)
  | NUMBER _ x, sb => some (sb_append sb (L.fmt_g x))
  | STRING _ s, sb => sb_append_escaped sb s
  | OBJECT _ none, sb => some (sb_append_char (sb_append_char sb '{') '}')
  | OBJECT _ (some l), sb =>
    match json_to_string_members L l 0 (sb_append_char sb '{') with
    | none => none
    | some sb => some (sb_append_char sb '}')
  | ARRAY _ none, sb => some (sb_append_char (sb_append_char sb '[') ']')
  | ARRAY _ (some l), sb =>
    match json_to_string_elements L l 0 (sb_append_char sb '[') with
    | none => none
    | some sb => some (sb_append_char sb ']')

/-- The `for` loop of the Object case (json.c 409-416), from index `i` on. -/
def json_to_string_members (L : NumLib) : List (json_node L.double) → Nat → StringBuffer →
    Option StringBuffer
  | [], _, sb => some sb
  | m :: rest, i, sb =>
    match sb_append_escaped (if i > 0 then sb_append_char sb ',' else sb) m.key with
    | none => none
    | some sb =>
      match json_to_string_internal L m (sb_append_char sb ':') with
      | none => none
      | some sb => json_to_string_members L rest (i + 1) sb

/-- The `for` loop of the Array case (json.c 426-431), from index `i` on. -/
def json_to_string_elements (L : NumLib) : List (json_node L.double) → Nat → StringBuffer →
    Option StringBuffer
  | [], _, sb => some sb
  | e :: rest, i, sb =>
    match json_to_string_internal L e (if i > 0 then sb_append_char sb ',' else sb) with
    | none => none
    | some sb => json_to_string_elements L rest (i + 1) sb

end

/-- `json_to_string` (json.c 441-447). -/
def json_to_string (L : NumLib) (json : json_node L.double) : Option (List Char) :=
  json_to_string_internal L json sb_init

/-- `sb_append_indent` (json.c 449-453). -/
def sb_append_indent (sb : StringBuffer) : Nat → StringBuffer
  | 0 => sb
  | indent + 1 => sb_append_indent (sb_append sb [' ', ' ']) indent

mutual

/-- `json_to_formatted_string_internal` (json.c 455-511). -/
def json_to_formatted_string_internal (L : NumLib) : json_node L.double → StringBuffer →
    Nat → Option StringBuffer
  | NULL _, sb, _ => some (sb_append sb null_literal)
  | NUMBER _ x, sb, _ => some (sb_append sb (L.fmt_g x))
  | STRING _ s, sb, _ => sb_append_escaped sb s
  | OBJECT _ none, sb, indent =>
    some (sb_append (sb_append_indent (sb_append sb ['{', '\n']) indent) ['}'])
  | OBJECT _ (some l), sb, indent =>
    match json_to_formatted_string_members L l (sb_append sb ['{', '\n']) indent with
    | none => none
    | some sb => some (sb_append (sb_append_indent sb indent) ['}'])
  | ARRAY _ none, sb, indent =>
    some (sb_append (sb_append_indent (sb_append sb ['[', '\n']) indent) [']'])
  | ARRAY _ (some l), sb, indent =>
    match json_to_formatted_string_elements L l (sb_append sb ['[', '\n']) indent with
    | none => none
    | some sb => some (sb_append (sb_append_indent sb indent) [']'])

/-- The `for` loop of the Object case (json.c 475-484). -/
def json_to_formatted_string_members (L : NumLib) : List (json_node L.double) →
    StringBuffer → Nat → Option StringBuffer
  | [], sb, _ => some sb
  | m :: rest, sb, indent =>
    match sb_append_escaped (sb_append_indent sb (indent + 1)) m.key with
    | none => none
    | some sb =>
      match json_to_formatted_string_internal L m (sb_append sb [':', ' ']) (indent + 1) with
      | none => none
      | some sb =>
        json_to_formatted_string_members L rest
          (sb_append (if rest.isEmpty = false then sb_append sb [','] else sb) ['\n']) indent

/-- The `for` loop of the Array case (json.c 495-502). -/
def json_to_formatted_string_elements (L : NumLib) : List (json_node L.double) →
    StringBuffer → Nat → Option StringBuffer
  | [], sb, _ => some sb
  | e :: rest, sb, indent =>
    match json_to_formatted_string_internal L e (sb_append_indent sb (indent + 1))
        (indent + 1) with
    | none => none
    | some sb =>
      json_to_formatted_string_elements L rest
        (sb_append (if rest.isEmpty = false then sb_append sb [','] else sb) ['\n']) indent

end

/-- `json_to_formatted_string` (json.c 513-519). -/
def json_to_formatted_string (L : NumLib) (json : json_node L.double) : Option (List Char) :=
  json_to_formatted_string_internal L json sb_init 0

/-! ## Search (json.c 523-571) -/

/-- The test `n->key && strcmp(n->key, key) == 0`. -/
def key_matches {D : Type} (n : json_node D) (key : List Char) : Bool :=
  match n.key with
  | none => false
  | some k => k == key

/-- The `for` loops of `json_find` (json.c 556-560 and 564-568, the same loop). -/
def json_find_children {D : Type} (key : List Char) : List (json_node D) → Option (json_node D)
  | [] => none
  | c :: rest => if key_matches c key then some c else json_find_children key rest

/-- `json_find` (json.c 550-571); the argument is the pointer `json`, `none` when NULL. -/
def json_find {D : Type} : Option (json_node D) → List Char → Option (json_node D)
  | none, _ => none
  | some (OBJECT _ (some l)), key => json_find_children key l
  | some (ARRAY _ (some l)), key => json_find_children key l
  | some _, _ => none

/-- The `for` loops of `json_find_recursive` (json.c 531-536 and 540-545, the same loop). -/
def json_find_recursive_children {D : Type} (key : List Char) :
    List (json_node D) → Option (json_node D)
  | [] => none
  | c :: rest =>
    match json_find (some c) key with
    | some found => some found
    | none => json_find_recursive_children key rest

/-- `json_find_recursive` (json.c 523-548). -/
def json_find_recursive {D : Type} : Option (json_node D) → List Char → Option (json_node D)
  | none, _ => none
  | some json, key =>
    if key_matches json key then some json
    else
      match json with
      | OBJECT _ (some l) => json_find_recursive_children key l
      | ARRAY _ (some l) => json_find_recursive_children key l
      | _ => none

end Json


namespace Json

open json_node

/-! ## A small numeric library for closed examples -/

/-- Value and number of the leading decimal digits of a text, continuing from the value
`v` and the count `n`. -/
def scan_digits : List Char → Nat → Nat → Nat × Nat
  | [], v, n => (v, n)
  | c :: p, v, n =>
    if isdigit c then scan_digits p (10 * v + (c.toNat - 48)) (n + 1) else (v, n)

/-- Scanner of `intLib`: an optional `-` and decimal digits. -/
def int_strtod (p : List Char) : Int × Nat :=
  if peek p = '-' then
    if (scan_digits p.tail 0 0).2 = 0 then (0, 0)
    else (-((scan_digits p.tail 0 0).1 : Int), (scan_digits p.tail 0 0).2 + 1)
  else (((scan_digits p 0 0).1 : Int), (scan_digits p 0 0).2)

/-- Formatter of `intLib`: the decimal digits, after a `-` for a negative number. -/
def int_fmt (x : Int) : List Char :=
  if x < 0 then '-' :: Nat.toDigits 10 x.natAbs else Nat.toDigits 10 x.natAbs

/-- An instance of `NumLib` on the integers, used for closed examples only. On an integer
of magnitude below 10^6 its texts are those of `%g`, and on such a text followed by a
character that cannot continue a number it scans what `strtod` scans. -/
def intLib : NumLib := ⟨Int, 0, int_strtod, int_fmt⟩

/-- The tree of the text `{"a": {"b": x}}`. -/
def tree_a_b {D : Type} (x : D) : json_node D :=
  OBJECT none (some [OBJECT (some ['a']) (some [NUMBER (some ['b']) x])])

/-- The tree of the text `{"a": {"b": {"c": x}}}`. -/
def tree_a_b_c {D : Type} (x : D) : json_node D :=
  OBJECT none (some [OBJECT (some ['a']) (some [OBJECT (some ['b']) (some [NUMBER (some ['c']) x])])])

/-- The tree of the text `{"a": null}`. -/
def tree_a_null : json_node Int :=
  OBJECT none (some [NULL (some ['a'])])

/-! ## Notions used in the statements -/

/-- The text `r` is what remains of `p` after at least one character was consumed. -/
def Consumed (r p : List Char) : Prop := r <:+ p ∧ r.length < p.length

/-- Reference for string literals, first half (from the specification): the text after the
opening quote is cut at the first `"` that is not preceded by an escaping backslash; the
result is the raw inside of the literal and the text after the closing quote, or `none`
when the end of the input comes first. -/
def ref_literal_split : List Char → Option (List Char × List Char)
  | [] => none
  | c :: p =>
    if c = '"' then some ([], p)
    else if c = '\\' then
      match p with
      | [] => none
      | d :: q =>
        match ref_literal_split q with
        | none => none
        | some (inside, rest) => some (c :: d :: inside, rest)
    else
      match ref_literal_split p with
      | none => none
      | some (inside, rest) => some (c :: inside, rest)

/-- Reference for string literals, second half (from the specification): inside a literal
`\"` gives `"`, `\\` gives `\`, `\n` gives a newline, `\t` gives a tab, a backslash before
any other character gives that character alone, and every other character is copied. -/
def ref_literal_decode : List Char → List Char
  | [] => []
  | [c] => [c]
  | c :: d :: q =>
    if c = '\\' then
      (if d = '"' then '"' else if d = '\\' then '\\' else if d = 'n' then '\n'
        else if d = 't' then '\t' else d) :: ref_literal_decode q
    else c :: ref_literal_decode (d :: q)

mutual

/-- The key discipline below a node: every member of an Object carries a key, no element
of an Array does, and the same holds below each of them. -/
def keys_below {D : Type} : json_node D → Bool
  | OBJECT _ (some l) => members_keyed l
  | ARRAY _ (some l) => elements_unkeyed l
  | _ => true

/-- Every node of the list carries a key and keeps the key discipline below it. -/
def members_keyed {D : Type} : List (json_node D) → Bool
  | [] => true
  | m :: rest => m.key.isSome && keys_below m && members_keyed rest

/-- No node of the list carries a key and each keeps the key discipline below it. -/
def elements_unkeyed {D : Type} : List (json_node D) → Bool
  | [] => true
  | e :: rest => e.key.isNone && keys_below e && elements_unkeyed rest

end

/-! ## Reference texts and notions for the round trip -/

/-- The escaped characters of a text: `"` and `\` after a backslash, newline as `\n`, tab
as `\t`, every other character as it is. -/
def escape_chars : List Char → List Char
  | [] => []
  | c :: p =>
    (if c = '"' ∨ c = '\\' then ['\\', c]
      else if c = '\n' then ['\\', 'n']
      else if c = '\t' then ['\\', 't']
      else [c]) ++ escape_chars p

/-- The escaped quoted text of a string. -/
def quoted (s : List Char) : List Char := '"' :: escape_chars s ++ ['"']

/-- What may follow a value in a JSON text: the end of the text, `,`, `}`, `]` or a
whitespace character. -/
def ends_value : List Char → Bool
  | [] => true
  | c :: _ => c = ',' || c = '}' || c = ']' || isspace c

/-- The `%g` text of `x` is read back as a number: it starts with a digit or `-`, and when
it is followed by something that may follow a value, `strtod` consumes exactly this text
and gives the value it gives on the text alone. (A finite `double` has this property; the
texts `inf` and `nan` do not.) -/
def NumLib.scans (L : NumLib) (x : L.double) : Prop :=
  (isdigit (peek (L.fmt_g x)) = true ∨ peek (L.fmt_g x) = '-') ∧
  ∀ rest, ends_value rest = true →
    L.strtod (L.fmt_g x ++ rest) = ((L.strtod (L.fmt_g x)).1, (L.fmt_g x).length)

/-- The number `x` scans, and the value read back from its `%g` text has the same `%g`
text. -/
def NumLib.stable (L : NumLib) (x : L.double) : Prop :=
  L.scans x ∧ L.fmt_g (L.strtod (L.fmt_g x)).1 = L.fmt_g x

/-- The number `x` scans, and the value read back from its `%g` text is `x` itself: the six
significant digits of `%g` are enough for `x`. -/
def NumLib.exact (L : NumLib) (x : L.double) : Prop :=
  L.scans x ∧ (L.strtod (L.fmt_g x)).1 = x

mutual

/-- The Number values of a tree, in document order. -/
def numbers_of {D : Type} : json_node D → List D
  | NUMBER _ x => [x]
  | OBJECT _ (some l) => numbers_of_list l
  | ARRAY _ (some l) => numbers_of_list l
  | _ => []

/-- The Number values of the trees of a list. -/
def numbers_of_list {D : Type} : List (json_node D) → List D
  | [] => []
  | n :: rest => numbers_of n ++ numbers_of_list rest

end

mutual

/-- The String payloads and the keys of Object members of a tree are present, so that the
serialisers dereference no NULL pointer. -/
def serializable {D : Type} : json_node D → Bool
  | STRING _ none => false
  | OBJECT _ (some l) => serializable_members l
  | ARRAY _ (some l) => serializable_elements l
  | _ => true

/-- Every member has a key and is serializable. -/
def serializable_members {D : Type} : List (json_node D) → Bool
  | [] => true
  | m :: rest => m.key.isSome && serializable m && serializable_members rest

/-- Every element is serializable. -/
def serializable_elements {D : Type} : List (json_node D) → Bool
  | [] => true
  | e :: rest => serializable e && serializable_elements rest

end

/-- The whitespace that a serialiser puts between the tokens: after an opening bracket,
before a member and before the closing bracket at a depth, after the colon, and after a
member (following its comma, when there is one). -/
structure layout where
  after_open : List Char
  indent : Nat → List Char
  after_colon : List Char
  after_item : List Char

/-- Every character of the layout is whitespace. -/
def layout.blank (lay : layout) : Prop :=
  (∀ c ∈ lay.after_open, isspace c = true) ∧ (∀ d, ∀ c ∈ lay.indent d, isspace c = true) ∧
  (∀ c ∈ lay.after_colon, isspace c = true) ∧ (∀ c ∈ lay.after_item, isspace c = true)

/-- The layout of the compact form: nothing between the tokens. -/
def compact_layout : layout := ⟨[], fun _ => [], [], []⟩

/-- The layout of the pretty form: a newline after an opening bracket and after each
member, two spaces per depth, one space after the colon. -/
def pretty_layout : layout :=
  ⟨['\n'], fun d => List.replicate (2 * d) ' ', [' '], ['\n']⟩

mutual

/-- The text of a tree at a depth in a layout. -/
def render (L : NumLib) (lay : layout) : Nat → json_node L.double → List Char
  | _, NULL _ => null_literal
  | _, NUMBER _ x => L.fmt_g x
  | _, STRING _ s => quoted (s.getD [])
  | d, OBJECT _ none => '{' :: lay.after_open ++ lay.indent d ++ ['}']
  | d, OBJECT _ (some l) =>
    '{' :: lay.after_open ++ render_members L lay d l ++ lay.indent d ++ ['}']
  | d, ARRAY _ none => '[' :: lay.after_open ++ lay.indent d ++ [']']
  | d, ARRAY _ (some l) =>
    '[' :: lay.after_open ++ render_elements L lay d l ++ lay.indent d ++ [']']

/-- The text of the members of an Object at depth `d`. -/
def render_members (L : NumLib) (lay : layout) : Nat → List (json_node L.double) → List Char
  | _, [] => []
  | d, m :: rest =>
    lay.indent (d + 1) ++ quoted (m.key.getD []) ++ ':' :: lay.after_colon ++
      render L lay (d + 1) m ++ (if rest.isEmpty then [] else [',']) ++ lay.after_item ++
      render_members L lay d rest

/-- The text of the elements of an Array at depth `d`. -/
def render_elements (L : NumLib) (lay : layout) : Nat → List (json_node L.double) → List Char
  | _, [] => []
  | d, e :: rest =>
    lay.indent (d + 1) ++ render L lay (d + 1) e ++ (if rest.isEmpty then [] else [',']) ++
      lay.after_item ++ render_elements L lay d rest

end

mutual

/-- The tree that the parser builds from the text of a tree: the root has no key, strings
and member keys are kept, each number is the value scanned from its text, and the child
sequences are present. -/
def reparse (L : NumLib) : json_node L.double → json_node L.double
  | NULL _ => NULL none
  | STRING _ s => STRING none (some (s.getD []))
  | NUMBER _ x => NUMBER none (L.strtod (L.fmt_g x)).1
  | OBJECT _ none => OBJECT none (some [])
  | OBJECT _ (some l) => OBJECT none (some (reparse_members L l))
  | ARRAY _ none => ARRAY none (some [])
  | ARRAY _ (some l) => ARRAY none (some (reparse_elements L l))

/-- The members built from the texts of members. -/
def reparse_members (L : NumLib) : List (json_node L.double) → List (json_node L.double)
  | [] => []
  | m :: rest => (reparse L m).set_key (some (m.key.getD [])) :: reparse_members L rest

/-- The elements built from the texts of elements. -/
def reparse_elements (L : NumLib) : List (json_node L.double) → List (json_node L.double)
  | [] => []
  | e :: rest => reparse L e :: reparse_elements L rest

end

/-- The text of `T`, in the layout `lay` at any depth and followed by anything that may
follow a value, is parsed back to `reparse T` with nothing else consumed, provided the tree
is serializable and its numbers scan. -/
def parses_back (L : NumLib) (lay : layout) (T : json_node L.double) : Prop :=
  serializable T = true → (∀ x ∈ numbers_of T, L.scans x) →
    ∀ (d fuel : Nat) (rest : List Char), ends_value rest = true →
      3 * (render L lay d T ++ rest).length + 1 ≤ fuel →
      parse_value L fuel (render L lay d T ++ rest) = .ok (reparse L T, rest)

mutual

/-- The tree with every NULL child-sequence pointer replaced by the empty sequence. -/
def canonical {D : Type} : json_node D → json_node D
  | NULL k => NULL k
  | STRING k s => STRING k s
  | NUMBER k x => NUMBER k x
  | OBJECT k none => OBJECT k (some [])
  | OBJECT k (some l) => OBJECT k (some (canonical_list l))
  | ARRAY k none => ARRAY k (some [])
  | ARRAY k (some l) => ARRAY k (some (canonical_list l))

/-- The canonical trees of a list. -/
def canonical_list {D : Type} : List (json_node D) → List (json_node D)
  | [] => []
  | n :: rest => canonical n :: canonical_list rest

end

/-- Structural equality of trees: the same node types, keys, String and Number values and
the same children in the same order; a NULL child sequence and an empty one, which both
hold no child, are not told apart. -/
def struct_eq {D : Type} (a b : json_node D) : Prop := canonical a = canonical b

/-- The tree of `{"a": 1, "b": [null, "x\"\n", -7], "c": {}}` over `intLib`, the Object
`c` with a NULL child sequence. -/
def sample_tree : json_node intLib.double :=
  OBJECT none (some [NUMBER (some ['a']) (1 : Int),
    ARRAY (some ['b']) (some [NULL none, STRING none (some ['x', '"', '\n']),
      NUMBER none (-7 : Int)]),
    OBJECT (some ['c']) none])

mutual

/-- The members of all the Objects of a tree, at every depth. -/
def object_members {D : Type} : json_node D → List (json_node D)
  | OBJECT _ (some l) => l ++ object_members_list l
  | ARRAY _ (some l) => object_members_list l
  | _ => []

/-- The members of all the Objects of the trees of a list. -/
def object_members_list {D : Type} : List (json_node D) → List (json_node D)
  | [] => []
  | n :: rest => object_members n ++ object_members_list rest

end

/-- The text `{"a":1,"b":[1,2,3]}`. -/
def literal_text : List Char := "\x7b\"a\":1,\"b\":[1,2,3]\x7d".toList

/-- The tree of `{"a":1,"b":[1,2,3]}`, given the Numbers 1, 2 and 3. -/
def literal_tree {D : Type} (v1 v2 v3 : D) : json_node D :=
  OBJECT none (some [NUMBER (some ['a']) v1,
    ARRAY (some ['b']) (some [NUMBER none v1, NUMBER none v2, NUMBER none v3])])

/-! ## References for the two serialised forms (from the specification) -/

/-- The texts of a list joined with single commas between them. -/
def comma_separated : List (List Char) → List Char
  | [] => []
  | [t] => t
  | t :: u :: rest => t ++ ',' :: comma_separated (u :: rest)

mutual

/-- Reference for the compact form: Null gives `null`, a String its escaped quoted text, a
Number its `%g` text, an Object `{`, its members as `"key":value` separated by commas, `}`,
an Array `[`, its elements separated by commas, `]`. -/
def compact_ref (L : NumLib) : json_node L.double → List Char
  | NULL _ => ['n', 'u', 'l', 'l']
  | STRING _ s => quoted (s.getD [])
  | NUMBER _ x => L.fmt_g x
  | OBJECT _ none => ['{', '}']
  | OBJECT _ (some l) => '{' :: comma_separated (compact_ref_members L l) ++ ['}']
  | ARRAY _ none => ['[', ']']
  | ARRAY _ (some l) => '[' :: comma_separated (compact_ref_elements L l) ++ [']']

/-- The texts `"key":value` of the members, in stored order. -/
def compact_ref_members (L : NumLib) : List (json_node L.double) → List (List Char)
  | [] => []
  | m :: rest => (quoted (m.key.getD []) ++ ':' :: compact_ref L m) :: compact_ref_members L rest

/-- The texts of the elements, in stored order. -/
def compact_ref_elements (L : NumLib) : List (json_node L.double) → List (List Char)
  | [] => []
  | e :: rest => compact_ref L e :: compact_ref_elements L rest

end

/-- One of the four characters space, tab, newline, carriage return. -/
def json_blank (c : Char) : Bool := c = ' ' || c = '\t' || c = '\n' || c = '\r'

/-- The number of characters of a key or String payload that the serialisers copy as a
blank: its spaces and carriage returns (a tab or newline is written as an escape). -/
def payload_blanks (s : List Char) : Nat := s.countP (fun c => c = ' ' || c = '\r')

mutual

/-- The number of blanks that the keys of Object members and the String payloads of a tree
contribute to its text. -/
def copied_blanks {D : Type} : json_node D → Nat
  | STRING _ (some s) => payload_blanks s
  | OBJECT _ (some l) => copied_blanks_members l
  | ARRAY _ (some l) => copied_blanks_elements l
  | _ => 0

/-- The blanks contributed by the members of an Object, keys included. -/
def copied_blanks_members {D : Type} : List (json_node D) → Nat
  | [] => 0
  | m :: rest => payload_blanks (m.key.getD []) + copied_blanks m + copied_blanks_members rest

/-- The blanks contributed by the elements of an Array. -/
def copied_blanks_elements {D : Type} : List (json_node D) → Nat
  | [] => 0
  | e :: rest => copied_blanks e + copied_blanks_elements rest

end

mutual

/-- Reference for the pretty form at depth `d`: scalars as in the compact form; an Object
is `{` and a newline, then for each member `2 * (d + 1)` spaces, the escaped quoted key,
`:` and a space, the member at depth `d + 1`, a `,` unless it is the last, and a newline;
then `2 * d` spaces and `}`. An Array is the same with `[`, `]` and no key. -/
def pretty_ref (L : NumLib) : json_node L.double → Nat → List Char
  | NULL _, _ => ['n', 'u', 'l', 'l']
  | STRING _ s, _ => quoted (s.getD [])
  | NUMBER _ x, _ => L.fmt_g x
  | OBJECT _ none, d => ['{', '\n'] ++ List.replicate (2 * d) ' ' ++ ['}']
  | OBJECT _ (some l), d =>
    ['{', '\n'] ++ pretty_ref_members L l d ++ List.replicate (2 * d) ' ' ++ ['}']
  | ARRAY _ none, d => ['[', '\n'] ++ List.replicate (2 * d) ' ' ++ [']']
  | ARRAY _ (some l), d =>
    ['[', '\n'] ++ pretty_ref_elements L l d ++ List.replicate (2 * d) ' ' ++ [']']

/-- The lines of the members of an Object at depth `d`. -/
def pretty_ref_members (L : NumLib) : List (json_node L.double) → Nat → List Char
  | [], _ => []
  | m :: rest, d =>
    List.replicate (2 * (d + 1)) ' ' ++ quoted (m.key.getD []) ++ [':', ' '] ++
      pretty_ref L m (d + 1) ++ (if rest.isEmpty then [] else [',']) ++ ['\n'] ++
      pretty_ref_members L rest d

/-- The lines of the elements of an Array at depth `d`. -/
def pretty_ref_elements (L : NumLib) : List (json_node L.double) → Nat → List Char
  | [], _ => []
  | e :: rest, d =>
    List.replicate (2 * (d + 1)) ' ' ++ pretty_ref L e (d + 1) ++
      (if rest.isEmpty then [] else [',']) ++ ['\n'] ++ pretty_ref_elements L rest d

end

/-! ## Numbers whose text is not read back -/

/-- The `%g` text of `x` is not read as a value: it is not empty, and its first character
is none of the characters at which `parse_value` starts a value or a container ends, nor
whitespace, and the text does not begin the literal `null`. The parser stops at that
character with "Unexpected character". (The texts `inf` and `nan` that `%g` writes for
+infinity and NaN are of this kind.) -/
def NumLib.unread (L : NumLib) (x : L.double) : Prop :=
  L.fmt_g x ≠ [] ∧ isspace (peek (L.fmt_g x)) = false ∧ peek (L.fmt_g x) ≠ '{' ∧
  peek (L.fmt_g x) ≠ '[' ∧ peek (L.fmt_g x) ≠ ']' ∧ peek (L.fmt_g x) ≠ '"' ∧
  peek (L.fmt_g x) ≠ '-' ∧ isdigit (peek (L.fmt_g x)) = false ∧
  ∀ rest, ends_value rest = true → (L.fmt_g x ++ rest).take 4 ≠ null_literal

/-- The result of a parser call that consumed a text up to `rest`, from its outcome: the
tree with `rest`, or the error. -/
def with_rest {D : Type} (out : Except parse_error (json_node D)) (rest : List Char) :
    Except parse_error (json_node D × List Char) :=
  match out with
  | .ok T => .ok (T, rest)
  | .error e => .error e

/-- The texts of `T` in all layouts of whitespace, at any depth and followed by anything
that may follow a value, have one and the same outcome under `parse_value`, provided the
tree is serializable and each of its numbers either scans or is unread. -/
def parses_alike (L : NumLib) (T : json_node L.double) : Prop :=
  serializable T = true → (∀ x ∈ numbers_of T, L.scans x ∨ L.unread x) →
    ∃ out : Except parse_error (json_node L.double),
      ∀ lay : layout, lay.blank → ∀ (d fuel : Nat) (rest : List Char),
        ends_value rest = true → 3 * (render L lay d T ++ rest).length + 1 ≤ fuel →
        parse_value L fuel (render L lay d T ++ rest) = with_rest out rest

/-- An instance of `NumLib` for closed examples with an infinite value: the integers of
`intLib` as `some v`, and `none` for +infinity, which `%g` writes as `inf`. The scanner is
that of `intLib`; it never returns +infinity (overflow is not represented). -/
def extLib : NumLib :=
  ⟨Option Int, some 0, fun p => (some (int_strtod p).1, (int_strtod p).2),
    fun x => match x with
      | some v => int_fmt v
      | none => ['i', 'n', 'f']⟩

/-- The tree of `{"a": 1, "b": [null, "x\"\n", -7], "c": {}}` over `extLib`. -/
def ext_sample_tree : json_node extLib.double :=
  OBJECT none (some [NUMBER (some ['a']) (some (1 : Int)),
    ARRAY (some ['b']) (some [NULL none, STRING none (some ['x', '"', '\n']),
      NUMBER none (some (-7 : Int))]),
    OBJECT (some ['c']) none])

/-- The tree of `{"a": 1, "b": [null, +infinity, -7]}` over `extLib`. -/
def inf_sample_tree : json_node extLib.double :=
  OBJECT none (some [NUMBER (some ['a']) (some (1 : Int)),
    ARRAY (some ['b']) (some [NULL none, NUMBER none (none : Option Int),
      NUMBER none (some (-7 : Int))])])

end Json

/-! # Theorems -/

namespace Json

open json_node

/-! ## Search -/

theorem key_matches_iff {D : Type} (n : json_node D) (key : List Char) :
    key_matches n key = true ↔ n.key = some key := by
  unfold key_matches
  cases n.key <;> simp

theorem json_find_children_some {D : Type} (key : List Char) (l : List (json_node D))
    (c : json_node D) :
    json_find_children key l = some c ↔
      ∃ before after, l = before ++ c :: after ∧ c.key = some key ∧
        ∀ b ∈ before, b.key ≠ some key := by
  induction l with
  | nil => simp [json_find_children]
  | cons a l ih =>
    unfold json_find_children
    by_cases h : key_matches a key = true
    · have ha := (key_matches_iff a key).1 h
      simp only [h, if_true, Option.some.injEq]
      constructor
      · rintro rfl
        exact ⟨[], l, rfl, ha, by simp⟩
      · rintro ⟨before, after, hl, _, hb⟩
        cases before with
        | nil => simpa using (List.cons.inj hl).1
        | cons b before =>
          have hab : a = b := (List.cons.inj hl).1
          exact absurd (hab ▸ ha) (hb b (by simp))
    · have ha : a.key ≠ some key := fun e => h ((key_matches_iff a key).2 e)
      simp only [h, Bool.false_eq_true, if_false, ih]
      constructor
      · rintro ⟨before, after, hl, hc, hb⟩
        refine ⟨a :: before, after, by simp [hl], hc, ?_⟩
        intro b hb'
        rcases List.mem_cons.1 hb' with rfl | hb'
        · exact ha
        · exact hb b hb'
      · rintro ⟨before, after, hl, hc, hb⟩
        cases before with
        | nil =>
          have hac : a = c := (List.cons.inj hl).1
          exact absurd (hac ▸ hc) ha
        | cons b before =>
          exact ⟨before, after, (List.cons.inj hl).2, hc,
            fun x hx => hb x (List.mem_cons_of_mem _ hx)⟩

theorem json_find_children_none {D : Type} (key : List Char) (l : List (json_node D)) :
    json_find_children key l = none ↔ ∀ c ∈ l, c.key ≠ some key := by
  induction l with
  | nil => simp [json_find_children]
  | cons a l ih =>
    unfold json_find_children
    by_cases h : key_matches a key = true
    · have ha := (key_matches_iff a key).1 h
      simp [h, ha]
    · have ha : a.key ≠ some key := fun e => h ((key_matches_iff a key).2 e)
      simp [h, ih, ha]

theorem json_find_eq_children {D : Type} (node : json_node D) (key : List Char)
    (h : node.type = .JSON_TYPE_OBJECT ∨ node.type = .JSON_TYPE_ARRAY) :
    json_find (some node) key = json_find_children key node.children := by
  cases node with
  | NULL k => simp [json_node.type] at h
  | STRING k s => simp [json_node.type] at h
  | NUMBER k x => simp [json_node.type] at h
  | OBJECT k a => cases a <;> simp [json_find, json_node.children, json_find_children]
  | ARRAY k a => cases a <;> simp [json_find, json_node.children, json_find_children]

/-- C7. Shallow find: on an Object or Array `json_find` returns the first direct child (in
stored order) whose own key is present and equals the target, and absent when no direct
child has that key; on a Null, String or Number node and on the NULL pointer it returns
absent. It does not look below the children: on `{"a": {"b": x}}` the key `b` is absent. -/
theorem json_find_shallow {D : Type} (json : Option (json_node D)) (key : List Char) :
    (∀ node, json = some node →
      (node.type = .JSON_TYPE_OBJECT ∨ node.type = .JSON_TYPE_ARRAY) →
        (∀ c, json_find json key = some c ↔
          ∃ before after, node.children = before ++ c :: after ∧ c.key = some key ∧
            ∀ b ∈ before, b.key ≠ some key) ∧
        (json_find json key = none ↔ ∀ c ∈ node.children, c.key ≠ some key)) ∧
    (∀ node, json = some node →
      (node.type = .JSON_TYPE_NULL ∨ node.type = .JSON_TYPE_STRING ∨
        node.type = .JSON_TYPE_NUMBER) → json_find json key = none) ∧
    (json = none → json_find json key = none) ∧
    (∀ x : D, json_find (some (tree_a_b x)) ['b'] = none) := by
  refine ⟨?_, ?_, ?_, ?_⟩
  · rintro node rfl h
    rw [json_find_eq_children node key h]
    exact ⟨fun c => json_find_children_some key _ c, json_find_children_none key _⟩
  · rintro node rfl h
    cases node <;> simp [json_node.type] at h <;> rfl
  · rintro rfl
    rfl
  · intro x
    rfl

/-! ### The recursive find -/

theorem json_find_recursive_children_some {D : Type} (key : List Char)
    (l : List (json_node D)) (found : json_node D) :
    json_find_recursive_children key l = some found ↔
      ∃ before c after, l = before ++ c :: after ∧ json_find (some c) key = some found ∧
        ∀ b ∈ before, json_find (some b) key = none := by
  induction l with
  | nil => simp [json_find_recursive_children]
  | cons a l ih =>
    unfold json_find_recursive_children
    cases h : json_find (some a) key with
    | some f =>
      simp only [Option.some.injEq]
      constructor
      · rintro rfl
        exact ⟨[], a, l, rfl, h, by simp⟩
      · rintro ⟨before, c, after, hl, hc, hb⟩
        cases before with
        | nil =>
          have hac : a = c := (List.cons.inj hl).1
          subst hac
          rw [h] at hc
          exact Option.some.inj hc
        | cons b before =>
          have hab : a = b := (List.cons.inj hl).1
          have := hb b (by simp)
          rw [← hab, h] at this
          cases this
    | none =>
      simp only [ih]
      constructor
      · rintro ⟨before, c, after, hl, hc, hb⟩
        refine ⟨a :: before, c, after, by simp [hl], hc, ?_⟩
        intro b hb'
        rcases List.mem_cons.1 hb' with rfl | hb'
        · exact h
        · exact hb b hb'
      · rintro ⟨before, c, after, hl, hc, hb⟩
        cases before with
        | nil =>
          have hac : a = c := (List.cons.inj hl).1
          subst hac
          rw [h] at hc
          cases hc
        | cons b before =>
          exact ⟨before, c, after, (List.cons.inj hl).2, hc,
            fun x hx => hb x (List.mem_cons_of_mem _ hx)⟩

theorem json_find_recursive_children_none {D : Type} (key : List Char)
    (l : List (json_node D)) :
    json_find_recursive_children key l = none ↔
      ∀ c ∈ l, json_find (some c) key = none := by
  induction l with
  | nil => simp [json_find_recursive_children]
  | cons a l ih =>
    unfold json_find_recursive_children
    cases h : json_find (some a) key with
    | some f => simp [h]
    | none => simp [h, ih]

theorem json_find_recursive_eq_children {D : Type} (node : json_node D) (key : List Char)
    (hk : node.key ≠ some key)
    (h : node.type = .JSON_TYPE_OBJECT ∨ node.type = .JSON_TYPE_ARRAY) :
    json_find_recursive (some node) key = json_find_recursive_children key node.children := by
  have hm : key_matches node key = false := by
    cases hb : key_matches node key with
    | false => rfl
    | true => exact absurd ((key_matches_iff node key).1 hb) hk
  cases node with
  | NULL k => simp [json_node.type] at h
  | STRING k s => simp [json_node.type] at h
  | NUMBER k x => simp [json_node.type] at h
  | OBJECT k a =>
    cases a <;>
      simp [json_find_recursive, hm, json_node.children, json_find_recursive_children]
  | ARRAY k a =>
    cases a <;>
      simp [json_find_recursive, hm, json_node.children, json_find_recursive_children]

/-- C8. Bounded recursive find: `json_find_recursive` returns the node itself when the
node's own key equals the target; otherwise, on an Object or Array, it returns the shallow
`json_find` within the first direct child (in stored order) for which that shallow find is
present, and absent when it is present for no child; otherwise absent. So on
`{"a": {"b": x}}` it returns the Number node keyed `b` for the key `b` and absent for the
key `a`, and on `{"a": {"b": {"c": x}}}` it returns absent for the key `c`. -/
theorem json_find_recursive_bounded {D : Type} (json : Option (json_node D))
    (key : List Char) :
    (∀ node, json = some node → node.key = some key →
      json_find_recursive json key = some node) ∧
    (∀ node, json = some node → node.key ≠ some key →
      (node.type = .JSON_TYPE_OBJECT ∨ node.type = .JSON_TYPE_ARRAY) →
        (∀ found, json_find_recursive json key = some found ↔
          ∃ before c after, node.children = before ++ c :: after ∧
            json_find (some c) key = some found ∧
            ∀ b ∈ before, json_find (some b) key = none) ∧
        (json_find_recursive json key = none ↔
          ∀ c ∈ node.children, json_find (some c) key = none)) ∧
    (∀ node, json = some node → node.key ≠ some key →
      (node.type = .JSON_TYPE_NULL ∨ node.type = .JSON_TYPE_STRING ∨
        node.type = .JSON_TYPE_NUMBER) → json_find_recursive json key = none) ∧
    (json = none → json_find_recursive json key = none) ∧
    (∀ x : D, json_find_recursive (some (tree_a_b x)) ['b'] = some (NUMBER (some ['b']) x) ∧
      json_find_recursive (some (tree_a_b x)) ['a'] = none ∧
      json_find_recursive (some (tree_a_b_c x)) ['c'] = none) := by
  refine ⟨?_, ?_, ?_, ?_, ?_⟩
  · rintro node rfl hk
    have hm := (key_matches_iff node key).2 hk
    simp [json_find_recursive, hm]
  · rintro node rfl hk h
    rw [json_find_recursive_eq_children node key hk h]
    exact ⟨fun f => json_find_recursive_children_some key _ f,
      json_find_recursive_children_none key _⟩
  · rintro node rfl hk h
    have hm : key_matches node key = false := by
      cases hb : key_matches node key with
      | false => rfl
      | true => exact absurd ((key_matches_iff node key).1 hb) hk
    cases node <;> simp [json_node.type] at h <;> simp [json_find_recursive, hm]
  · rintro rfl
    rfl
  · intro x
    exact ⟨rfl, rfl, rfl⟩

/-- C9 (the code at the failing input). On `{"a": null}` the shallow find of the key `a`
returns the member, and `json_find_recursive` returns absent although a node of the tree
carries the key. -/
theorem json_find_recursive_misses_child :
    json_find (some tree_a_null) ['a'] = some (NULL (some ['a'])) ∧
    json_find_recursive (some tree_a_null) ['a'] = none := by
  exact ⟨rfl, rfl⟩

/-! ## The parser consumes input -/

theorem skip_whitespace_suffix (p : List Char) : skip_whitespace p <:+ p := by
  induction p with
  | nil => simp [skip_whitespace]
  | cons c p ih =>
    unfold skip_whitespace
    split
    · exact ih.trans (List.suffix_cons c p)
    · exact List.suffix_refl _


theorem Consumed.of_suffix_left {r q p : List Char} (h : r <:+ q) (h2 : Consumed q p) :
    Consumed r p :=
  ⟨h.trans h2.1, lt_of_le_of_lt h.length_le h2.2⟩

theorem Consumed.of_suffix_right {r q p : List Char} (h2 : Consumed r q) (h : q <:+ p) :
    Consumed r p :=
  ⟨h2.1.trans h, lt_of_lt_of_le h2.2 h.length_le⟩

theorem Consumed.tail {p : List Char} (h : p ≠ []) : Consumed p.tail p := by
  cases p with
  | nil => exact absurd rfl h
  | cons c p => exact ⟨List.suffix_cons c p, by simp⟩

theorem peek_ne_nil {p : List Char} {c : Char} (h : peek p = c) (hc : c ≠ '\x00') : p ≠ [] := by
  rintro rfl
  exact hc (by simpa [peek] using h.symm)

theorem parse_string_chars_consumed : ∀ (n : Nat) (p buffer s r : List Char), p.length ≤ n →
    parse_string_chars p buffer = .ok (s, r) → Consumed r p := by
  intro n
  induction n with
  | zero =>
    intro p buffer s r hn h
    have : p = [] := List.length_eq_zero.1 (Nat.le_zero.1 hn)
    subst this
    simp [parse_string_chars] at h
  | succ n ih =>
    intro p buffer s r hn h
    cases p with
    | nil => simp [parse_string_chars] at h
    | cons c p =>
      unfold parse_string_chars at h
      split at h
      · simp only [Except.ok.injEq, Prod.mk.injEq] at h
        rw [← h.2]
        exact ⟨List.suffix_cons c p, by simp⟩
      · split at h
        · cases p with
          | nil => simp at h
          | cons d q =>
            simp only at h
            have := ih q _ s r (by simp at hn ⊢; omega) h
            exact Consumed.of_suffix_right this
              ((List.suffix_cons d q).trans (List.suffix_cons c _))
        · have := ih p _ s r (by simpa using hn) h
          exact Consumed.of_suffix_right this (List.suffix_cons c p)

theorem parse_string_literal_consumed {p s r : List Char}
    (h : parse_string_literal p = .ok (s, r)) : Consumed r p := by
  unfold parse_string_literal at h
  split at h
  · simp at h
  · exact Consumed.of_suffix_right (parse_string_chars_consumed _ _ _ _ _ le_rfl h)
      (List.tail_suffix p)

theorem parse_number_literal_consumed {L : NumLib} {p r : List Char} {x : L.double}
    (hp : p ≠ []) (h : parse_number_literal L p = .ok (x, r)) : Consumed r p := by
  unfold parse_number_literal at h
  split at h
  · simp at h
  · rename_i hn
    simp only [Except.ok.injEq, Prod.mk.injEq] at h
    rw [← h.2]
    refine ⟨List.drop_suffix _ _, ?_⟩
    have : 0 < p.length := List.length_pos.2 hp
    simp only [List.length_drop]
    omega

theorem parse_consumed (L : NumLib) : ∀ fuel : Nat,
    (∀ p T r, parse_value L fuel p = .ok (T, r) → Consumed r p) ∧
    (∀ p T r, parse_object L fuel p = .ok (T, r) → Consumed r p) ∧
    (∀ p ms T r, parse_object_members L fuel p ms = .ok (T, r) → Consumed r p) ∧
    (∀ p T r, parse_array L fuel p = .ok (T, r) → Consumed r p) ∧
    (∀ p es T r, parse_array_elements L fuel p es = .ok (T, r) → Consumed r p) := by
  intro fuel
  induction fuel with
  | zero =>
    refine ⟨?_, ?_, ?_, ?_, ?_⟩ <;> intros <;> rename_i h <;>
      simp [parse_value, parse_object, parse_object_members, parse_array,
        parse_array_elements] at h
  | succ fuel ih =>
    obtain ⟨ihv, iho, ihm, iha, ihe⟩ := ih
    refine ⟨?_, ?_, ?_, ?_, ?_⟩
    · intro p T r h
      rw [parse_value] at h
      have hs := skip_whitespace_suffix p
      split at h
      · exact Consumed.of_suffix_right (iho _ _ _ h) hs
      · split at h
        · exact Consumed.of_suffix_right (iha _ _ _ h) hs
        · split at h
          · split at h
            · simp at h
            · rename_i str q hq
              simp only [Except.ok.injEq, Prod.mk.injEq] at h
              rw [← h.2]
              exact Consumed.of_suffix_right (parse_string_literal_consumed hq) hs
          · split at h
            · rename_i hc
              split at h
              · simp at h
              · rename_i num q hq
                simp only [Except.ok.injEq, Prod.mk.injEq] at h
                rw [← h.2]
                have hne : skip_whitespace p ≠ [] := by
                  intro e
                  rw [e] at hc
                  revert hc
                  decide
                exact Consumed.of_suffix_right (parse_number_literal_consumed hne hq) hs
            · split at h
              · rename_i hn
                simp only [Except.ok.injEq, Prod.mk.injEq] at h
                rw [← h.2]
                refine Consumed.of_suffix_right ⟨List.drop_suffix _ _, ?_⟩ hs
                have hl : (List.take 4 (skip_whitespace p)).length = 4 := by rw [hn]; rfl
                simp only [List.length_take] at hl
                simp only [List.length_drop]
                omega
              · simp at h
    · intro p T r h
      rw [parse_object] at h
      split at h
      · simp at h
      · rename_i hb
        have hne : p ≠ [] := by
          intro e; rw [e] at hb; revert hb; decide
        have hs : skip_whitespace (skip_whitespace p.tail) <:+ p.tail :=
          (skip_whitespace_suffix _).trans (skip_whitespace_suffix _)
        simp only at h
        split at h
        · simp only [Except.ok.injEq, Prod.mk.injEq] at h
          rw [← h.2]
          exact Consumed.of_suffix_left ((List.tail_suffix _).trans hs) (Consumed.tail hne)
        · exact Consumed.of_suffix_left ((ihm _ _ _ _ h).1.trans hs) (Consumed.tail hne)
    · intro p ms T r h
      rw [parse_object_members] at h
      split at h
      · simp at h
      · rename_i key p1 hk
        have h1 := Consumed.of_suffix_right (parse_string_literal_consumed hk)
          (skip_whitespace_suffix p)
        simp only at h
        split at h
        · simp at h
        · split at h
          · simp at h
          · rename_i value p2 hv
            have h2 : p2 <:+ p1 :=
              ((ihv _ _ _ hv).1.trans (skip_whitespace_suffix _)).trans
                ((List.tail_suffix _).trans (skip_whitespace_suffix _))
            split at h
            · have h3 := (ihm _ _ _ _ h).1
              exact Consumed.of_suffix_left
                (((h3.trans (skip_whitespace_suffix _)).trans (List.tail_suffix _)).trans
                  ((skip_whitespace_suffix _).trans h2)) h1
            · split at h
              · simp only [Except.ok.injEq, Prod.mk.injEq] at h
                rw [← h.2]
                exact Consumed.of_suffix_left
                  ((List.tail_suffix _).trans ((skip_whitespace_suffix _).trans h2)) h1
              · simp at h
    · intro p T r h
      rw [parse_array] at h
      split at h
      · simp at h
      · rename_i hb
        have hne : p ≠ [] := by
          intro e; rw [e] at hb; revert hb; decide
        have hs : skip_whitespace (skip_whitespace p.tail) <:+ p.tail :=
          (skip_whitespace_suffix _).trans (skip_whitespace_suffix _)
        simp only at h
        split at h
        · simp only [Except.ok.injEq, Prod.mk.injEq] at h
          rw [← h.2]
          exact Consumed.of_suffix_left ((List.tail_suffix _).trans hs) (Consumed.tail hne)
        · exact Consumed.of_suffix_left ((ihe _ _ _ _ h).1.trans hs) (Consumed.tail hne)
    · intro p es T r h
      rw [parse_array_elements] at h
      split at h
      · simp at h
      · rename_i element p1 hv
        have h1 := Consumed.of_suffix_right (ihv _ _ _ hv) (skip_whitespace_suffix p)
        simp only at h
        split at h
        · have h3 := (ihe _ _ _ _ h).1
          exact Consumed.of_suffix_left
            (((h3.trans (skip_whitespace_suffix _)).trans (List.tail_suffix _)).trans
              (skip_whitespace_suffix _)) h1
        · split at h
          · simp only [Except.ok.injEq, Prod.mk.injEq] at h
            rw [← h.2]
            exact Consumed.of_suffix_left
              ((List.tail_suffix _).trans (skip_whitespace_suffix _)) h1
          · simp at h

/-! ## Top-level parse -/

theorem skip_whitespace_eq_nil (p : List Char) :
    skip_whitespace p = [] ↔ ∀ c ∈ p, isspace c = true := by
  induction p with
  | nil => simp [skip_whitespace]
  | cons c p ih =>
    unfold skip_whitespace
    by_cases h : isspace c = true
    · simp [h, ih]
    · simp [h]

/-- C4. Whole-input consumption: when `string_to_json` succeeds, `parse_value` has read one
value from the front of the text (after optional whitespace) and everything that remains is
whitespace; when the value is followed by anything that is not whitespace the result is the
error "Extra characters after JSON value." and no tree, as on `null x`, `{} {}`, `[null]]`
and `[1]]`. -/
theorem string_to_json_whole_input (L : NumLib) :
    (∀ s T, string_to_json L s = .ok T →
      ∃ rest, parse_value L (3 * s.length + 1) s = .ok (T, rest) ∧ Consumed rest s ∧
        ∀ c ∈ rest, isspace c = true) ∧
    (∀ s T rest, parse_value L (3 * s.length + 1) s = .ok (T, rest) →
      (∃ c ∈ rest, isspace c = false) → string_to_json L s = .error .TrailingContent) ∧
    string_to_json L "null x".toList = .error .TrailingContent ∧
    string_to_json L "\x7b\x7d \x7b\x7d".toList = .error .TrailingContent ∧
    string_to_json L "[null]]".toList = .error .TrailingContent ∧
    (∀ v, L.strtod "1]]".toList = (v, 1) →
      string_to_json L "[1]]".toList = .error .TrailingContent) ∧
    string_to_json intLib "[1]]".toList = .error .TrailingContent := by
  refine ⟨?_, ?_, rfl, rfl, rfl, ?_, rfl⟩
  · intro s T h
    unfold string_to_json at h
    split at h
    · simp at h
    · rename_i root p hp
      split at h
      · simp at h
      · rename_i hws
        simp only [Except.ok.injEq] at h
        subst h
        exact ⟨p, hp, (parse_consumed L _).1 _ _ _ hp,
          (skip_whitespace_eq_nil p).1 (not_not.1 hws)⟩
  · rintro s T rest hp ⟨c, hc, hcs⟩
    unfold string_to_json
    rw [hp]
    have : skip_whitespace rest ≠ [] := by
      intro e
      have := (skip_whitespace_eq_nil rest).1 e c hc
      rw [hcs] at this
      cases this
    simp [this]
  · intro v hv
    have e1 : L.strtod ['1', ']', ']'] = (v, 1) := hv
    simp [string_to_json, parse_value, parse_array, parse_array_elements, skip_whitespace,
      peek, isspace, isdigit, parse_number_literal, e1, null_literal]

/-- C5. Value dispatch rejects everything unrecognised: when the first character after the
leading whitespace (NUL at the end of the text) is none of `{`, `[`, `"`, `-` or a digit and
the text there does not start with `null`, `string_to_json` fails with "Unexpected
character"; so do `true`, `false`, the empty text and a text of whitespace only, and
`{"a":}` fails that way at the `}` where the value is missing. -/
theorem string_to_json_rejects_unrecognized (L : NumLib) :
    (∀ s, peek (skip_whitespace s) ≠ '{' → peek (skip_whitespace s) ≠ '[' →
      peek (skip_whitespace s) ≠ '"' → peek (skip_whitespace s) ≠ '-' →
      isdigit (peek (skip_whitespace s)) = false →
      (skip_whitespace s).take 4 ≠ null_literal →
      string_to_json L s = .error (.UnexpectedCharacter (peek (skip_whitespace s)))) ∧
    string_to_json L "true".toList = .error (.UnexpectedCharacter 't') ∧
    string_to_json L "false".toList = .error (.UnexpectedCharacter 'f') ∧
    string_to_json L [] = .error (.UnexpectedCharacter '\x00') ∧
    string_to_json L " \t\r\n ".toList = .error (.UnexpectedCharacter '\x00') ∧
    string_to_json L "\x7b\"a\":\x7d".toList = .error (.UnexpectedCharacter '\x7d') := by
  refine ⟨?_, rfl, rfl, rfl, rfl, rfl⟩
  intro s h1 h2 h3 h4 h5 h6
  unfold string_to_json
  rw [parse_value]
  simp [h1, h2, h3, h4, h5, h6]

/-! ## String literals -/

theorem ref_literal_decode_cons {c : Char} (h : c ≠ '\\') (q : List Char) :
    ref_literal_decode (c :: q) = c :: ref_literal_decode q := by
  cases q with
  | nil => simp [ref_literal_decode]
  | cons d q => simp [ref_literal_decode, h]

theorem ref_literal_decode_escape (d : Char) (q : List Char) :
    ref_literal_decode ('\\' :: d :: q) = unescape d :: ref_literal_decode q := by
  simp [ref_literal_decode, unescape]

theorem parse_string_chars_ref : ∀ (n : Nat) (p buffer : List Char), p.length ≤ n →
    parse_string_chars p buffer =
      match ref_literal_split p with
      | some (inside, rest) => .ok (buffer ++ ref_literal_decode inside, rest)
      | none => .error .UnterminatedString := by
  intro n
  induction n with
  | zero =>
    intro p buffer hn
    have : p = [] := List.length_eq_zero.1 (Nat.le_zero.1 hn)
    subst this
    simp [parse_string_chars, ref_literal_split]
  | succ n ih =>
    intro p buffer hn
    cases p with
    | nil => simp [parse_string_chars, ref_literal_split]
    | cons c p =>
      unfold parse_string_chars ref_literal_split
      by_cases h1 : c = '"'
      · simp [h1, ref_literal_decode]
      · by_cases h2 : c = '\\'
        · subst h2
          cases p with
          | nil => simp
          | cons d q =>
            simp only [h1, if_false, if_true]
            rw [ih q _ (by simp at hn ⊢; omega)]
            cases ref_literal_split q with
            | none => rfl
            | some ir =>
              obtain ⟨inside, rest⟩ := ir
              simp [ref_literal_decode_escape]
        · simp only [h1, h2, if_false]
          rw [ih p _ (by simpa using hn)]
          cases ref_literal_split p with
          | none => rfl
          | some ir =>
            obtain ⟨inside, rest⟩ := ir
            simp [ref_literal_decode_cons h2]

theorem ref_literal_split_cut : ∀ (n : Nat) (p inside rest : List Char), p.length ≤ n →
    ref_literal_split p = some (inside, rest) → p = inside ++ '"' :: rest := by
  intro n
  induction n with
  | zero =>
    intro p inside rest hn h
    have : p = [] := List.length_eq_zero.1 (Nat.le_zero.1 hn)
    subst this
    simp [ref_literal_split] at h
  | succ n ih =>
    intro p inside rest hn h
    cases p with
    | nil => simp [ref_literal_split] at h
    | cons c p =>
      unfold ref_literal_split at h
      by_cases h1 : c = '"'
      · simp only [h1, if_true, Option.some.injEq, Prod.mk.injEq] at h
        rw [h1, ← h.1, ← h.2]
        rfl
      · by_cases h2 : c = '\\'
        · subst h2
          cases p with
          | nil => simp at h
          | cons d q =>
            simp only [h1, if_false, if_true] at h
            cases hq : ref_literal_split q with
            | none => simp [hq] at h
            | some ir =>
              obtain ⟨i, r⟩ := ir
              simp only [hq, Option.some.injEq, Prod.mk.injEq] at h
              have := ih q i r (by simp at hn ⊢; omega) hq
              rw [this, ← h.1, ← h.2]
              rfl
        · simp only [h1, h2, if_false] at h
          cases hq : ref_literal_split p with
          | none => simp [hq] at h
          | some ir =>
            obtain ⟨i, r⟩ := ir
            simp only [hq, Option.some.injEq, Prod.mk.injEq] at h
            have := ih p i r (by simpa using hn) hq
            rw [this, ← h.1, ← h.2]
            rfl

/-- C6. String-literal decoding equals the reference: after an opening `"` the literal is
cut at the first `"` not preceded by an escaping backslash (`ref_literal_split`, which
returns the two parts of the text around that quote) and its inside is decoded by
`ref_literal_decode`; the literal fails with "Unterminated string literal." exactly when
the end of the input comes before such a quote, also right after a backslash. So `\/`
gives `/`, `\b` gives `b`, `\u0041` gives `u0041`, and `{"x": "hi\n"}` parses to an Object
whose member `x` is the String `hi` followed by a newline. -/
theorem parse_string_literal_ref (L : NumLib) :
    (∀ p, parse_string_literal ('"' :: p) =
      match ref_literal_split p with
      | some (inside, rest) => .ok (ref_literal_decode inside, rest)
      | none => .error .UnterminatedString) ∧
    (∀ p inside rest, ref_literal_split p = some (inside, rest) →
      p = inside ++ '"' :: rest) ∧
    (∀ p, parse_string_literal ('"' :: p) = .error .UnterminatedString ↔
      ref_literal_split p = none) ∧
    parse_string_literal "\"a\\/b\" x".toList = .ok ("a/b".toList, " x".toList) ∧
    parse_string_literal "\"\\b\"".toList = .ok (['b'], []) ∧
    parse_string_literal "\"\\u0041\"".toList = .ok ("u0041".toList, []) ∧
    parse_string_literal "\"\\\"\\\\\\n\\t\"".toList = .ok (['"', '\\', '\n', '\t'], []) ∧
    parse_string_literal "\"abc".toList = .error .UnterminatedString ∧
    parse_string_literal "\"abc\\".toList = .error .UnterminatedString ∧
    parse_string_literal "\"abc\\\"".toList = .error .UnterminatedString ∧
    string_to_json L "\x7b\"x\": \"hi\\n\"\x7d".toList =
      .ok (OBJECT none (some [STRING (some ['x']) (some ['h', 'i', '\n'])])) := by
  have main : ∀ p, parse_string_literal ('"' :: p) =
      match ref_literal_split p with
      | some (inside, rest) => .ok (ref_literal_decode inside, rest)
      | none => .error .UnterminatedString := by
    intro p
    have := parse_string_chars_ref p.length p [] le_rfl
    simpa [parse_string_literal, peek] using this
  refine ⟨main, fun p i r h => ref_literal_split_cut p.length p i r le_rfl h, ?_,
    rfl, rfl, rfl, rfl, rfl, rfl, rfl, rfl⟩
  intro p
  rw [main p]
  cases ref_literal_split p with
  | none => simp
  | some ir => simp

/-! ## Keys of parsed trees -/

theorem key_set_key {D : Type} (k : Option (List Char)) (n : json_node D) :
    (n.set_key k).key = k := by
  cases n <;> rfl

theorem keys_below_set_key {D : Type} (k : Option (List Char)) (n : json_node D) :
    keys_below (n.set_key k) = keys_below n := by
  cases n with
  | NULL _ => rfl
  | STRING _ _ => rfl
  | NUMBER _ _ => rfl
  | OBJECT _ a => cases a <;> simp [json_node.set_key, keys_below]
  | ARRAY _ a => cases a <;> simp [json_node.set_key, keys_below]

theorem members_keyed_append {D : Type} (l : List (json_node D)) (v : json_node D) :
    members_keyed (l ++ [v]) = (members_keyed l && (v.key.isSome && keys_below v)) := by
  induction l with
  | nil => simp [members_keyed]
  | cons a l ih => simp [members_keyed, ih, Bool.and_assoc]

theorem elements_unkeyed_append {D : Type} (l : List (json_node D)) (v : json_node D) :
    elements_unkeyed (l ++ [v]) = (elements_unkeyed l && (v.key.isNone && keys_below v)) := by
  induction l with
  | nil => simp [elements_unkeyed]
  | cons a l ih => simp [elements_unkeyed, ih, Bool.and_assoc]

theorem parse_keys (L : NumLib) : ∀ fuel : Nat,
    (∀ p T r, parse_value L fuel p = .ok (T, r) → T.key = none ∧ keys_below T = true) ∧
    (∀ p T r, parse_object L fuel p = .ok (T, r) → T.key = none ∧ keys_below T = true) ∧
    (∀ p ms T r, parse_object_members L fuel p ms = .ok (T, r) →
      ∃ more, T = OBJECT none (some (ms ++ more)) ∧ more ≠ [] ∧
        (members_keyed ms = true → members_keyed (ms ++ more) = true)) ∧
    (∀ p T r, parse_array L fuel p = .ok (T, r) → T.key = none ∧ keys_below T = true) ∧
    (∀ p es T r, parse_array_elements L fuel p es = .ok (T, r) →
      ∃ more, T = ARRAY none (some (es ++ more)) ∧ more ≠ [] ∧
        (elements_unkeyed es = true → elements_unkeyed (es ++ more) = true)) := by
  intro fuel
  induction fuel with
  | zero =>
    refine ⟨?_, ?_, ?_, ?_, ?_⟩ <;> intros <;> rename_i h <;>
      simp [parse_value, parse_object, parse_object_members, parse_array,
        parse_array_elements] at h
  | succ fuel ih =>
    obtain ⟨ihv, iho, ihm, iha, ihe⟩ := ih
    refine ⟨?_, ?_, ?_, ?_, ?_⟩
    · intro p T r h
      rw [parse_value] at h
      split at h
      · exact iho _ _ _ h
      · split at h
        · exact iha _ _ _ h
        · split at h
          · split at h
            · simp at h
            · simp only [Except.ok.injEq, Prod.mk.injEq] at h
              rw [← h.1]
              exact ⟨rfl, rfl⟩
          · split at h
            · split at h
              · simp at h
              · simp only [Except.ok.injEq, Prod.mk.injEq] at h
                rw [← h.1]
                exact ⟨rfl, rfl⟩
            · split at h
              · simp only [Except.ok.injEq, Prod.mk.injEq] at h
                rw [← h.1]
                exact ⟨rfl, rfl⟩
              · simp at h
    · intro p T r h
      rw [parse_object] at h
      split at h
      · simp at h
      · simp only at h
        split at h
        · simp only [Except.ok.injEq, Prod.mk.injEq] at h
          rw [← h.1]
          exact ⟨rfl, rfl⟩
        · obtain ⟨more, hT, _, hk⟩ := ihm _ _ _ _ h
          rw [hT]
          exact ⟨rfl, by simpa [keys_below] using hk rfl⟩
    · intro p ms T r h
      rw [parse_object_members] at h
      split at h
      · simp at h
      · rename_i key p1 hk
        simp only at h
        split at h
        · simp at h
        · split at h
          · simp at h
          · rename_i value p2 hv
            have hval := ihv _ _ _ hv
            have hnew : members_keyed (ms ++ [value.set_key (some key)]) =
                members_keyed ms := by
              rw [members_keyed_append, key_set_key, keys_below_set_key, hval.2]
              simp
            split at h
            · obtain ⟨more, hT, _, hkeys⟩ := ihm _ _ _ _ h
              refine ⟨value.set_key (some key) :: more, by simpa using hT, by simp, ?_⟩
              intro hms
              have := hkeys (by rw [hnew]; exact hms)
              simpa using this
            · split at h
              · simp only [Except.ok.injEq, Prod.mk.injEq] at h
                refine ⟨[value.set_key (some key)], h.1.symm, by simp, ?_⟩
                intro hms
                rw [hnew]
                exact hms
              · simp at h
    · intro p T r h
      rw [parse_array] at h
      split at h
      · simp at h
      · simp only at h
        split at h
        · simp only [Except.ok.injEq, Prod.mk.injEq] at h
          rw [← h.1]
          exact ⟨rfl, rfl⟩
        · obtain ⟨more, hT, _, hk⟩ := ihe _ _ _ _ h
          rw [hT]
          exact ⟨rfl, by simpa [keys_below] using hk rfl⟩
    · intro p es T r h
      rw [parse_array_elements] at h
      split at h
      · simp at h
      · rename_i element p1 hv
        have hval := ihv _ _ _ hv
        have hnew : elements_unkeyed (es ++ [element]) = elements_unkeyed es := by
          rw [elements_unkeyed_append, hval.1, hval.2]
          simp
        simp only at h
        split at h
        · obtain ⟨more, hT, _, hkeys⟩ := ihe _ _ _ _ h
          refine ⟨element :: more, by simpa using hT, by simp, ?_⟩
          intro hes
          have := hkeys (by rw [hnew]; exact hes)
          simpa using this
        · split at h
          · simp only [Except.ok.injEq, Prod.mk.injEq] at h
            refine ⟨[element], h.1.symm, by simp, ?_⟩
            intro hes
            rw [hnew]
            exact hes
          · simp at h

/-- C10. Parsed trees satisfy the key invariant: in the tree of a successful
`string_to_json` the root has no key, every member of an Object has a key and no element of
an Array has one (`keys_below`); and each turn of the member loop of `parse_object` that
leads to a result stores, at the next index, the parsed value carrying as key the string
literal decoded in front of its `:`. -/
theorem string_to_json_key_invariant (L : NumLib) :
    (∀ s T, string_to_json L s = .ok T → T.key = none ∧ keys_below T = true) ∧
    (∀ fuel p members T r, parse_object_members L (fuel + 1) p members = .ok (T, r) →
      ∃ key p1 value p2,
        parse_string_literal (skip_whitespace p) = .ok (key, p1) ∧
        peek (skip_whitespace p1) = ':' ∧
        parse_value L fuel (skip_whitespace (skip_whitespace p1).tail) = .ok (value, p2) ∧
        T.children.get? members.length = some (value.set_key (some key))) ∧
    string_to_json L "\x7b\"k\" : [null, \x7b\"\":\"v\"\x7d]\x7d".toList =
      .ok (OBJECT none (some [ARRAY (some ['k']) (some [NULL none,
        OBJECT none (some [STRING (some []) (some ['v'])])])])) := by
  refine ⟨?_, ?_, rfl⟩
  · intro s T h
    unfold string_to_json at h
    split at h
    · simp at h
    · rename_i root p hp
      split at h
      · simp at h
      · simp only [Except.ok.injEq] at h
        subst h
        exact (parse_keys L _).1 _ _ _ hp
  · intro fuel p members T r h
    rw [parse_object_members] at h
    split at h
    · simp at h
    · rename_i key p1 hk
      simp only at h
      split at h
      · simp at h
      · rename_i hcolon
        split at h
        · simp at h
        · rename_i value p2 hv
          refine ⟨key, p1, value, p2, hk, not_not.1 hcolon, hv, ?_⟩
          split at h
          · obtain ⟨more, hT, _, _⟩ := (parse_keys L fuel).2.2.1 _ _ _ _ h
            rw [hT]
            show (members ++ [value.set_key (some key)] ++ more).get? members.length = _
            rw [List.append_assoc, List.get?_eq_getElem?,
              List.getElem?_append_right (le_refl _)]
            simp
          · split at h
            · simp only [Except.ok.injEq, Prod.mk.injEq] at h
              rw [← h.1]
              simp [json_node.children]
            · simp at h

/-! ## Round trip: preparations -/

theorem skip_whitespace_blank (w p : List Char) (hw : ∀ c ∈ w, isspace c = true) :
    skip_whitespace (w ++ p) = skip_whitespace p := by
  induction w with
  | nil => rfl
  | cons c w ih =>
    have hc : isspace c = true := hw c (by simp)
    simp only [List.cons_append, skip_whitespace, hc, if_true]
    exact ih (fun x hx => hw x (List.mem_cons_of_mem _ hx))

theorem skip_whitespace_cons {c : Char} (p : List Char) (hc : isspace c = false) :
    skip_whitespace (c :: p) = c :: p := by
  simp [skip_whitespace, hc]

theorem skip_whitespace_idem (p : List Char) :
    skip_whitespace (skip_whitespace p) = skip_whitespace p := by
  induction p with
  | nil => rfl
  | cons c p ih =>
    by_cases hc : isspace c = true
    · simp only [skip_whitespace, hc, if_true, ih]
    · have hc' : isspace c = false := by simpa using hc
      rw [skip_whitespace_cons p hc', skip_whitespace_cons p hc']

theorem parse_value_skip (L : NumLib) (fuel : Nat) (p : List Char) :
    parse_value L fuel (skip_whitespace p) = parse_value L fuel p := by
  cases fuel with
  | zero => simp [parse_value]
  | succ fuel => rw [parse_value, parse_value, skip_whitespace_idem]

theorem parse_object_members_skip (L : NumLib) (fuel : Nat) (p : List Char)
    (ms : List (json_node L.double)) :
    parse_object_members L fuel (skip_whitespace p) ms = parse_object_members L fuel p ms := by
  cases fuel with
  | zero => simp [parse_object_members]
  | succ fuel => rw [parse_object_members, parse_object_members, skip_whitespace_idem]

theorem parse_array_elements_skip (L : NumLib) (fuel : Nat) (p : List Char)
    (es : List (json_node L.double)) :
    parse_array_elements L fuel (skip_whitespace p) es =
      parse_array_elements L fuel p es := by
  cases fuel with
  | zero => simp [parse_array_elements]
  | succ fuel => rw [parse_array_elements, parse_array_elements, skip_whitespace_idem]

theorem parse_string_chars_quote (p buffer : List Char) :
    parse_string_chars ('"' :: p) buffer = .ok (buffer, p) := by
  unfold parse_string_chars
  simp

theorem parse_string_chars_backslash (d : Char) (q buffer : List Char) :
    parse_string_chars ('\\' :: d :: q) buffer =
      parse_string_chars q (buffer ++ [unescape d]) := by
  rw [parse_string_chars]
  simp

theorem parse_string_chars_plain {c : Char} (h1 : c ≠ '"') (h2 : c ≠ '\\')
    (p buffer : List Char) :
    parse_string_chars (c :: p) buffer = parse_string_chars p (buffer ++ [c]) := by
  conv => lhs; unfold parse_string_chars
  simp [h1, h2]

theorem parse_string_chars_escape (s rest buffer : List Char) :
    parse_string_chars (escape_chars s ++ '"' :: rest) buffer = .ok (buffer ++ s, rest) := by
  induction s generalizing buffer with
  | nil => simp [escape_chars, parse_string_chars_quote]
  | cons c s ih =>
    unfold escape_chars
    by_cases h1 : c = '"'
    · subst h1
      simp [parse_string_chars_backslash, unescape, ih]
    · by_cases h2 : c = '\\'
      · subst h2
        simp [parse_string_chars_backslash, unescape, ih]
      · by_cases h3 : c = '\n'
        · subst h3
          simp [parse_string_chars_backslash, unescape, ih]
        · by_cases h4 : c = '\t'
          · subst h4
            simp [parse_string_chars_backslash, unescape, ih]
          · simp [parse_string_chars_plain h1 h2, h1, h2, h3, h4, ih]

theorem parse_string_literal_quoted (s rest : List Char) :
    parse_string_literal (quoted s ++ rest) = .ok (s, rest) := by
  have := parse_string_chars_escape s rest []
  simpa [parse_string_literal, quoted, peek] using this

/-- Induction on trees: a property that holds for the scalars, and for an Object or Array
whenever it holds for the children, holds for every tree. -/
theorem json_node.induction_on {D : Type} {motive : json_node D → Prop}
    (hnull : ∀ k, motive (NULL k)) (hstring : ∀ k s, motive (STRING k s))
    (hnumber : ∀ k x, motive (NUMBER k x))
    (hobject : ∀ k a, (∀ c ∈ (OBJECT k a).children, motive c) → motive (OBJECT k a))
    (harray : ∀ k a, (∀ c ∈ (ARRAY k a).children, motive c) → motive (ARRAY k a)) :
    ∀ T, motive T := by
  intro T
  exact json_node.rec (motive_1 := motive)
    (motive_2 := fun a => ∀ c ∈ a.getD [], motive c)
    (motive_3 := fun l => ∀ c ∈ l, motive c)
    hnull hstring hnumber
    (fun k a ih => hobject k a (by
      cases a with
      | none => simp [json_node.children]
      | some l => exact ih))
    (fun k a ih => harray k a (by
      cases a with
      | none => simp [json_node.children]
      | some l => exact ih))
    (by simp) (fun l ih => by simpa using ih)
    (by simp) (fun c l hc hl => by
      intro x hx
      rcases List.mem_cons.1 hx with rfl | hx
      · exact hc
      · exact hl x hx) T

theorem parse_value_blank (L : NumLib) (fuel : Nat) (w p : List Char)
    (hw : ∀ c ∈ w, isspace c = true) :
    parse_value L fuel (w ++ p) = parse_value L fuel p := by
  rw [← parse_value_skip L fuel (w ++ p), skip_whitespace_blank w p hw, parse_value_skip]

theorem parse_object_members_blank (L : NumLib) (fuel : Nat) (w p : List Char)
    (ms : List (json_node L.double)) (hw : ∀ c ∈ w, isspace c = true) :
    parse_object_members L fuel (skip_whitespace (w ++ p)) ms =
      parse_object_members L fuel p ms := by
  rw [skip_whitespace_blank w p hw, parse_object_members_skip]

theorem isspace_of_isdigit {c : Char} (h : isdigit c = true) : isspace c = false := by
  cases hs : isspace c with
  | false => rfl
  | true =>
    simp only [isspace, Bool.or_eq_true, decide_eq_true_eq] at hs
    rcases hs with ((((rfl | rfl) | rfl) | rfl) | rfl) | rfl <;> revert h <;> decide

theorem ends_value_blank (w : List Char) (c : Char) (t : List Char)
    (hw : ∀ x ∈ w, isspace x = true) (hc : c = ',' ∨ c = '}' ∨ c = ']') :
    ends_value (w ++ c :: t) = true := by
  cases w with
  | nil =>
    rcases hc with rfl | rfl | rfl <;> rfl
  | cons x w =>
    have := hw x (by simp)
    simp [ends_value, this]

/-- One turn of the member loop on a text whose key is a quoted string. -/
theorem parse_object_members_step (L : NumLib) (fuel : Nat) (p key R X : List Char)
    (value : json_node L.double) (acc : List (json_node L.double))
    (h1 : skip_whitespace p = quoted key ++ ':' :: R)
    (h2 : parse_value L fuel R = .ok (value, X)) :
    parse_object_members L (fuel + 1) p acc =
      if peek (skip_whitespace X) = ',' then
        parse_object_members L fuel (skip_whitespace X).tail
          (acc ++ [value.set_key (some key)])
      else if peek (skip_whitespace X) = '}' then
        .ok (OBJECT none (some (acc ++ [value.set_key (some key)])), (skip_whitespace X).tail)
      else .error (.MissingDelimiter .comma_or_brace) := by
  have hc : isspace ':' = false := by decide
  rw [parse_object_members, h1, parse_string_literal_quoted]
  simp only [skip_whitespace_cons R hc, peek, List.headD_cons, ne_eq, not_true_eq_false,
    if_false, List.tail_cons, parse_value_skip, h2, parse_object_members_skip]

/-- One turn of the element loop. -/
theorem parse_array_elements_step (L : NumLib) (fuel : Nat) (p X : List Char)
    (value : json_node L.double) (acc : List (json_node L.double))
    (h2 : parse_value L fuel p = .ok (value, X)) :
    parse_array_elements L (fuel + 1) p acc =
      if peek (skip_whitespace X) = ',' then
        parse_array_elements L fuel (skip_whitespace X).tail (acc ++ [value])
      else if peek (skip_whitespace X) = ']' then
        .ok (ARRAY none (some (acc ++ [value])), (skip_whitespace X).tail)
      else .error (.MissingDelimiter .comma_or_bracket) := by
  rw [parse_array_elements]
  simp only [parse_value_skip, h2, parse_array_elements_skip]

/-- The Object case of `parse_value` after the opening brace. -/
theorem parse_value_object_step (L : NumLib) (fuel : Nat) (p : List Char) :
    parse_value L (fuel + 2) ('{' :: p) =
      if peek (skip_whitespace p) = '}' then
        .ok (OBJECT none (some []), (skip_whitespace p).tail)
      else parse_object_members L fuel p [] := by
  have hc : isspace '{' = false := by decide
  rw [parse_value, skip_whitespace_cons p hc]
  simp only [peek, List.headD_cons, if_true]
  rw [parse_object]
  simp only [peek, List.headD_cons, ne_eq, not_true_eq_false, if_false, List.tail_cons,
    skip_whitespace_idem, parse_object_members_skip]

/-- The Array case of `parse_value` after the opening bracket. -/
theorem parse_value_array_step (L : NumLib) (fuel : Nat) (p : List Char) :
    parse_value L (fuel + 2) ('[' :: p) =
      if peek (skip_whitespace p) = ']' then
        .ok (ARRAY none (some []), (skip_whitespace p).tail)
      else parse_array_elements L fuel p [] := by
  have hc : isspace '[' = false := by decide
  rw [parse_value, skip_whitespace_cons p hc]
  have h1 : ('[' : Char) ≠ '{' := by decide
  simp only [peek, List.headD_cons, h1, if_false, if_true]
  rw [parse_array]
  simp only [peek, List.headD_cons, ne_eq, not_true_eq_false, if_false, List.tail_cons,
    skip_whitespace_idem, parse_array_elements_skip]

theorem parse_value_null (L : NumLib) (fuel : Nat) (rest : List Char) :
    parse_value L (fuel + 1) (null_literal ++ rest) = .ok (NULL none, rest) := by
  rw [parse_value]
  simp [null_literal, skip_whitespace, isspace, peek, isdigit]

theorem parse_value_string (L : NumLib) (fuel : Nat) (s rest : List Char) :
    parse_value L (fuel + 1) (quoted s ++ rest) = .ok (STRING none (some s), rest) := by
  have hq : skip_whitespace (quoted s ++ rest) = quoted s ++ rest := by
    simp [quoted, skip_whitespace, isspace]
  have hp : peek (quoted s ++ rest) = '"' := by simp [quoted, peek]
  rw [parse_value]
  simp only [hq, hp, parse_string_literal_quoted]
  simp

theorem parse_value_number (L : NumLib) (fuel : Nat) (x : L.double) (rest : List Char)
    (hx : L.scans x) (hr : ends_value rest = true) :
    parse_value L (fuel + 1) (L.fmt_g x ++ rest) =
      .ok (NUMBER none (L.strtod (L.fmt_g x)).1, rest) := by
  obtain ⟨hstart, hscan⟩ := hx
  have hs := hscan rest hr
  have hne : ∃ c t, L.fmt_g x = c :: t := by
    cases hf : L.fmt_g x with
    | nil =>
      rw [hf] at hstart
      exact absurd hstart (by decide)
    | cons c t => exact ⟨c, t, rfl⟩
  obtain ⟨c, t, hf⟩ := hne
  rw [hf] at hstart hs ⊢
  simp only [peek, List.headD_cons] at hstart
  have hws : isspace c = false := by
    rcases hstart with h | h
    · exact isspace_of_isdigit h
    · subst h; decide
  have h1 : c ≠ '{' := by
    rintro rfl; revert hstart; decide
  have h2 : c ≠ '[' := by
    rintro rfl; revert hstart; decide
  have h3 : c ≠ '"' := by
    rintro rfl; revert hstart; decide
  have h4 : c = '-' ∨ isdigit c = true := hstart.symm
  rw [parse_value, List.cons_append, skip_whitespace_cons _ hws]
  simp only [peek, List.headD_cons, h1, h2, h3, h4, if_false, if_true]
  have hs' : L.strtod (c :: (t ++ rest)) = ((L.strtod (c :: t)).1, t.length + 1) := by
    simpa using hs
  simp [parse_number_literal, hs']

/-! ## Round trip: the texts of a tree parse back -/

theorem skip_whitespace_quoted (key p : List Char) :
    skip_whitespace (quoted key ++ p) = quoted key ++ p := by
  simp [quoted, skip_whitespace, isspace]

theorem parse_render_members (L : NumLib) (lay : layout) (hlay : lay.blank) (d : Nat)
    (rest : List Char) :
    ∀ l : List (json_node L.double), l ≠ [] → (∀ m ∈ l, parses_back L lay m) →
      serializable_members l = true → (∀ x ∈ numbers_of_list l, L.scans x) →
      ∀ (w : List Char) (fuel : Nat) (acc : List (json_node L.double)),
        (∀ c ∈ w, isspace c = true) →
        3 * (w ++ (render_members L lay d l ++ (lay.indent d ++ '}' :: rest))).length + 2
          ≤ fuel →
        parse_object_members L fuel
            (w ++ (render_members L lay d l ++ (lay.indent d ++ '}' :: rest))) acc =
          .ok (OBJECT none (some (acc ++ reparse_members L l)), rest) := by
  obtain ⟨hopen, hindent, hcolon, hitem⟩ := hlay
  intro l
  induction l with
  | nil => intro h; exact absurd rfl h
  | cons m ms ih =>
    intro _ hall hser hnum w fuel acc hw hfuel
    simp only [serializable_members, Bool.and_eq_true] at hser
    obtain ⟨⟨hk, hsm⟩, hsms⟩ := hser
    obtain ⟨key, hkey⟩ := Option.isSome_iff_exists.1 hk
    obtain ⟨fuel, rfl⟩ : ∃ f, fuel = f + 1 := ⟨fuel - 1, by omega⟩
    have hnm : ∀ x ∈ numbers_of m, L.scans x := fun x hx =>
      hnum x (by simp [numbers_of_list, hx])
    have hnms : ∀ x ∈ numbers_of_list ms, L.scans x := fun x hx =>
      hnum x (by simp [numbers_of_list, hx])
    have hrm : reparse_members L (m :: ms) =
        (reparse L m).set_key (some key) :: reparse_members L ms := by
      simp [reparse_members, hkey]
    cases ms with
    | nil =>
      have htext : w ++ (render_members L lay d [m] ++ (lay.indent d ++ '}' :: rest)) =
          (w ++ lay.indent (d + 1)) ++ (quoted key ++ ':' :: (lay.after_colon ++
            (render L lay (d + 1) m ++ (lay.after_item ++ (lay.indent d ++ '}' :: rest))))) := by
        simp [render_members, hkey, List.append_assoc]
      rw [htext] at hfuel ⊢
      have h1 : skip_whitespace ((w ++ lay.indent (d + 1)) ++ (quoted key ++ ':' ::
          (lay.after_colon ++ (render L lay (d + 1) m ++
            (lay.after_item ++ (lay.indent d ++ '}' :: rest)))))) = quoted key ++ ':' ::
          (lay.after_colon ++ (render L lay (d + 1) m ++
            (lay.after_item ++ (lay.indent d ++ '}' :: rest)))) := by
        rw [skip_whitespace_blank _ _ (by
          intro c hc
          rcases List.mem_append.1 hc with h | h
          · exact hw c h
          · exact hindent _ c h), skip_whitespace_quoted]
      have hX : ends_value (lay.after_item ++ (lay.indent d ++ '}' :: rest)) = true := by
        rw [← List.append_assoc]
        exact ends_value_blank _ _ _ (by
          intro c hc
          rcases List.mem_append.1 hc with h | h
          · exact hitem c h
          · exact hindent _ c h) (Or.inr (Or.inl rfl))
      have h2 : parse_value L fuel (lay.after_colon ++ (render L lay (d + 1) m ++
          (lay.after_item ++ (lay.indent d ++ '}' :: rest)))) =
          .ok (reparse L m, lay.after_item ++ (lay.indent d ++ '}' :: rest)) := by
        rw [parse_value_blank L fuel _ _ hcolon]
        refine hall m (by simp) hsm hnm (d + 1) fuel _ hX ?_
        simp only [List.length_append, List.length_cons] at hfuel ⊢
        omega
      rw [parse_object_members_step L fuel _ key _ _ _ acc h1 h2]
      have hskip : skip_whitespace (lay.after_item ++ (lay.indent d ++ '}' :: rest)) =
          '}' :: rest := by
        rw [← List.append_assoc, skip_whitespace_blank _ _ (by
          intro c hc
          rcases List.mem_append.1 hc with h | h
          · exact hitem c h
          · exact hindent _ c h)]
        exact skip_whitespace_cons _ (by decide)
      rw [hskip, hrm]
      simp [peek, reparse_members]
    | cons m2 ms2 =>
      have htext : w ++ (render_members L lay d (m :: m2 :: ms2) ++
            (lay.indent d ++ '}' :: rest)) =
          (w ++ lay.indent (d + 1)) ++ (quoted key ++ ':' :: (lay.after_colon ++
            (render L lay (d + 1) m ++ (',' :: (lay.after_item ++
              (render_members L lay d (m2 :: ms2) ++ (lay.indent d ++ '}' :: rest))))))) := by
        rw [render_members]
        simp [hkey, List.append_assoc]
      rw [htext] at hfuel ⊢
      have h1 : skip_whitespace ((w ++ lay.indent (d + 1)) ++ (quoted key ++ ':' ::
          (lay.after_colon ++ (render L lay (d + 1) m ++ (',' :: (lay.after_item ++
              (render_members L lay d (m2 :: ms2) ++ (lay.indent d ++ '}' :: rest)))))))) =
          quoted key ++ ':' :: (lay.after_colon ++ (render L lay (d + 1) m ++
            (',' :: (lay.after_item ++
              (render_members L lay d (m2 :: ms2) ++ (lay.indent d ++ '}' :: rest)))))) := by
        rw [skip_whitespace_blank _ _ (by
          intro c hc
          rcases List.mem_append.1 hc with h | h
          · exact hw c h
          · exact hindent _ c h), skip_whitespace_quoted]
      have h2 : parse_value L fuel (lay.after_colon ++ (render L lay (d + 1) m ++
          (',' :: (lay.after_item ++
              (render_members L lay d (m2 :: ms2) ++ (lay.indent d ++ '}' :: rest)))))) =
          .ok (reparse L m, ',' :: (lay.after_item ++
              (render_members L lay d (m2 :: ms2) ++ (lay.indent d ++ '}' :: rest)))) := by
        rw [parse_value_blank L fuel _ _ hcolon]
        refine hall m (by simp) hsm hnm (d + 1) fuel _ rfl ?_
        simp only [List.length_append, List.length_cons] at hfuel ⊢
        omega
      rw [parse_object_members_step L fuel _ key _ _ _ acc h1 h2,
        skip_whitespace_cons _ (by decide)]
      simp only [peek, List.headD_cons, if_true, List.tail_cons]
      rw [ih (by simp) (fun x hx => hall x (List.mem_cons_of_mem _ hx)) hsms hnms
        lay.after_item fuel _ hitem (by
          simp only [List.length_append, List.length_cons] at hfuel ⊢
          omega), hrm]
      simp

theorem render_not_blank (L : NumLib) (lay : layout) (d : Nat) (T : json_node L.double)
    (hs : serializable T = true) (hn : ∀ x ∈ numbers_of T, L.scans x) (p : List Char) :
    ∃ c t, render L lay d T ++ p = c :: t ∧ isspace c = false ∧ c ≠ ']' := by
  cases T with
  | NULL k => exact ⟨'n', _, rfl, by decide, by decide⟩
  | STRING k s => exact ⟨'"', _, rfl, by decide, by decide⟩
  | NUMBER k x =>
    obtain ⟨hstart, _⟩ := hn x (by simp [numbers_of])
    cases hf : L.fmt_g x with
    | nil =>
      rw [hf] at hstart
      exact absurd hstart (by decide)
    | cons c t =>
      rw [hf] at hstart
      simp only [peek, List.headD_cons] at hstart
      refine ⟨c, t ++ p, by simp [render, hf], ?_, ?_⟩
      · rcases hstart with h | h
        · exact isspace_of_isdigit h
        · subst h; decide
      · rintro rfl; revert hstart; decide
  | OBJECT k a => cases a <;> exact ⟨'{', _, rfl, by decide, by decide⟩
  | ARRAY k a => cases a <;> exact ⟨'[', _, rfl, by decide, by decide⟩

theorem parse_render_elements (L : NumLib) (lay : layout) (hlay : lay.blank) (d : Nat)
    (rest : List Char) :
    ∀ l : List (json_node L.double), l ≠ [] → (∀ e ∈ l, parses_back L lay e) →
      serializable_elements l = true → (∀ x ∈ numbers_of_list l, L.scans x) →
      ∀ (w : List Char) (fuel : Nat) (acc : List (json_node L.double)),
        (∀ c ∈ w, isspace c = true) →
        3 * (w ++ (render_elements L lay d l ++ (lay.indent d ++ ']' :: rest))).length + 2
          ≤ fuel →
        parse_array_elements L fuel
            (w ++ (render_elements L lay d l ++ (lay.indent d ++ ']' :: rest))) acc =
          .ok (ARRAY none (some (acc ++ reparse_elements L l)), rest) := by
  obtain ⟨hopen, hindent, hcolon, hitem⟩ := hlay
  intro l
  induction l with
  | nil => intro h; exact absurd rfl h
  | cons e es ih =>
    intro _ hall hser hnum w fuel acc hw hfuel
    simp only [serializable_elements, Bool.and_eq_true] at hser
    obtain ⟨hse, hses⟩ := hser
    obtain ⟨fuel, rfl⟩ : ∃ f, fuel = f + 1 := ⟨fuel - 1, by omega⟩
    have hne : ∀ x ∈ numbers_of e, L.scans x := fun x hx =>
      hnum x (by simp [numbers_of_list, hx])
    have hnes : ∀ x ∈ numbers_of_list es, L.scans x := fun x hx =>
      hnum x (by simp [numbers_of_list, hx])
    have hwi : ∀ c ∈ w ++ lay.indent (d + 1), isspace c = true := by
      intro c hc
      rcases List.mem_append.1 hc with h | h
      · exact hw c h
      · exact hindent _ c h
    cases es with
    | nil =>
      have htext : w ++ (render_elements L lay d [e] ++ (lay.indent d ++ ']' :: rest)) =
          (w ++ lay.indent (d + 1)) ++ (render L lay (d + 1) e ++
            (lay.after_item ++ (lay.indent d ++ ']' :: rest))) := by
        simp [render_elements, List.append_assoc]
      rw [htext] at hfuel ⊢
      have hX : ends_value (lay.after_item ++ (lay.indent d ++ ']' :: rest)) = true := by
        rw [← List.append_assoc]
        exact ends_value_blank _ _ _ (by
          intro c hc
          rcases List.mem_append.1 hc with h | h
          · exact hitem c h
          · exact hindent _ c h) (Or.inr (Or.inr rfl))
      have h2 : parse_value L fuel ((w ++ lay.indent (d + 1)) ++ (render L lay (d + 1) e ++
          (lay.after_item ++ (lay.indent d ++ ']' :: rest)))) =
          .ok (reparse L e, lay.after_item ++ (lay.indent d ++ ']' :: rest)) := by
        rw [parse_value_blank L fuel _ _ hwi]
        refine hall e (by simp) hse hne (d + 1) fuel _ hX ?_
        simp only [List.length_append, List.length_cons] at hfuel ⊢
        omega
      rw [parse_array_elements_step L fuel _ _ _ acc h2]
      have hskip : skip_whitespace (lay.after_item ++ (lay.indent d ++ ']' :: rest)) =
          ']' :: rest := by
        rw [← List.append_assoc, skip_whitespace_blank _ _ (by
          intro c hc
          rcases List.mem_append.1 hc with h | h
          · exact hitem c h
          · exact hindent _ c h)]
        exact skip_whitespace_cons _ (by decide)
      rw [hskip]
      simp [peek, reparse_elements]
    | cons e2 es2 =>
      have htext : w ++ (render_elements L lay d (e :: e2 :: es2) ++
            (lay.indent d ++ ']' :: rest)) =
          (w ++ lay.indent (d + 1)) ++ (render L lay (d + 1) e ++ (',' :: (lay.after_item ++
              (render_elements L lay d (e2 :: es2) ++ (lay.indent d ++ ']' :: rest))))) := by
        rw [render_elements]
        simp [List.append_assoc]
      rw [htext] at hfuel ⊢
      have h2 : parse_value L fuel ((w ++ lay.indent (d + 1)) ++ (render L lay (d + 1) e ++
          (',' :: (lay.after_item ++
              (render_elements L lay d (e2 :: es2) ++ (lay.indent d ++ ']' :: rest)))))) =
          .ok (reparse L e, ',' :: (lay.after_item ++
              (render_elements L lay d (e2 :: es2) ++ (lay.indent d ++ ']' :: rest)))) := by
        rw [parse_value_blank L fuel _ _ hwi]
        refine hall e (by simp) hse hne (d + 1) fuel _ rfl ?_
        simp only [List.length_append, List.length_cons] at hfuel ⊢
        omega
      rw [parse_array_elements_step L fuel _ _ _ acc h2,
        skip_whitespace_cons _ (by decide)]
      simp only [peek, List.headD_cons, if_true, List.tail_cons]
      rw [ih (by simp) (fun x hx => hall x (List.mem_cons_of_mem _ hx)) hses hnes
        lay.after_item fuel _ hitem (by
          simp only [List.length_append, List.length_cons] at hfuel ⊢
          omega)]
      simp [reparse_elements]

/-- The text of every tree, in every layout of whitespace, parses back. -/
theorem parses_back_all (L : NumLib) (lay : layout) (hlay : lay.blank) :
    ∀ T : json_node L.double, parses_back L lay T := by
  have hopen := hlay.1
  have hindent := hlay.2.1
  intro T
  induction T using json_node.induction_on with
  | hnull k =>
    intro _ _ d fuel rest _ hfuel
    obtain ⟨fuel, rfl⟩ : ∃ f, fuel = f + 1 := ⟨fuel - 1, by omega⟩
    exact parse_value_null L fuel rest
  | hstring k s =>
    intro hs _ d fuel rest _ hfuel
    obtain ⟨fuel, rfl⟩ : ∃ f, fuel = f + 1 := ⟨fuel - 1, by omega⟩
    cases s with
    | none => simp [serializable] at hs
    | some s => exact parse_value_string L fuel s rest
  | hnumber k x =>
    intro _ hn d fuel rest hr hfuel
    obtain ⟨fuel, rfl⟩ : ∃ f, fuel = f + 1 := ⟨fuel - 1, by omega⟩
    exact parse_value_number L fuel x rest (hn x (by simp [numbers_of])) hr
  | hobject k a ih =>
    intro hs hn d fuel rest hr hfuel
    have hclose : skip_whitespace (lay.after_open ++ (lay.indent d ++ '}' :: rest)) =
        '}' :: rest := by
      rw [← List.append_assoc, skip_whitespace_blank _ _ (by
        intro c hc
        rcases List.mem_append.1 hc with h | h
        · exact hopen c h
        · exact hindent _ c h)]
      exact skip_whitespace_cons _ (by decide)
    cases a with
    | none =>
      have htext : render L lay d (OBJECT k none) ++ rest =
          '{' :: (lay.after_open ++ (lay.indent d ++ '}' :: rest)) := by
        simp [render, List.append_assoc]
      rw [htext] at hfuel ⊢
      obtain ⟨fuel, rfl⟩ : ∃ f, fuel = f + 2 :=
        ⟨fuel - 2, by simp only [List.length_append, List.length_cons] at hfuel; omega⟩
      rw [parse_value_object_step, hclose]
      simp [peek, reparse]
    | some l =>
      have htext : render L lay d (OBJECT k (some l)) ++ rest =
          '{' :: (lay.after_open ++ (render_members L lay d l ++
            (lay.indent d ++ '}' :: rest))) := by
        simp [render, List.append_assoc]
      rw [htext] at hfuel ⊢
      obtain ⟨fuel, rfl⟩ : ∃ f, fuel = f + 2 :=
        ⟨fuel - 2, by simp only [List.length_append, List.length_cons] at hfuel; omega⟩
      rw [parse_value_object_step]
      cases l with
      | nil =>
        simp only [render_members, List.nil_append]
        rw [hclose]
        simp [peek, reparse, reparse_members]
      | cons m ms =>
        have hser : serializable_members (m :: ms) = true := by
          simpa [serializable] using hs
        have hkey : ∃ key, m.key = some key := by
          simp only [serializable_members, Bool.and_eq_true] at hser
          exact Option.isSome_iff_exists.1 hser.1.1
        obtain ⟨key, hkey⟩ := hkey
        have hhead : skip_whitespace (lay.after_open ++ (render_members L lay d (m :: ms) ++
            (lay.indent d ++ '}' :: rest))) = '"' :: (escape_chars key ++ ['"'] ++
              (':' :: lay.after_colon ++ render L lay (d + 1) m ++
                (if ms.isEmpty then [] else [',']) ++ lay.after_item ++
                render_members L lay d ms ++ (lay.indent d ++ '}' :: rest))) := by
          rw [skip_whitespace_blank _ _ hopen, render_members, hkey]
          simp only [Option.getD_some, List.append_assoc]
          rw [skip_whitespace_blank _ _ (hindent _)]
          simp [quoted, skip_whitespace, isspace]
        rw [hhead]
        simp only [peek, List.headD_cons]
        rw [if_neg (by decide)]
        have := parse_render_members L lay hlay d rest (m :: ms) (by simp)
          (fun c hc => ih c (by simpa [json_node.children] using hc)) hser
          (by simpa [numbers_of] using hn) lay.after_open fuel [] hopen (by
            simp only [List.length_append, List.length_cons] at hfuel ⊢
            omega)
        simpa [reparse] using this
  | harray k a ih =>
    intro hs hn d fuel rest hr hfuel
    have hclose : skip_whitespace (lay.after_open ++ (lay.indent d ++ ']' :: rest)) =
        ']' :: rest := by
      rw [← List.append_assoc, skip_whitespace_blank _ _ (by
        intro c hc
        rcases List.mem_append.1 hc with h | h
        · exact hopen c h
        · exact hindent _ c h)]
      exact skip_whitespace_cons _ (by decide)
    cases a with
    | none =>
      have htext : render L lay d (ARRAY k none) ++ rest =
          '[' :: (lay.after_open ++ (lay.indent d ++ ']' :: rest)) := by
        simp [render, List.append_assoc]
      rw [htext] at hfuel ⊢
      obtain ⟨fuel, rfl⟩ : ∃ f, fuel = f + 2 :=
        ⟨fuel - 2, by simp only [List.length_append, List.length_cons] at hfuel; omega⟩
      rw [parse_value_array_step, hclose]
      simp [peek, reparse]
    | some l =>
      have htext : render L lay d (ARRAY k (some l)) ++ rest =
          '[' :: (lay.after_open ++ (render_elements L lay d l ++
            (lay.indent d ++ ']' :: rest))) := by
        simp [render, List.append_assoc]
      rw [htext] at hfuel ⊢
      obtain ⟨fuel, rfl⟩ : ∃ f, fuel = f + 2 :=
        ⟨fuel - 2, by simp only [List.length_append, List.length_cons] at hfuel; omega⟩
      rw [parse_value_array_step]
      cases l with
      | nil =>
        simp only [render_elements, List.nil_append]
        rw [hclose]
        simp [peek, reparse, reparse_elements]
      | cons e es =>
        have hser : serializable_elements (e :: es) = true := by
          simpa [serializable] using hs
        have hse : serializable e = true := by
          simp only [serializable_elements, Bool.and_eq_true] at hser
          exact hser.1
        have hne : ∀ x ∈ numbers_of e, L.scans x := fun x hx =>
          hn x (by simp [numbers_of, numbers_of_list, hx])
        obtain ⟨c, t, hct, hcs, hcb⟩ := render_not_blank L lay (d + 1) e hse hne
          ((if es.isEmpty then [] else [',']) ++ lay.after_item ++
                render_elements L lay d es ++ (lay.indent d ++ ']' :: rest))
        have hhead : skip_whitespace (lay.after_open ++ (render_elements L lay d (e :: es) ++
            (lay.indent d ++ ']' :: rest))) = c :: t := by
          rw [skip_whitespace_blank _ _ hopen, render_elements]
          simp only [List.append_assoc]
          rw [skip_whitespace_blank _ _ (hindent _)]
          simp only [List.append_assoc] at hct
          rw [hct]
          exact skip_whitespace_cons _ hcs
        rw [hhead]
        simp only [peek, List.headD_cons]
        rw [if_neg hcb]
        have := parse_render_elements L lay hlay d rest (e :: es) (by simp)
          (fun c hc => ih c (by simpa [json_node.children] using hc)) hser
          (by simpa [numbers_of] using hn) lay.after_open fuel [] hopen (by
            simp only [List.length_append, List.length_cons] at hfuel ⊢
            omega)
        simpa [reparse] using this

/-! ## The serialisers produce the reference texts -/

theorem sb_append_escaped_chars_eq (s : List Char) (sb : StringBuffer) :
    sb_append_escaped_chars s sb = sb ++ escape_chars s := by
  induction s generalizing sb with
  | nil => simp [sb_append_escaped_chars, escape_chars]
  | cons c s ih =>
    unfold sb_append_escaped_chars escape_chars
    by_cases h1 : c = '"' ∨ c = '\\'
    · simp [h1, ih, sb_append_char]
    · by_cases h2 : c = '\n'
      · simp [h2, ih, sb_append]
      · by_cases h3 : c = '\t'
        · simp [h3, ih, sb_append]
        · simp [h1, h2, h3, ih, sb_append_char]

theorem sb_append_escaped_some (sb : StringBuffer) (s : List Char) :
    sb_append_escaped sb (some s) = some (sb ++ quoted s) := by
  simp [sb_append_escaped, sb_append_escaped_chars_eq, sb_append_char, quoted]

theorem sb_append_indent_eq (sb : StringBuffer) (n : Nat) :
    sb_append_indent sb n = sb ++ List.replicate (2 * n) ' ' := by
  induction n generalizing sb with
  | zero => simp [sb_append_indent]
  | succ n ih =>
    rw [sb_append_indent, ih, sb_append, List.append_assoc]
    congr 1

theorem compact_members_from (L : NumLib) (d : Nat) :
    ∀ l : List (json_node L.double),
      (∀ c ∈ l, ∀ (d : Nat) (sb : StringBuffer), json_to_string_internal L c sb =
        if serializable c = true then some (sb ++ render L compact_layout d c) else none) →
      ∀ (i : Nat) (sb : StringBuffer), 0 < i →
        json_to_string_members L l i sb =
          if serializable_members l = true then
            some (sb ++ (if l.isEmpty then [] else ',' :: render_members L compact_layout d l))
          else none := by
  intro l
  induction l with
  | nil => intro _ i sb _; simp [json_to_string_members, serializable_members]
  | cons m ms ih =>
    intro hall i sb hi
    rw [json_to_string_members]
    simp only [hi, if_true]
    cases hk : m.key with
    | none => simp [sb_append_escaped, serializable_members, hk]
    | some key =>
      simp only [sb_append_escaped_some, hall m (List.mem_cons_self _ _) (d + 1)]
      by_cases hs : serializable m = true
      · simp only [hs, if_true]
        rw [ih (fun c hc => hall c (List.mem_cons_of_mem _ hc)) (i + 1) _ (by omega)]
        by_cases hms : serializable_members ms = true
        · cases ms <;>
            simp [serializable_members, hk, hs, hms, render_members, compact_layout,
              sb_append_char] at *
        · simp [serializable_members, hms]
      · simp [serializable_members, hs]


theorem compact_members_all (L : NumLib) (d : Nat) (l : List (json_node L.double))
    (hall : ∀ c ∈ l, ∀ (d : Nat) (sb : StringBuffer), json_to_string_internal L c sb =
      if serializable c = true then some (sb ++ render L compact_layout d c) else none)
    (sb : StringBuffer) :
    json_to_string_members L l 0 sb =
      if serializable_members l = true then
        some (sb ++ render_members L compact_layout d l)
      else none := by
  cases l with
  | nil => simp [json_to_string_members, serializable_members, render_members]
  | cons m ms =>
    rw [json_to_string_members]
    simp only [gt_iff_lt, lt_self_iff_false, if_false]
    cases hk : m.key with
    | none => simp [sb_append_escaped, serializable_members, hk]
    | some key =>
      simp only [sb_append_escaped_some, hall m (List.mem_cons_self _ _) (d + 1)]
      by_cases hs : serializable m = true
      · simp only [hs, if_true]
        rw [compact_members_from L d ms (fun c hc => hall c (List.mem_cons_of_mem _ hc)) 1 _
          (by omega)]
        by_cases hms : serializable_members ms = true
        · cases ms <;>
            simp [serializable_members, hk, hs, hms, render_members, compact_layout,
              sb_append_char] at *
        · simp [serializable_members, hms]
      · simp [serializable_members, hs]

theorem compact_elements_from (L : NumLib) (d : Nat) :
    ∀ l : List (json_node L.double),
      (∀ c ∈ l, ∀ (d : Nat) (sb : StringBuffer), json_to_string_internal L c sb =
        if serializable c = true then some (sb ++ render L compact_layout d c) else none) →
      ∀ (i : Nat) (sb : StringBuffer), 0 < i →
        json_to_string_elements L l i sb =
          if serializable_elements l = true then
            some (sb ++ (if l.isEmpty then [] else ',' :: render_elements L compact_layout d l))
          else none := by
  intro l
  induction l with
  | nil => intro _ i sb _; simp [json_to_string_elements, serializable_elements]
  | cons e es ih =>
    intro hall i sb hi
    rw [json_to_string_elements]
    simp only [hi, if_true, hall e (List.mem_cons_self _ _) (d + 1)]
    by_cases hs : serializable e = true
    · simp only [hs, if_true]
      rw [ih (fun c hc => hall c (List.mem_cons_of_mem _ hc)) (i + 1) _ (by omega)]
      by_cases hes : serializable_elements es = true
      · cases es <;>
          simp [serializable_elements, hs, hes, render_elements, compact_layout,
            sb_append_char] at *
      · simp [serializable_elements, hes]
    · simp [serializable_elements, hs]

theorem compact_elements_all (L : NumLib) (d : Nat) (l : List (json_node L.double))
    (hall : ∀ c ∈ l, ∀ (d : Nat) (sb : StringBuffer), json_to_string_internal L c sb =
      if serializable c = true then some (sb ++ render L compact_layout d c) else none)
    (sb : StringBuffer) :
    json_to_string_elements L l 0 sb =
      if serializable_elements l = true then
        some (sb ++ render_elements L compact_layout d l)
      else none := by
  cases l with
  | nil => simp [json_to_string_elements, serializable_elements, render_elements]
  | cons e es =>
    rw [json_to_string_elements]
    simp only [gt_iff_lt, lt_self_iff_false, if_false, hall e (List.mem_cons_self _ _) (d + 1)]
    by_cases hs : serializable e = true
    · simp only [hs, if_true]
      rw [compact_elements_from L d es (fun c hc => hall c (List.mem_cons_of_mem _ hc)) 1 _
        (by omega)]
      by_cases hes : serializable_elements es = true
      · cases es <;>
          simp [serializable_elements, hs, hes, render_elements, compact_layout,
            sb_append_char] at *
      · simp [serializable_elements, hes]
    · simp [serializable_elements, hs]

/-- The compact serialiser appends the text of the tree in the compact layout, and fails
exactly on the trees that are not serializable. -/
theorem json_to_string_internal_eq (L : NumLib) :
    ∀ (T : json_node L.double) (d : Nat) (sb : StringBuffer),
      json_to_string_internal L T sb =
        if serializable T = true then some (sb ++ render L compact_layout d T) else none := by
  intro T
  induction T using json_node.induction_on with
  | hnull k => intro d sb; simp [json_to_string_internal, serializable, render, sb_append]
  | hstring k s =>
    intro d sb
    cases s with
    | none => simp [json_to_string_internal, serializable, sb_append_escaped]
    | some s => simp [json_to_string_internal, serializable, render, sb_append_escaped_some]
  | hnumber k x => intro d sb; simp [json_to_string_internal, serializable, render, sb_append]
  | hobject k a ih =>
    intro d sb
    cases a with
    | none =>
      simp [json_to_string_internal, serializable, render, sb_append_char, compact_layout]
    | some l =>
      rw [json_to_string_internal, compact_members_all L d l
        (fun c hc => ih c (by simpa [json_node.children] using hc))]
      by_cases hs : serializable_members l = true
      · simp [serializable, hs, render, sb_append_char, compact_layout]
      · simp [serializable, hs]
  | harray k a ih =>
    intro d sb
    cases a with
    | none =>
      simp [json_to_string_internal, serializable, render, sb_append_char, compact_layout]
    | some l =>
      rw [json_to_string_internal, compact_elements_all L d l
        (fun c hc => ih c (by simpa [json_node.children] using hc))]
      by_cases hs : serializable_elements l = true
      · simp [serializable, hs, render, sb_append_char, compact_layout]
      · simp [serializable, hs]

theorem pretty_members_all (L : NumLib) :
    ∀ l : List (json_node L.double),
      (∀ c ∈ l, ∀ (d : Nat) (sb : StringBuffer),
        json_to_formatted_string_internal L c sb d =
          if serializable c = true then some (sb ++ render L pretty_layout d c) else none) →
      ∀ (d : Nat) (sb : StringBuffer),
        json_to_formatted_string_members L l sb d =
          if serializable_members l = true then
            some (sb ++ render_members L pretty_layout d l)
          else none := by
  intro l
  induction l with
  | nil =>
    intro _ d sb
    simp [json_to_formatted_string_members, serializable_members, render_members]
  | cons m ms ih =>
    intro hall d sb
    rw [json_to_formatted_string_members]
    cases hk : m.key with
    | none => simp [sb_append_escaped, serializable_members, hk]
    | some key =>
      simp only [sb_append_escaped_some, hall m (List.mem_cons_self _ _) (d + 1)]
      by_cases hs : serializable m = true
      · simp only [hs, if_true]
        rw [ih (fun c hc => hall c (List.mem_cons_of_mem _ hc))]
        by_cases hms : serializable_members ms = true
        · cases ms <;>
            simp [serializable_members, hk, hs, hms, render_members, pretty_layout,
              sb_append, sb_append_indent_eq] at *
        · simp [serializable_members, hms]
      · simp [serializable_members, hs]

theorem pretty_elements_all (L : NumLib) :
    ∀ l : List (json_node L.double),
      (∀ c ∈ l, ∀ (d : Nat) (sb : StringBuffer),
        json_to_formatted_string_internal L c sb d =
          if serializable c = true then some (sb ++ render L pretty_layout d c) else none) →
      ∀ (d : Nat) (sb : StringBuffer),
        json_to_formatted_string_elements L l sb d =
          if serializable_elements l = true then
            some (sb ++ render_elements L pretty_layout d l)
          else none := by
  intro l
  induction l with
  | nil =>
    intro _ d sb
    simp [json_to_formatted_string_elements, serializable_elements, render_elements]
  | cons e es ih =>
    intro hall d sb
    rw [json_to_formatted_string_elements]
    simp only [hall e (List.mem_cons_self _ _) (d + 1)]
    by_cases hs : serializable e = true
    · simp only [hs, if_true]
      rw [ih (fun c hc => hall c (List.mem_cons_of_mem _ hc))]
      by_cases hes : serializable_elements es = true
      · cases es <;>
          simp [serializable_elements, hs, hes, render_elements, pretty_layout,
            sb_append, sb_append_indent_eq] at *
      · simp [serializable_elements, hes]
    · simp [serializable_elements, hs]

/-- The pretty serialiser appends the text of the tree in the pretty layout at the given
depth, and fails exactly on the trees that are not serializable. -/
theorem json_to_formatted_string_internal_eq (L : NumLib) :
    ∀ (T : json_node L.double) (d : Nat) (sb : StringBuffer),
      json_to_formatted_string_internal L T sb d =
        if serializable T = true then some (sb ++ render L pretty_layout d T) else none := by
  intro T
  induction T using json_node.induction_on with
  | hnull k =>
    intro d sb
    simp [json_to_formatted_string_internal, serializable, render, sb_append]
  | hstring k s =>
    intro d sb
    cases s with
    | none => simp [json_to_formatted_string_internal, serializable, sb_append_escaped]
    | some s =>
      simp [json_to_formatted_string_internal, serializable, render, sb_append_escaped_some]
  | hnumber k x =>
    intro d sb
    simp [json_to_formatted_string_internal, serializable, render, sb_append]
  | hobject k a ih =>
    intro d sb
    cases a with
    | none =>
      simp [json_to_formatted_string_internal, serializable, render, sb_append,
        sb_append_indent_eq, pretty_layout]
    | some l =>
      rw [json_to_formatted_string_internal, pretty_members_all L l
        (fun c hc => ih c (by simpa [json_node.children] using hc))]
      by_cases hs : serializable_members l = true
      · simp [serializable, hs, render, sb_append, sb_append_indent_eq, pretty_layout]
      · simp [serializable, hs]
  | harray k a ih =>
    intro d sb
    cases a with
    | none =>
      simp [json_to_formatted_string_internal, serializable, render, sb_append,
        sb_append_indent_eq, pretty_layout]
    | some l =>
      rw [json_to_formatted_string_internal, pretty_elements_all L l
        (fun c hc => ih c (by simpa [json_node.children] using hc))]
      by_cases hs : serializable_elements l = true
      · simp [serializable, hs, render, sb_append, sb_append_indent_eq, pretty_layout]
      · simp [serializable, hs]

theorem compact_layout_blank : compact_layout.blank := by
  simp [layout.blank, compact_layout]

theorem pretty_layout_blank : pretty_layout.blank := by
  refine ⟨?_, ?_, ?_, ?_⟩
  · intro c hc
    simp only [pretty_layout, List.mem_singleton] at hc
    subst hc; rfl
  · intro d c hc
    have := List.eq_of_mem_replicate hc
    subst this; rfl
  · intro c hc
    simp only [pretty_layout, List.mem_singleton] at hc
    subst hc; rfl
  · intro c hc
    simp only [pretty_layout, List.mem_singleton] at hc
    subst hc; rfl

/-- Parsing the text of a serializable tree whose numbers scan, in any layout of whitespace,
gives `reparse` of the tree. -/
theorem string_to_json_render (L : NumLib) (lay : layout) (hlay : lay.blank)
    (T : json_node L.double) (hs : serializable T = true)
    (hn : ∀ x ∈ numbers_of T, L.scans x) :
    string_to_json L (render L lay 0 T) = .ok (reparse L T) := by
  have := parses_back_all L lay hlay T hs hn 0 (3 * (render L lay 0 T).length + 1) [] rfl
    (by simp)
  rw [List.append_nil] at this
  simp [string_to_json, this, skip_whitespace]

/-! ## The tree that is parsed back -/

theorem set_key_set_key {D : Type} (k k2 : Option (List Char)) (n : json_node D) :
    (n.set_key k).set_key k2 = n.set_key k2 := by
  cases n <;> rfl

theorem set_key_self {D : Type} (n : json_node D) : n.set_key n.key = n := by
  cases n <;> rfl

theorem canonical_set_key {D : Type} (k : Option (List Char)) (n : json_node D) :
    canonical (n.set_key k) = (canonical n).set_key k := by
  cases n with
  | NULL _ => rfl
  | STRING _ _ => rfl
  | NUMBER _ _ => rfl
  | OBJECT _ a => cases a <;> rfl
  | ARRAY _ a => cases a <;> rfl

theorem serializable_set_key {D : Type} (k : Option (List Char)) (n : json_node D) :
    serializable (n.set_key k) = serializable n := by
  cases n with
  | NULL _ => rfl
  | STRING _ s => cases s <;> rfl
  | NUMBER _ _ => rfl
  | OBJECT _ a => cases a <;> rfl
  | ARRAY _ a => cases a <;> rfl

theorem render_set_key (L : NumLib) (lay : layout) (d : Nat) (k : Option (List Char))
    (n : json_node L.double) : render L lay d (n.set_key k) = render L lay d n := by
  cases n with
  | NULL _ => rfl
  | STRING _ _ => rfl
  | NUMBER _ _ => rfl
  | OBJECT _ a => cases a <;> rfl
  | ARRAY _ a => cases a <;> rfl

theorem reparse_key (L : NumLib) (T : json_node L.double) : (reparse L T).key = none := by
  cases T with
  | NULL _ => rfl
  | STRING _ _ => rfl
  | NUMBER _ _ => rfl
  | OBJECT _ a => cases a <;> rfl
  | ARRAY _ a => cases a <;> rfl

/-- The parsed-back tree of a serializable tree is serializable and, when the numbers are
stable, has the same text in every layout. -/
theorem reparse_render (L : NumLib) (lay : layout) :
    ∀ T : json_node L.double, serializable T = true → (∀ x ∈ numbers_of T, L.stable x) →
      serializable (reparse L T) = true ∧
        ∀ d, render L lay d (reparse L T) = render L lay d T := by
  intro T
  induction T using json_node.induction_on with
  | hnull k => intro _ _; exact ⟨rfl, fun _ => rfl⟩
  | hstring k s =>
    intro hs _
    cases s with
    | none => simp [serializable] at hs
    | some s => exact ⟨rfl, fun _ => rfl⟩
  | hnumber k x =>
    intro _ hn
    refine ⟨rfl, fun _ => ?_⟩
    simp only [reparse, render]
    exact (hn x (by simp [numbers_of])).2
  | hobject k a ih =>
    intro hs hn
    cases a with
    | none => exact ⟨rfl, fun _ => by simp [reparse, render, render_members]⟩
    | some l =>
      have key : ∀ l : List (json_node L.double),
          (∀ c ∈ l, serializable c = true → (∀ x ∈ numbers_of c, L.stable x) →
            serializable (reparse L c) = true ∧
              ∀ d, render L lay d (reparse L c) = render L lay d c) →
          serializable_members l = true → (∀ x ∈ numbers_of_list l, L.stable x) →
          serializable_members (reparse_members L l) = true ∧
            ∀ d, render_members L lay d (reparse_members L l) = render_members L lay d l := by
        intro l
        induction l with
        | nil => intro _ _ _; exact ⟨rfl, fun _ => rfl⟩
        | cons m ms ihl =>
          intro hall hser hnum
          simp only [serializable_members, Bool.and_eq_true] at hser
          obtain ⟨⟨hk, hsm⟩, hsms⟩ := hser
          obtain ⟨key, hkey⟩ := Option.isSome_iff_exists.1 hk
          obtain ⟨h1, h2⟩ := hall m (by simp) hsm
            (fun x hx => hnum x (by simp [numbers_of_list, hx]))
          obtain ⟨h3, h4⟩ := ihl (fun c hc => hall c (List.mem_cons_of_mem _ hc)) hsms
            (fun x hx => hnum x (by simp [numbers_of_list, hx]))
          refine ⟨?_, fun d => ?_⟩
          · simp [reparse_members, serializable_members, key_set_key, serializable_set_key,
              h1, h3]
          · cases ms with
            | nil =>
              simp [reparse_members, render_members, key_set_key, render_set_key, h2, hkey]
            | cons m2 ms2 =>
              have h4d := h4 d
              simp only [reparse_members] at h4d ⊢
              rw [render_members, h4d]
              conv_rhs => rw [render_members]
              simp [key_set_key, render_set_key, h2, hkey]
      obtain ⟨h1, h2⟩ := key l (fun c hc => ih c (by simpa [json_node.children] using hc))
        (by simpa [serializable] using hs) (by simpa [numbers_of] using hn)
      exact ⟨by simpa [reparse, serializable] using h1,
        fun d => by simp [reparse, render, h2]⟩
  | harray k a ih =>
    intro hs hn
    cases a with
    | none => exact ⟨rfl, fun _ => by simp [reparse, render, render_elements]⟩
    | some l =>
      have key : ∀ l : List (json_node L.double),
          (∀ c ∈ l, serializable c = true → (∀ x ∈ numbers_of c, L.stable x) →
            serializable (reparse L c) = true ∧
              ∀ d, render L lay d (reparse L c) = render L lay d c) →
          serializable_elements l = true → (∀ x ∈ numbers_of_list l, L.stable x) →
          serializable_elements (reparse_elements L l) = true ∧
            ∀ d, render_elements L lay d (reparse_elements L l) =
              render_elements L lay d l := by
        intro l
        induction l with
        | nil => intro _ _ _; exact ⟨rfl, fun _ => rfl⟩
        | cons e es ihl =>
          intro hall hser hnum
          simp only [serializable_elements, Bool.and_eq_true] at hser
          obtain ⟨hse, hses⟩ := hser
          obtain ⟨h1, h2⟩ := hall e (by simp) hse
            (fun x hx => hnum x (by simp [numbers_of_list, hx]))
          obtain ⟨h3, h4⟩ := ihl (fun c hc => hall c (List.mem_cons_of_mem _ hc)) hses
            (fun x hx => hnum x (by simp [numbers_of_list, hx]))
          refine ⟨?_, fun d => ?_⟩
          · simp [reparse_elements, serializable_elements, h1, h3]
          · cases es with
            | nil => simp [reparse_elements, render_elements, h2]
            | cons e2 es2 =>
              have h4d := h4 d
              simp only [reparse_elements] at h4d ⊢
              rw [render_elements, h4d]
              conv_rhs => rw [render_elements]
              simp [h2]
      obtain ⟨h1, h2⟩ := key l (fun c hc => ih c (by simpa [json_node.children] using hc))
        (by simpa [serializable] using hs) (by simpa [numbers_of] using hn)
      exact ⟨by simpa [reparse, serializable] using h1,
        fun d => by simp [reparse, render, h2]⟩

/-- The parsed-back tree of a well-formed tree whose numbers are exact is the tree itself,
up to the root key and NULL child sequences. -/
theorem reparse_canonical (L : NumLib) :
    ∀ T : json_node L.double, serializable T = true → keys_below T = true →
      (∀ x ∈ numbers_of T, L.exact x) →
      canonical (reparse L T) = canonical (T.set_key none) := by
  intro T
  induction T using json_node.induction_on with
  | hnull k => intro _ _ _; rfl
  | hstring k s =>
    intro hs _ _
    cases s with
    | none => simp [serializable] at hs
    | some s => rfl
  | hnumber k x =>
    intro _ _ hn
    simp only [reparse, json_node.set_key, canonical]
    rw [(hn x (by simp [numbers_of])).2]
  | hobject k a ih =>
    intro hs hk hn
    cases a with
    | none => rfl
    | some l =>
      have key : ∀ l : List (json_node L.double),
          (∀ c ∈ l, serializable c = true → keys_below c = true →
            (∀ x ∈ numbers_of c, L.exact x) →
            canonical (reparse L c) = canonical (c.set_key none)) →
          serializable_members l = true → members_keyed l = true →
          (∀ x ∈ numbers_of_list l, L.exact x) →
          canonical_list (reparse_members L l) = canonical_list l := by
        intro l
        induction l with
        | nil => intro _ _ _ _; rfl
        | cons m ms ihl =>
          intro hall hser hkeys hnum
          simp only [serializable_members, members_keyed, Bool.and_eq_true] at hser hkeys
          obtain ⟨⟨hk1, hsm⟩, hsms⟩ := hser
          obtain ⟨⟨_, hkm⟩, hkms⟩ := hkeys
          obtain ⟨key, hkey⟩ := Option.isSome_iff_exists.1 hk1
          have h1 := hall m (by simp) hsm hkm
            (fun x hx => hnum x (by simp [numbers_of_list, hx]))
          have h2 := ihl (fun c hc => hall c (List.mem_cons_of_mem _ hc)) hsms hkms
            (fun x hx => hnum x (by simp [numbers_of_list, hx]))
          simp only [reparse_members, canonical_list, hkey, Option.getD_some]
          rw [h2, canonical_set_key, h1, ← canonical_set_key, set_key_set_key, ← hkey,
            set_key_self]
      have := key l (fun c hc => ih c (by simpa [json_node.children] using hc))
        (by simpa [serializable] using hs) (by simpa [keys_below] using hk)
        (by simpa [numbers_of] using hn)
      simp [reparse, canonical, json_node.set_key, this]
  | harray k a ih =>
    intro hs hk hn
    cases a with
    | none => rfl
    | some l =>
      have key : ∀ l : List (json_node L.double),
          (∀ c ∈ l, serializable c = true → keys_below c = true →
            (∀ x ∈ numbers_of c, L.exact x) →
            canonical (reparse L c) = canonical (c.set_key none)) →
          serializable_elements l = true → elements_unkeyed l = true →
          (∀ x ∈ numbers_of_list l, L.exact x) →
          canonical_list (reparse_elements L l) = canonical_list l := by
        intro l
        induction l with
        | nil => intro _ _ _ _; rfl
        | cons e es ihl =>
          intro hall hser hkeys hnum
          simp only [serializable_elements, elements_unkeyed, Bool.and_eq_true] at hser hkeys
          obtain ⟨hse, hses⟩ := hser
          obtain ⟨⟨hk1, hke⟩, hkes⟩ := hkeys
          have hkey : e.key = none := by simpa using hk1
          have h1 := hall e (by simp) hse hke
            (fun x hx => hnum x (by simp [numbers_of_list, hx]))
          have h2 := ihl (fun c hc => hall c (List.mem_cons_of_mem _ hc)) hses hkes
            (fun x hx => hnum x (by simp [numbers_of_list, hx]))
          simp only [reparse_elements, canonical_list]
          rw [h2, h1, ← hkey, set_key_self]
      have := key l (fun c hc => ih c (by simpa [json_node.children] using hc))
        (by simpa [serializable] using hs) (by simpa [keys_below] using hk)
        (by simpa [numbers_of] using hn)
      simp [reparse, canonical, json_node.set_key, this]

/-! ## The example library -/

theorem scan_digits_stop (rest : List Char) (v n : Nat) (h : ends_value rest = true) :
    scan_digits rest v n = (v, n) := by
  cases rest with
  | nil => rfl
  | cons c t =>
    have hd : isdigit c = false := by
      cases hc : isdigit c with
      | false => rfl
      | true =>
        have hs := isspace_of_isdigit hc
        simp only [ends_value, hs, Bool.or_false, Bool.or_eq_true, decide_eq_true_eq] at h
        rcases h with (rfl | rfl) | rfl <;> revert hc <;> decide
    simp [scan_digits, hd]

theorem intLib_exact_one : intLib.exact (1 : Int) := by
  refine ⟨⟨Or.inl (by decide), ?_⟩, rfl⟩
  intro rest hr
  show int_strtod ('1' :: rest) = ((int_strtod ['1']).1, 1)
  have h1 : isdigit '1' = true := by decide
  have h2 : ('1' : Char) ≠ '-' := by decide
  simp only [int_strtod, peek, List.headD_cons, h2, if_false, scan_digits, h1, if_true]
  rw [scan_digits_stop rest _ _ hr]

theorem intLib_exact_minus_seven : intLib.exact (-7 : Int) := by
  refine ⟨⟨Or.inr (by decide), ?_⟩, rfl⟩
  intro rest hr
  show int_strtod ('-' :: '7' :: rest) = ((int_strtod ['-', '7']).1, 2)
  have h1 : isdigit '7' = true := by decide
  simp only [int_strtod, peek, List.headD_cons, if_true, List.tail_cons, scan_digits, h1]
  rw [scan_digits_stop rest _ _ hr]
  rfl

theorem sample_tree_exact : ∀ x ∈ numbers_of sample_tree, intLib.exact x := by
  intro x hx
  have hx' : x = (1 : Int) ∨ x = (-7 : Int) := by
    simpa [sample_tree, numbers_of, numbers_of_list] using hx
  rcases hx' with rfl | rfl
  · exact intLib_exact_one
  · exact intLib_exact_minus_seven

theorem json_to_string_eq (L : NumLib) (T : json_node L.double) :
    json_to_string L T =
      if serializable T = true then some (render L compact_layout 0 T) else none := by
  simpa [json_to_string, sb_init] using json_to_string_internal_eq L T 0 []

theorem json_to_formatted_string_eq (L : NumLib) (T : json_node L.double) :
    json_to_formatted_string L T =
      if serializable T = true then some (render L pretty_layout 0 T) else none := by
  simpa [json_to_formatted_string, sb_init] using json_to_formatted_string_internal_eq L T 0 []

/-! ## Round trip and idempotence -/

/-- C1. Round trip: for a well-formed tree (the root without key, every Object member with
a key, no Array element with a key, every String payload present) whose numbers are exact
for `%g` (read back by `strtod` from their `%g` text as themselves), `json_to_string`
gives a text, `string_to_json` succeeds on it, and the parsed tree is structurally equal to
the tree. No condition on the characters of the strings is needed. -/
theorem round_trip (L : NumLib) (T : json_node L.double) (hroot : T.key = none)
    (hkeys : keys_below T = true) (hser : serializable T = true)
    (hnum : ∀ x ∈ numbers_of T, L.exact x) :
    ∃ s T', json_to_string L T = some s ∧ string_to_json L s = .ok T' ∧ struct_eq T' T := by
  refine ⟨render L compact_layout 0 T, reparse L T, ?_, ?_, ?_⟩
  · rw [json_to_string_eq, if_pos hser]
  · exact string_to_json_render L compact_layout compact_layout_blank T hser
      (fun x hx => (hnum x hx).1)
  · have := reparse_canonical L T hser hkeys hnum
    rw [← hroot, set_key_self] at this
    exact this

/-- C1, at the sample tree over `intLib`. -/
theorem round_trip_witness :
    (sample_tree.key = none ∧ keys_below sample_tree = true ∧
      serializable sample_tree = true ∧ ∀ x ∈ numbers_of sample_tree, intLib.exact x) ∧
    ∃ s T', json_to_string intLib sample_tree = some s ∧ string_to_json intLib s = .ok T' ∧
      struct_eq T' sample_tree :=
  ⟨⟨rfl, rfl, rfl, sample_tree_exact⟩, round_trip intLib sample_tree rfl rfl rfl sample_tree_exact⟩

/-- C2 (amended). Idempotence of serialisation through a parse: when `json_to_string` gives
a text for a tree whose numbers are stable for `%g` (`strtod` reads the `%g` text back
whole, to a value that has the same `%g` text; so for every finite number, not for
+infinity or NaN), `string_to_json` succeeds on the text and `json_to_string` of the parsed
tree is the same text. -/
theorem serialize_parse_serialize (L : NumLib) (T : json_node L.double) (s : List Char)
    (hs : json_to_string L T = some s) (hnum : ∀ x ∈ numbers_of T, L.stable x) :
    ∃ T', string_to_json L s = .ok T' ∧ json_to_string L T' = some s := by
  rw [json_to_string_eq] at hs
  by_cases hser : serializable T = true
  · rw [if_pos hser] at hs
    have hs' : render L compact_layout 0 T = s := Option.some.inj hs
    obtain ⟨h1, h2⟩ := reparse_render L compact_layout T hser hnum
    refine ⟨reparse L T, ?_, ?_⟩
    · rw [← hs']
      exact string_to_json_render L compact_layout compact_layout_blank T hser
        (fun x hx => (hnum x hx).1)
    · rw [json_to_string_eq, if_pos h1, h2 0, hs']
  · rw [if_neg hser] at hs
    cases hs

/-- C2 (amended), at the sample tree over `intLib`. -/
theorem serialize_parse_serialize_witness :
    (json_to_string intLib sample_tree =
        some "\x7b\"a\":1,\"b\":[null,\"x\\\"\\n\",-7],\"c\":\x7b\x7d\x7d".toList ∧
      ∀ x ∈ numbers_of sample_tree, intLib.stable x) ∧
    ∃ T', string_to_json intLib
        "\x7b\"a\":1,\"b\":[null,\"x\\\"\\n\",-7],\"c\":\x7b\x7d\x7d".toList = .ok T' ∧
      json_to_string intLib T' =
        some "\x7b\"a\":1,\"b\":[null,\"x\\\"\\n\",-7],\"c\":\x7b\x7d\x7d".toList :=
  ⟨⟨rfl, fun x hx => ⟨(sample_tree_exact x hx).1, by rw [(sample_tree_exact x hx).2]⟩⟩,
    serialize_parse_serialize intLib sample_tree _ rfl
      (fun x hx => ⟨(sample_tree_exact x hx).1, by rw [(sample_tree_exact x hx).2]⟩)⟩

/-! ## Keys of Object members -/

theorem members_keyed_iff {D : Type} (l : List (json_node D)) :
    members_keyed l = true ↔ ∀ m ∈ l, m.key.isSome = true ∧ keys_below m = true := by
  induction l with
  | nil => simp [members_keyed]
  | cons a l ih => simp [members_keyed, ih, and_assoc]

theorem elements_unkeyed_iff {D : Type} (l : List (json_node D)) :
    elements_unkeyed l = true ↔ ∀ e ∈ l, e.key.isNone = true ∧ keys_below e = true := by
  induction l with
  | nil => simp [elements_unkeyed]
  | cons a l ih => simp [elements_unkeyed, ih, and_assoc]

theorem mem_object_members_list {D : Type} (m : json_node D) (l : List (json_node D)) :
    m ∈ object_members_list l ↔ ∃ n ∈ l, m ∈ object_members n := by
  induction l with
  | nil => simp [object_members_list]
  | cons a l ih => simp [object_members_list, ih]

theorem object_members_keyed {D : Type} :
    ∀ T : json_node D, keys_below T = true → ∀ m ∈ object_members T, m.key.isSome = true := by
  intro T
  induction T using json_node.induction_on with
  | hnull k => intro _ m hm; simp [object_members] at hm
  | hstring k s => intro _ m hm; simp [object_members] at hm
  | hnumber k x => intro _ m hm; simp [object_members] at hm
  | hobject k a ih =>
    intro hk m hm
    cases a with
    | none => simp [object_members] at hm
    | some l =>
      have hl := (members_keyed_iff l).1 (by simpa [keys_below] using hk)
      simp only [object_members, List.mem_append] at hm
      rcases hm with hm | hm
      · exact (hl m hm).1
      · obtain ⟨n, hn, hmn⟩ := (mem_object_members_list m l).1 hm
        exact ih n (by simpa [json_node.children] using hn) (hl n hn).2 m hmn
  | harray k a ih =>
    intro hk m hm
    cases a with
    | none => simp [object_members] at hm
    | some l =>
      have hl := (elements_unkeyed_iff l).1 (by simpa [keys_below] using hk)
      simp only [object_members] at hm
      obtain ⟨n, hn, hmn⟩ := (mem_object_members_list m l).1 hm
      exact ih n (by simpa [json_node.children] using hn) (hl n hn).2 m hmn

theorem string_to_json_keys (L : NumLib) (s : List Char) (T : json_node L.double)
    (h : string_to_json L s = .ok T) : T.key = none ∧ keys_below T = true := by
  unfold string_to_json at h
  split at h
  · simp at h
  · rename_i root p hp
    split at h
    · simp at h
    · simp only [Except.ok.injEq] at h
      subst h
      exact (parse_keys L _).1 _ _ _ hp

/-- C11 (as stated, refuted). It is not the case that every member of every Object of a
parsed tree has a key of length at least one: `{"":null}` parses, and its member has the
empty key. -/
theorem object_member_key_may_be_empty :
    ¬ (∀ (s : List Char) (T : json_node intLib.double), string_to_json intLib s = .ok T →
      ∀ m ∈ object_members T, ∃ k, m.key = some k ∧ 1 ≤ k.length) := by
  intro h
  have hp : string_to_json intLib "\x7b\"\":null\x7d".toList =
      .ok (OBJECT none (some [NULL (some [])])) := rfl
  obtain ⟨k, hk, hlen⟩ := h _ _ hp (NULL (some [])) (by simp [object_members])
  have : k = [] := by
    simp only [json_node.key, Option.some.injEq] at hk
    exact hk.symm
  subst this
  simp at hlen

/-- C11 (amended). Every member of every Object of a parsed tree carries a key (a present
text, which may be empty): `{"":null}` parses to an Object whose member has the empty
key. -/
theorem object_members_have_key (L : NumLib) :
    (∀ s T, string_to_json L s = .ok T → ∀ m ∈ object_members T, ∃ k, m.key = some k) ∧
    string_to_json L "\x7b\"\":null\x7d".toList = .ok (OBJECT none (some [NULL (some [])])) ∧
    string_to_json L "\x7b\"a\":\x7b\"\":\"\"\x7d\x7d".toList =
      .ok (OBJECT none (some [OBJECT (some ['a']) (some [STRING (some []) (some [])])])) := by
  refine ⟨?_, rfl, rfl⟩
  intro s T h m hm
  have hk := (string_to_json_keys L s T h).2
  exact Option.isSome_iff_exists.1 (object_members_keyed T hk m hm)

/-! ## Whitespace -/

/-- C12 (as stated, refuted). A vertical tab and a form feed are skipped: a vertical tab
followed by `null` parses to a Null node, and `[1,` form feed `2]` parses to an Array of
two Numbers. -/
theorem vertical_tab_and_form_feed_skipped :
    skip_whitespace ['\x0b', '\x0c', 'n'] = ['n'] ∧
    string_to_json intLib "\x0bnull".toList = .ok (NULL none) ∧
    string_to_json intLib "[1,\x0c2]".toList =
      .ok (ARRAY none (some [NUMBER none (1 : Int), NUMBER none (2 : Int)])) :=
  ⟨rfl, rfl, rfl⟩

/-- C12 (amended). Whitespace is exactly the six characters of `isspace`: space, tab, line
feed, vertical tab, form feed and carriage return. `skip_whitespace` skips these and stops
at every other character; so a vertical tab followed by `null` and `[null,` form feed
`null]` are accepted, and a backspace (0x08) in those places is rejected. -/
theorem whitespace_is_isspace (L : NumLib) :
    (∀ c, isspace c = true ↔
      c = ' ' ∨ c = '\t' ∨ c = '\n' ∨ c = '\x0b' ∨ c = '\x0c' ∨ c = '\r') ∧
    (∀ c p, isspace c = true → skip_whitespace (c :: p) = skip_whitespace p) ∧
    (∀ c p, isspace c = false → skip_whitespace (c :: p) = c :: p) ∧
    string_to_json L "\x0bnull".toList = .ok (NULL none) ∧
    string_to_json L " \t\n\x0b\x0c\r[null,\x0cnull]\x0b".toList =
      .ok (ARRAY none (some [NULL none, NULL none])) ∧
    string_to_json L "\x08null".toList = .error (.UnexpectedCharacter '\x08') ∧
    string_to_json L "[null,\x08null]".toList = .error (.UnexpectedCharacter '\x08') := by
  refine ⟨?_, ?_, ?_, rfl, rfl, rfl, rfl⟩
  · intro c
    simp [isspace, or_assoc]
  · intro c p h
    simp [skip_whitespace, h]
  · intro c p h
    simp [skip_whitespace, h]

/-! ## Delimiters -/

/-- C13. Container delimiters are mandatory. In the member loop of an Object a key that is
not followed (after whitespace) by `:` fails, and a member value that is not followed by
`,` or `}` fails, both with a "missing delimiter" error; in the element loop of an Array an
element not followed by `,` or `]` fails the same way. After a `,` the loop reads another
member or element, so what follows must start one. Hence `{"a":1,}`, `[1,]`, `[1 2]` and
`{"a" 1}` are rejected, with no tree. -/
theorem delimiters_mandatory (L : NumLib) :
    (∀ fuel p ms key p1, parse_string_literal (skip_whitespace p) = .ok (key, p1) →
      peek (skip_whitespace p1) ≠ ':' →
      parse_object_members L (fuel + 1) p ms = .error (.MissingDelimiter .colon)) ∧
    (∀ fuel p ms key p1 value p2, parse_string_literal (skip_whitespace p) = .ok (key, p1) →
      peek (skip_whitespace p1) = ':' →
      parse_value L fuel (skip_whitespace (skip_whitespace p1).tail) = .ok (value, p2) →
      (peek (skip_whitespace p2) ≠ ',' → peek (skip_whitespace p2) ≠ '}' →
        parse_object_members L (fuel + 1) p ms =
          .error (.MissingDelimiter .comma_or_brace)) ∧
      (peek (skip_whitespace p2) = ',' →
        parse_object_members L (fuel + 1) p ms =
          parse_object_members L fuel (skip_whitespace (skip_whitespace p2).tail)
            (ms ++ [value.set_key (some key)]))) ∧
    (∀ fuel p ms, peek (skip_whitespace p) ≠ '"' →
      parse_object_members L (fuel + 1) p ms = .error .ExpectedQuote) ∧
    (∀ fuel p es value p1, parse_value L fuel (skip_whitespace p) = .ok (value, p1) →
      (peek (skip_whitespace p1) ≠ ',' → peek (skip_whitespace p1) ≠ ']' →
        parse_array_elements L (fuel + 1) p es =
          .error (.MissingDelimiter .comma_or_bracket)) ∧
      (peek (skip_whitespace p1) = ',' →
        parse_array_elements L (fuel + 1) p es =
          parse_array_elements L fuel (skip_whitespace (skip_whitespace p1).tail)
            (es ++ [value]))) ∧
    (∀ fuel p es e, parse_value L fuel (skip_whitespace p) = .error e →
      parse_array_elements L (fuel + 1) p es = .error e) ∧
    (string_to_json L "\x7b\"a\":null,\x7d".toList = .error .ExpectedQuote ∧
      string_to_json L "[null,]".toList = .error (.UnexpectedCharacter ']') ∧
      string_to_json L "[null null]".toList = .error (.MissingDelimiter .comma_or_bracket) ∧
      string_to_json L "\x7b\"a\" 1\x7d".toList = .error (.MissingDelimiter .colon) ∧
      string_to_json L "\x7b\"a\":null \"b\":null\x7d".toList =
        .error (.MissingDelimiter .comma_or_brace)) ∧
    (∀ v, L.strtod "1,\x7d".toList = (v, 1) →
      string_to_json L "\x7b\"a\":1,\x7d".toList = .error .ExpectedQuote) ∧
    (∀ v, L.strtod "1,]".toList = (v, 1) →
      string_to_json L "[1,]".toList = .error (.UnexpectedCharacter ']')) ∧
    (∀ v, L.strtod "1 2]".toList = (v, 1) →
      string_to_json L "[1 2]".toList = .error (.MissingDelimiter .comma_or_bracket)) ∧
    (string_to_json intLib "\x7b\"a\":1,\x7d".toList = .error .ExpectedQuote ∧
      string_to_json intLib "[1,]".toList = .error (.UnexpectedCharacter ']') ∧
      string_to_json intLib "[1 2]".toList = .error (.MissingDelimiter .comma_or_bracket)) := by
  refine ⟨?_, ?_, ?_, ?_, ?_, ⟨rfl, rfl, rfl, rfl, rfl⟩, ?_, ?_, ?_, ⟨rfl, rfl, rfl⟩⟩
  · intro fuel p ms key p1 hk hc
    rw [parse_object_members, hk]
    simp [hc]
  · intro fuel p ms key p1 value p2 hk hc hv
    refine ⟨fun h1 h2 => ?_, fun h1 => ?_⟩
    · rw [parse_object_members, hk]
      simp [hc, hv, h1, h2]
    · rw [parse_object_members, hk]
      simp [hc, hv, h1]
  · intro fuel p ms hq
    rw [parse_object_members]
    simp [parse_string_literal, hq]
  · intro fuel p es value p1 hv
    refine ⟨fun h1 h2 => ?_, fun h1 => ?_⟩
    · rw [parse_array_elements, hv]
      simp [h1, h2]
    · rw [parse_array_elements, hv]
      simp [h1]
  · intro fuel p es e he
    rw [parse_array_elements, he]
  · intro v hv
    have e1 : L.strtod ['1', ',', '\x7d'] = (v, 1) := hv
    simp [string_to_json, parse_value, parse_object, parse_object_members, skip_whitespace,
      peek, isspace, isdigit, parse_number_literal, parse_string_literal,
      parse_string_chars, e1, null_literal]
  · intro v hv
    have e1 : L.strtod ['1', ',', ']'] = (v, 1) := hv
    simp [string_to_json, parse_value, parse_array, parse_array_elements, skip_whitespace,
      peek, isspace, isdigit, parse_number_literal, e1, null_literal]
  · intro v hv
    have e1 : L.strtod ['1', ' ', '2', ']'] = (v, 1) := hv
    simp [string_to_json, parse_value, parse_array, parse_array_elements, skip_whitespace,
      peek, isspace, isdigit, parse_number_literal, e1, null_literal]

/-! ## Literal examples and empty containers -/

/-- C14. Literal example: when the C library reads `1`, `2` and `3` (followed by `,` or
`]`) as the values `v1`, `v2`, `v3` and writes these with `%g` as `1`, `2`, `3`, the text
`{"a":1,"b":[1,2,3]}` parses to the Object with the members `a` = Number `v1` and
`b` = Array of the Numbers `v1`, `v2`, `v3`, in this order, and `json_to_string` of that
tree is the same text; `null` parses to a bare Null node, whose text is `null`. -/
theorem literal_example (L : NumLib) (v1 v2 v3 : L.double)
    (h1 : L.strtod "1,\"b\":[1,2,3]\x7d".toList = (v1, 1))
    (h2 : L.strtod "1,2,3]\x7d".toList = (v1, 1))
    (h3 : L.strtod "2,3]\x7d".toList = (v2, 1))
    (h4 : L.strtod "3]\x7d".toList = (v3, 1))
    (g1 : L.fmt_g v1 = ['1']) (g2 : L.fmt_g v2 = ['2']) (g3 : L.fmt_g v3 = ['3']) :
    string_to_json L literal_text = .ok (literal_tree v1 v2 v3) ∧
    json_to_string L (literal_tree v1 v2 v3) = some literal_text ∧
    string_to_json L "null".toList = .ok (NULL none) ∧
    json_to_string L (NULL none) = some "null".toList := by
  have e1 : L.strtod ['1', ',', '"', 'b', '"', ':', '[', '1', ',', '2', ',', '3', ']', '\x7d']
      = (v1, 1) := h1
  have e2 : L.strtod ['1', ',', '2', ',', '3', ']', '\x7d'] = (v1, 1) := h2
  have e3 : L.strtod ['2', ',', '3', ']', '\x7d'] = (v2, 1) := h3
  have e4 : L.strtod ['3', ']', '\x7d'] = (v3, 1) := h4
  refine ⟨?_, ?_, rfl, rfl⟩
  · simp [literal_text, literal_tree, string_to_json, parse_value, parse_object,
      parse_object_members, parse_array, parse_array_elements, skip_whitespace, peek,
      isspace, isdigit, parse_number_literal, parse_string_literal, parse_string_chars,
      e1, e2, e3, e4, null_literal, json_node.set_key]
  · simp [literal_text, literal_tree, json_to_string, json_to_string_internal,
      json_to_string_members, json_to_string_elements, sb_append_escaped,
      sb_append_escaped_chars, sb_append_char, sb_append, sb_init, g1, g2, g3,
      json_node.key]

/-- C14, over `intLib` with the integers 1, 2 and 3. -/
theorem literal_example_witness :
    (intLib.strtod "1,\"b\":[1,2,3]\x7d".toList = ((1 : Int), 1) ∧
      intLib.fmt_g (1 : Int) = ['1'] ∧ intLib.fmt_g (2 : Int) = ['2'] ∧
      intLib.fmt_g (3 : Int) = ['3']) ∧
    string_to_json intLib literal_text = .ok (literal_tree (1 : Int) (2 : Int) (3 : Int)) ∧
    json_to_string intLib (literal_tree (1 : Int) (2 : Int) (3 : Int)) = some literal_text ∧
    string_to_json intLib "null".toList = .ok (NULL none) ∧
    json_to_string intLib (NULL none) = some "null".toList :=
  ⟨⟨rfl, rfl, rfl, rfl⟩,
    literal_example intLib (1 : Int) (2 : Int) (3 : Int) rfl rfl rfl rfl rfl rfl rfl⟩

theorem string_to_json_empty_object (L : NumLib) (w : List Char)
    (hw : ∀ c ∈ w, isspace c = true) :
    string_to_json L ('{' :: (w ++ ['}'])) = .ok (OBJECT none (some [])) := by
  have hs : skip_whitespace (w ++ ['}']) = ['}'] := by
    rw [skip_whitespace_blank w _ hw]
    exact skip_whitespace_cons _ (by decide)
  have hf : 3 * ('{' :: (w ++ ['}'])).length + 1 = (3 * w.length + 5) + 2 := by
    simp only [List.length_cons, List.length_append, List.length_nil]
    omega
  rw [string_to_json, hf, parse_value_object_step, hs]
  simp [peek, skip_whitespace]

theorem string_to_json_empty_array (L : NumLib) (w : List Char)
    (hw : ∀ c ∈ w, isspace c = true) :
    string_to_json L ('[' :: (w ++ [']'])) = .ok (ARRAY none (some [])) := by
  have hs : skip_whitespace (w ++ [']']) = [']'] := by
    rw [skip_whitespace_blank w _ hw]
    exact skip_whitespace_cons _ (by decide)
  have hf : 3 * ('[' :: (w ++ [']'])).length + 1 = (3 * w.length + 5) + 2 := by
    simp only [List.length_cons, List.length_append, List.length_nil]
    omega
  rw [string_to_json, hf, parse_value_array_step, hs]
  simp [peek, skip_whitespace]

/-- C15. Empty containers: `{}` parses to an Object with zero members and `[]` to an Array
with zero elements, also with any whitespace between the brackets (as in `{ }` and a `[`,
newline, `]`); each of the two trees has the compact text `{}` and `[]`. -/
theorem empty_containers (L : NumLib) :
    (∀ w : List Char, (∀ c ∈ w, isspace c = true) →
      string_to_json L ('{' :: (w ++ ['}'])) = .ok (OBJECT none (some [])) ∧
      string_to_json L ('[' :: (w ++ [']'])) = .ok (ARRAY none (some []))) ∧
    string_to_json L ['{', '}'] = .ok (OBJECT none (some [])) ∧
    string_to_json L ['[', ']'] = .ok (ARRAY none (some [])) ∧
    string_to_json L ['{', ' ', '}'] = .ok (OBJECT none (some [])) ∧
    string_to_json L ['[', '\n', ']'] = .ok (ARRAY none (some [])) ∧
    (OBJECT none (some []) : json_node L.double).children.length = 0 ∧
    (ARRAY none (some []) : json_node L.double).children.length = 0 ∧
    json_to_string L (OBJECT none (some [])) = some ['{', '}'] ∧
    json_to_string L (ARRAY none (some [])) = some ['[', ']'] :=
  ⟨fun w hw => ⟨string_to_json_empty_object L w hw, string_to_json_empty_array L w hw⟩,
    rfl, rfl, rfl, rfl, rfl, rfl, rfl, rfl⟩

/-! ## Node construction -/

/-- C16 (as stated, refuted). The String node of `create_node` has no text: its `string`
pointer is NULL, not the empty string, and `json_to_string` of it does not give the two
quote characters (it dereferences the NULL pointer). -/
theorem create_node_string_is_null :
    create_node intLib .JSON_TYPE_STRING ≠ STRING none (some []) ∧
    json_to_string intLib (create_node intLib .JSON_TYPE_STRING) ≠ some ['"', '"'] := by
  constructor
  · intro h
    simp [create_node] at h
  · intro h
    simp [create_node, json_to_string, json_to_string_internal, sb_append_escaped] at h

/-- C16 (amended). `create_node` returns a node of the requested type with no key and an
empty payload: a NULL child sequence, so zero children, for Object and Array; a NULL string
pointer for String; 0 for Number. `json_to_string` of a new Object, Array and Null node
gives `{}`, `[]` and `null`. -/
theorem create_node_empty (L : NumLib) :
    (∀ t, (create_node L t).type = t ∧ (create_node L t).key = none ∧
      (create_node L t).children = []) ∧
    create_node L .JSON_TYPE_OBJECT = OBJECT none none ∧
    create_node L .JSON_TYPE_ARRAY = ARRAY none none ∧
    create_node L .JSON_TYPE_STRING = STRING none none ∧
    create_node L .JSON_TYPE_NUMBER = NUMBER none L.zero ∧
    create_node L .JSON_TYPE_NULL = NULL none ∧
    json_to_string L (create_node L .JSON_TYPE_OBJECT) = some ['{', '}'] ∧
    json_to_string L (create_node L .JSON_TYPE_ARRAY) = some ['[', ']'] ∧
    json_to_string L (create_node L .JSON_TYPE_NULL) = some ['n', 'u', 'l', 'l'] := by
  refine ⟨?_, rfl, rfl, rfl, rfl, rfl, rfl, rfl, rfl⟩
  intro t
  cases t <;> exact ⟨rfl, rfl, rfl⟩

/-! ## The compact form -/

theorem compact_ref_members_eq (L : NumLib) (d : Nat) :
    ∀ l : List (json_node L.double),
      (∀ c ∈ l, ∀ d, compact_ref L c = render L compact_layout d c) →
      comma_separated (compact_ref_members L l) = render_members L compact_layout d l := by
  intro l
  induction l with
  | nil => intro _; rfl
  | cons m ms ih =>
    intro hall
    have h1 := hall m (List.mem_cons_self _ _) (d + 1)
    have h2 := ih (fun c hc => hall c (List.mem_cons_of_mem _ hc))
    cases ms with
    | nil => simp [compact_ref_members, comma_separated, render_members, compact_layout, h1]
    | cons m2 ms2 =>
      rw [render_members, ← h2]
      simp [compact_ref_members, comma_separated, compact_layout, h1]

theorem compact_ref_elements_eq (L : NumLib) (d : Nat) :
    ∀ l : List (json_node L.double),
      (∀ c ∈ l, ∀ d, compact_ref L c = render L compact_layout d c) →
      comma_separated (compact_ref_elements L l) = render_elements L compact_layout d l := by
  intro l
  induction l with
  | nil => intro _; rfl
  | cons e es ih =>
    intro hall
    have h1 := hall e (List.mem_cons_self _ _) (d + 1)
    have h2 := ih (fun c hc => hall c (List.mem_cons_of_mem _ hc))
    cases es with
    | nil => simp [compact_ref_elements, comma_separated, render_elements, compact_layout, h1]
    | cons e2 es2 =>
      rw [render_elements, ← h2]
      simp [compact_ref_elements, comma_separated, compact_layout, h1]

theorem compact_ref_eq_render (L : NumLib) :
    ∀ (T : json_node L.double) (d : Nat), compact_ref L T = render L compact_layout d T := by
  intro T
  induction T using json_node.induction_on with
  | hnull k => intro d; rfl
  | hstring k s => intro d; rfl
  | hnumber k x => intro d; rfl
  | hobject k a ih =>
    intro d
    cases a with
    | none => rfl
    | some l =>
      have := compact_ref_members_eq L d l
        (fun c hc => ih c (by simpa [json_node.children] using hc))
      simp [compact_ref, render, this, compact_layout]
  | harray k a ih =>
    intro d
    cases a with
    | none => rfl
    | some l =>
      have := compact_ref_elements_eq L d l
        (fun c hc => ih c (by simpa [json_node.children] using hc))
      simp [compact_ref, render, this, compact_layout]

theorem countP_escape_chars (s : List Char) :
    (escape_chars s).countP json_blank = payload_blanks s := by
  induction s with
  | nil => rfl
  | cons c s ih =>
    unfold escape_chars
    rw [List.countP_append, ih]
    unfold payload_blanks
    rw [List.countP_cons]
    by_cases h1 : c = '"'
    · subst h1; simp [json_blank]
    · by_cases h2 : c = '\\'
      · subst h2; simp [json_blank]
      · by_cases h3 : c = '\n'
        · subst h3; simp [json_blank]
        · by_cases h4 : c = '\t'
          · subst h4; simp [json_blank]
          · by_cases h5 : c = ' '
            · subst h5; simp [json_blank]; omega
            · by_cases h6 : c = '\r'
              · subst h6; simp [json_blank]; omega
              · simp [json_blank, h1, h2, h3, h4, h5, h6]

theorem countP_quoted (s : List Char) : (quoted s).countP json_blank = payload_blanks s := by
  simp [quoted, List.countP_cons, List.countP_append, countP_escape_chars, json_blank]

theorem countP_of_no_blank (t : List Char) (h : ∀ c ∈ t, json_blank c = false) :
    t.countP json_blank = 0 := by
  rw [List.countP_eq_zero]
  intro c hc
  simp [h c hc]

theorem compact_ref_blanks (L : NumLib) :
    ∀ T : json_node L.double,
      (∀ x ∈ numbers_of T, ∀ c ∈ L.fmt_g x, json_blank c = false) →
      (compact_ref L T).countP json_blank = copied_blanks T := by
  intro T
  induction T using json_node.induction_on with
  | hnull k => intro _; rfl
  | hstring k s =>
    intro _
    cases s with
    | none => rfl
    | some s => simp [compact_ref, copied_blanks, countP_quoted]
  | hnumber k x =>
    intro hn
    simp only [compact_ref, copied_blanks]
    exact countP_of_no_blank _ (hn x (by simp [numbers_of]))
  | hobject k a ih =>
    intro hn
    cases a with
    | none => rfl
    | some l =>
      have key : ∀ l : List (json_node L.double),
          (∀ c ∈ l, (∀ x ∈ numbers_of c, ∀ c ∈ L.fmt_g x, json_blank c = false) →
            (compact_ref L c).countP json_blank = copied_blanks c) →
          (∀ x ∈ numbers_of_list l, ∀ c ∈ L.fmt_g x, json_blank c = false) →
          (comma_separated (compact_ref_members L l)).countP json_blank =
            copied_blanks_members l := by
        intro l
        induction l with
        | nil => intro _ _; rfl
        | cons m ms ihl =>
          intro hall hnum
          have h1 := hall m (List.mem_cons_self _ _)
            (fun x hx => hnum x (by simp [numbers_of_list, hx]))
          have h2 := ihl (fun c hc => hall c (List.mem_cons_of_mem _ hc))
            (fun x hx => hnum x (by simp [numbers_of_list, hx]))
          cases ms with
          | nil =>
            simp [compact_ref_members, comma_separated, copied_blanks_members,
              List.countP_append, List.countP_cons, countP_quoted, h1, json_blank]
          | cons m2 ms2 =>
            simp only [compact_ref_members] at h2 ⊢
            rw [comma_separated, List.countP_append, List.countP_cons, h2]
            simp [copied_blanks_members, List.countP_append, List.countP_cons,
              countP_quoted, h1, json_blank]
      have := key l (fun c hc => ih c (by simpa [json_node.children] using hc))
        (by simpa [numbers_of] using hn)
      simp [compact_ref, copied_blanks, List.countP_cons, List.countP_append, this,
        json_blank]
  | harray k a ih =>
    intro hn
    cases a with
    | none => rfl
    | some l =>
      have key : ∀ l : List (json_node L.double),
          (∀ c ∈ l, (∀ x ∈ numbers_of c, ∀ c ∈ L.fmt_g x, json_blank c = false) →
            (compact_ref L c).countP json_blank = copied_blanks c) →
          (∀ x ∈ numbers_of_list l, ∀ c ∈ L.fmt_g x, json_blank c = false) →
          (comma_separated (compact_ref_elements L l)).countP json_blank =
            copied_blanks_elements l := by
        intro l
        induction l with
        | nil => intro _ _; rfl
        | cons e es ihl =>
          intro hall hnum
          have h1 := hall e (List.mem_cons_self _ _)
            (fun x hx => hnum x (by simp [numbers_of_list, hx]))
          have h2 := ihl (fun c hc => hall c (List.mem_cons_of_mem _ hc))
            (fun x hx => hnum x (by simp [numbers_of_list, hx]))
          cases es with
          | nil =>
            simp [compact_ref_elements, comma_separated, copied_blanks_elements, h1]
          | cons e2 es2 =>
            simp only [compact_ref_elements] at h2 ⊢
            rw [comma_separated, List.countP_append, List.countP_cons, h2]
            simp [copied_blanks_elements, h1, json_blank]
      have := key l (fun c hc => ih c (by simpa [json_node.children] using hc))
        (by simpa [numbers_of] using hn)
      simp [compact_ref, copied_blanks, List.countP_cons, List.countP_append, this,
        json_blank]

/-- C17. The compact form equals the reference `compact_ref` for every tree: `null` for
Null, the escaped quoted text for a String, `{`, the members as `"key":value` in stored
order with single commas between them, `}` for an Object, and the same with `[`, `]` and
no keys for an Array (the serialiser fails exactly when a String payload or a member key is
a NULL pointer). When the `%g` texts of the numbers hold no blank, the spaces, tabs,
newlines and carriage returns of the text are exactly the spaces and carriage returns
copied from keys and String payloads: none is inserted. -/
theorem compact_form_ref (L : NumLib) :
    (∀ T, json_to_string L T =
      if serializable T = true then some (compact_ref L T) else none) ∧
    (∀ T sb, json_to_string_internal L T sb =
      if serializable T = true then some (sb ++ compact_ref L T) else none) ∧
    (∀ T, (∀ x ∈ numbers_of T, ∀ c ∈ L.fmt_g x, json_blank c = false) →
      (compact_ref L T).countP json_blank = copied_blanks T) ∧
    json_to_string L (OBJECT none (some [STRING (some ['a', ' ']) (some ['\n', ' ', 'b']),
        ARRAY (some ['c']) (some [NULL none, OBJECT none none])])) =
      some "\x7b\"a \":\"\\n b\",\"c\":[null,\x7b\x7d]\x7d".toList := by
  refine ⟨?_, ?_, compact_ref_blanks L, rfl⟩
  · intro T
    rw [json_to_string_eq, ← compact_ref_eq_render L T 0]
  · intro T sb
    rw [json_to_string_internal_eq L T 0 sb, ← compact_ref_eq_render L T 0]

/-! ## The pretty form -/

theorem pretty_ref_eq_render (L : NumLib) :
    ∀ (T : json_node L.double) (d : Nat), pretty_ref L T d = render L pretty_layout d T := by
  intro T
  induction T using json_node.induction_on with
  | hnull k => intro d; rfl
  | hstring k s => intro d; rfl
  | hnumber k x => intro d; rfl
  | hobject k a ih =>
    intro d
    cases a with
    | none => simp [pretty_ref, render, pretty_layout]
    | some l =>
      have key : ∀ l : List (json_node L.double),
          (∀ c ∈ l, ∀ d, pretty_ref L c d = render L pretty_layout d c) →
          pretty_ref_members L l d = render_members L pretty_layout d l := by
        intro l
        induction l with
        | nil => intro _; rfl
        | cons m ms ihl =>
          intro hall
          rw [pretty_ref_members, render_members, hall m (List.mem_cons_self _ _) (d + 1),
            ihl (fun c hc => hall c (List.mem_cons_of_mem _ hc))]
          simp [pretty_layout]
      have := key l (fun c hc => ih c (by simpa [json_node.children] using hc))
      simp [pretty_ref, render, this, pretty_layout]
  | harray k a ih =>
    intro d
    cases a with
    | none => simp [pretty_ref, render, pretty_layout]
    | some l =>
      have key : ∀ l : List (json_node L.double),
          (∀ c ∈ l, ∀ d, pretty_ref L c d = render L pretty_layout d c) →
          pretty_ref_elements L l d = render_elements L pretty_layout d l := by
        intro l
        induction l with
        | nil => intro _; rfl
        | cons e es ihl =>
          intro hall
          rw [pretty_ref_elements, render_elements, hall e (List.mem_cons_self _ _) (d + 1),
            ihl (fun c hc => hall c (List.mem_cons_of_mem _ hc))]
          simp [pretty_layout]
      have := key l (fun c hc => ih c (by simpa [json_node.children] using hc))
      simp [pretty_ref, render, this, pretty_layout]

/-- C18. The pretty form equals the reference `pretty_ref`, started at depth 0, for every
tree (the serialiser fails exactly when a String payload or a member key is a NULL
pointer); at depth `d` the internal function appends `pretty_ref` at `d`. An empty Object
at the top level gives `{`, newline, `}`, and the tree of `{"a":[null]}` gives the five
lines `{`, `  "a": [`, `    null`, `  ]`, `}`. -/
theorem pretty_form_ref (L : NumLib) :
    (∀ T, json_to_formatted_string L T =
      if serializable T = true then some (pretty_ref L T 0) else none) ∧
    (∀ T sb d, json_to_formatted_string_internal L T sb d =
      if serializable T = true then some (sb ++ pretty_ref L T d) else none) ∧
    json_to_formatted_string L (OBJECT none (some [])) = some "\x7b\n\x7d".toList ∧
    json_to_formatted_string L (OBJECT none none) = some "\x7b\n\x7d".toList ∧
    json_to_formatted_string L (OBJECT none (some [ARRAY (some ['a']) (some [NULL none])])) =
      some "\x7b\n  \"a\": [\n    null\n  ]\n\x7d".toList ∧
    json_to_formatted_string L (ARRAY none (some [NULL none,
        OBJECT none (some [STRING (some ['k']) (some ['v']), NULL (some ['n'])])])) =
      some "[\n  null,\n  \x7b\n    \"k\": \"v\",\n    \"n\": null\n  \x7d\n]".toList := by
  refine ⟨?_, ?_, rfl, rfl, ?_, ?_⟩
  · intro T
    rw [json_to_formatted_string_eq, ← pretty_ref_eq_render L T 0]
  · intro T sb d
    rw [json_to_formatted_string_internal_eq L T d sb, ← pretty_ref_eq_render L T d]
  · simp [json_to_formatted_string, json_to_formatted_string_internal,
      json_to_formatted_string_members, json_to_formatted_string_elements, sb_append,
      sb_append_indent, sb_append_escaped, sb_append_escaped_chars, sb_append_char, sb_init,
      json_node.key, null_literal]
  · simp [json_to_formatted_string, json_to_formatted_string_internal,
      json_to_formatted_string_members, json_to_formatted_string_elements, sb_append,
      sb_append_indent, sb_append_escaped, sb_append_escaped_chars, sb_append_char, sb_init,
      json_node.key, null_literal]

/-! ## Escaping and string literals -/

/-- C19. String escaping is inverted by string-literal parsing, for every string and with
no restriction on its characters: `sb_append_escaped` on a new buffer gives a text, and
`parse_string_literal` on that text followed by any continuation `r` returns the string
and leaves `r`. (A string of the embedding is the sequence of characters before the
terminating NUL, so it holds no NUL.) -/
theorem escape_then_parse (s r : List Char) :
    (∃ t, sb_append_escaped sb_init (some s) = some t ∧
      parse_string_literal (t ++ r) = .ok (s, r)) ∧
    sb_append_escaped sb_init (some ['a', '"', '\\', '\n', '\t', '\r', '\x01', '/']) =
      some "\"a\\\"\\\\\\n\\t\r\x01/\"".toList ∧
    parse_string_literal ("\"a\\\"\\\\\\n\\t\r\x01/\"".toList ++ ['"', 'x']) =
      .ok (['a', '"', '\\', '\n', '\t', '\r', '\x01', '/'], ['"', 'x']) := by
  refine ⟨⟨quoted s, ?_, parse_string_literal_quoted s r⟩, rfl, rfl⟩
  rw [sb_append_escaped_some]
  rfl

/-! ## Termination -/

theorem parse_string_chars_fuel : ∀ (n : Nat) (p buffer : List Char), p.length ≤ n →
    parse_string_chars p buffer ≠ .error .OutOfFuel := by
  intro n
  induction n with
  | zero =>
    intro p buffer hn
    have : p = [] := List.length_eq_zero.1 (Nat.le_zero.1 hn)
    subst this
    simp [parse_string_chars]
  | succ n ih =>
    intro p buffer hn
    cases p with
    | nil => simp [parse_string_chars]
    | cons c p =>
      unfold parse_string_chars
      split
      · simp
      · split
        · cases p with
          | nil => simp
          | cons d q => exact ih q _ (by simp at hn ⊢; omega)
        · exact ih p _ (by simpa using hn)

theorem parse_string_literal_fuel (p : List Char) :
    parse_string_literal p ≠ .error .OutOfFuel := by
  unfold parse_string_literal
  split
  · simp
  · exact parse_string_chars_fuel _ _ _ le_rfl

theorem parse_number_literal_fuel (L : NumLib) (p : List Char) :
    parse_number_literal L p ≠ .error .OutOfFuel := by
  unfold parse_number_literal
  split <;> simp

theorem length_skip_whitespace_le (p : List Char) : (skip_whitespace p).length ≤ p.length :=
  (skip_whitespace_suffix p).length_le

theorem length_skip_tail_le (p : List Char) :
    (skip_whitespace (skip_whitespace p).tail).length ≤ p.length - 1 := by
  have h1 := length_skip_whitespace_le (skip_whitespace p).tail
  have h2 := length_skip_whitespace_le p
  simp only [List.length_tail] at h1
  omega

/-- With fuel above three times the length of the text the parser does not run out of
fuel. -/
theorem parse_fuel (L : NumLib) : ∀ fuel : Nat,
    (∀ p, 3 * p.length + 1 ≤ fuel → parse_value L fuel p ≠ .error .OutOfFuel) ∧
    (∀ p, p ≠ [] → 3 * p.length ≤ fuel → parse_object L fuel p ≠ .error .OutOfFuel) ∧
    (∀ p ms, 3 * p.length + 2 ≤ fuel →
      parse_object_members L fuel p ms ≠ .error .OutOfFuel) ∧
    (∀ p, p ≠ [] → 3 * p.length ≤ fuel → parse_array L fuel p ≠ .error .OutOfFuel) ∧
    (∀ p es, 3 * p.length + 2 ≤ fuel →
      parse_array_elements L fuel p es ≠ .error .OutOfFuel) := by
  intro fuel
  induction fuel with
  | zero =>
    refine ⟨?_, ?_, ?_, ?_, ?_⟩
    · intro p h; omega
    · intro p hp h
      have : 0 < p.length := List.length_pos.2 hp
      omega
    · intro p ms h; omega
    · intro p hp h
      have : 0 < p.length := List.length_pos.2 hp
      omega
    · intro p es h; omega
  | succ fuel ih =>
    obtain ⟨ihv, iho, ihm, iha, ihe⟩ := ih
    refine ⟨?_, ?_, ?_, ?_, ?_⟩
    · intro p hf h
      have hl := length_skip_whitespace_le p
      rw [parse_value] at h
      split at h
      · rename_i hc
        exact iho _ (peek_ne_nil hc (by decide)) (by omega) h
      · split at h
        · rename_i hc
          exact iha _ (peek_ne_nil hc (by decide)) (by omega) h
        · split at h
          · split at h
            · rename_i e he
              simp only [Except.error.injEq] at h
              subst h
              exact parse_string_literal_fuel _ he
            · simp at h
          · split at h
            · split at h
              · rename_i e he
                simp only [Except.error.injEq] at h
                subst h
                exact parse_number_literal_fuel L _ he
              · simp at h
            · split at h
              · simp at h
              · simp at h
    · intro p hp hf h
      have hpos : 0 < p.length := List.length_pos.2 hp
      have hl : (skip_whitespace (skip_whitespace p.tail)).length ≤ p.length - 1 := by
        have h1 := length_skip_whitespace_le (skip_whitespace p.tail)
        have h2 := length_skip_whitespace_le p.tail
        simp only [List.length_tail] at h2
        omega
      rw [parse_object] at h
      split at h
      · simp at h
      · simp only at h
        split at h
        · simp at h
        · exact ihm _ _ (by omega) h
    · intro p ms hf h
      have hl := length_skip_whitespace_le p
      rw [parse_object_members] at h
      split at h
      · rename_i e he
        simp only [Except.error.injEq] at h
        subst h
        exact parse_string_literal_fuel _ he
      · rename_i key p1 hk
        have h1 := (parse_string_literal_consumed hk).2
        have h2 := length_skip_tail_le p1
        simp only at h
        split at h
        · simp at h
        · split at h
          · rename_i e he
            simp only [Except.error.injEq] at h
            subst h
            exact ihv _ (by omega) he
          · rename_i value p2 hv
            have h3 := ((parse_consumed L fuel).1 _ _ _ hv).2
            have h4 := length_skip_tail_le p2
            split at h
            · exact ihm _ _ (by omega) h
            · split at h
              · simp at h
              · simp at h
    · intro p hp hf h
      have hpos : 0 < p.length := List.length_pos.2 hp
      have hl : (skip_whitespace (skip_whitespace p.tail)).length ≤ p.length - 1 := by
        have h1 := length_skip_whitespace_le (skip_whitespace p.tail)
        have h2 := length_skip_whitespace_le p.tail
        simp only [List.length_tail] at h2
        omega
      rw [parse_array] at h
      split at h
      · simp at h
      · simp only at h
        split at h
        · simp at h
        · exact ihe _ _ (by omega) h
    · intro p es hf h
      have hl := length_skip_whitespace_le p
      rw [parse_array_elements] at h
      split at h
      · rename_i e he
        simp only [Except.error.injEq] at h
        subst h
        exact ihv _ (by omega) he
      · rename_i element p1 hv
        have h3 := ((parse_consumed L fuel).1 _ _ _ hv).2
        have h4 := length_skip_tail_le p1
        simp only at h
        split at h
        · exact ihe _ _ (by omega) h
        · split at h
          · simp at h
          · simp at h

/-- A result that is not "out of fuel" is the result with one more unit of fuel. -/
theorem parse_fuel_succ (L : NumLib) : ∀ fuel : Nat,
    (∀ p, parse_value L fuel p ≠ .error .OutOfFuel →
      parse_value L (fuel + 1) p = parse_value L fuel p) ∧
    (∀ p, parse_object L fuel p ≠ .error .OutOfFuel →
      parse_object L (fuel + 1) p = parse_object L fuel p) ∧
    (∀ p ms, parse_object_members L fuel p ms ≠ .error .OutOfFuel →
      parse_object_members L (fuel + 1) p ms = parse_object_members L fuel p ms) ∧
    (∀ p, parse_array L fuel p ≠ .error .OutOfFuel →
      parse_array L (fuel + 1) p = parse_array L fuel p) ∧
    (∀ p es, parse_array_elements L fuel p es ≠ .error .OutOfFuel →
      parse_array_elements L (fuel + 1) p es = parse_array_elements L fuel p es) := by
  intro fuel
  induction fuel with
  | zero =>
    refine ⟨?_, ?_, ?_, ?_, ?_⟩ <;> intros <;> rename_i h <;>
      simp [parse_value, parse_object, parse_object_members, parse_array,
        parse_array_elements] at h
  | succ fuel ih =>
    obtain ⟨ihv, iho, ihm, iha, ihe⟩ := ih
    refine ⟨?_, ?_, ?_, ?_, ?_⟩
    · intro p h
      rw [parse_value] at h
      rw [parse_value, parse_value]
      by_cases h1 : peek (skip_whitespace p) = '{'
      · simp only [h1, if_true] at h ⊢
        exact iho _ h
      · simp only [h1, if_false] at h ⊢
        by_cases h2 : peek (skip_whitespace p) = '['
        · simp only [h2, if_true] at h ⊢
          exact iha _ h
        · simp only [h2, if_false]
    · intro p h
      rw [parse_object] at h
      rw [parse_object, parse_object]
      by_cases h1 : peek p = '{'
      · simp only [h1, ne_eq, not_true_eq_false, if_false] at h ⊢
        by_cases h2 : peek (skip_whitespace (skip_whitespace p.tail)) = '}'
        · simp only [h2, if_true]
        · simp only [h2, if_false] at h ⊢
          exact ihm _ _ h
      · simp only [h1, ne_eq, not_false_eq_true, if_true]
    · intro p ms h
      rw [parse_object_members] at h
      rw [parse_object_members, parse_object_members]
      cases hk : parse_string_literal (skip_whitespace p) with
      | error e => simp only [hk]
      | ok kp =>
        obtain ⟨key, p1⟩ := kp
        simp only [hk] at h ⊢
        by_cases h1 : peek (skip_whitespace p1) = ':'
        · simp only [h1, ne_eq, not_true_eq_false, if_false] at h ⊢
          cases hv : parse_value L fuel (skip_whitespace (skip_whitespace p1).tail) with
          | error e =>
            simp only [hv] at h
            rw [ihv _ (by rw [hv]; exact h), hv]
          | ok vp =>
            obtain ⟨value, p2⟩ := vp
            simp only [hv] at h
            rw [ihv _ (by rw [hv]; simp), hv]
            simp only
            by_cases h2 : peek (skip_whitespace p2) = ','
            · simp only [h2, if_true] at h ⊢
              exact ihm _ _ h
            · simp only [h2, if_false]
        · simp only [h1, ne_eq, not_false_eq_true, if_true]
    · intro p h
      rw [parse_array] at h
      rw [parse_array, parse_array]
      by_cases h1 : peek p = '['
      · simp only [h1, ne_eq, not_true_eq_false, if_false] at h ⊢
        by_cases h2 : peek (skip_whitespace (skip_whitespace p.tail)) = ']'
        · simp only [h2, if_true]
        · simp only [h2, if_false] at h ⊢
          exact ihe _ _ h
      · simp only [h1, ne_eq, not_false_eq_true, if_true]
    · intro p es h
      rw [parse_array_elements] at h
      rw [parse_array_elements, parse_array_elements]
      cases hv : parse_value L fuel (skip_whitespace p) with
      | error e =>
        simp only [hv] at h
        rw [ihv _ (by rw [hv]; exact h), hv]
      | ok vp =>
        obtain ⟨value, p1⟩ := vp
        simp only [hv] at h
        rw [ihv _ (by rw [hv]; simp), hv]
        simp only
        by_cases h2 : peek (skip_whitespace p1) = ','
        · simp only [h2, if_true] at h ⊢
          exact ihe _ _ h
        · simp only [h2, if_false]

/-- More fuel than three times the length of the text does not change the result of
`parse_value`. -/
theorem parse_value_fuel_irrelevant (L : NumLib) (p : List Char) :
    ∀ k, parse_value L (3 * p.length + 1 + k) p = parse_value L (3 * p.length + 1) p := by
  intro k
  induction k with
  | zero => rfl
  | succ k ih =>
    have hne := (parse_fuel L (3 * p.length + 1 + k)).1 p (by omega)
    rw [← Nat.add_assoc, (parse_fuel_succ L _).1 p hne, ih]

/-- C20. The parser terminates on every input. Every successful call of `parse_value`,
`parse_object`, `parse_array` and `parse_string_literal` returns a remaining text that is a
proper suffix of the text it started with: the read position has moved forward and is not
past the end. So the recursion is bounded by the length of the text: with the fuel that
`string_to_json` supplies the parser never reaches the bound, more fuel does not change
the result, and `string_to_json` returns a tree or one of the errors of the source. -/
theorem parser_terminates (L : NumLib) :
    (∀ fuel p T r, parse_value L fuel p = .ok (T, r) →
      r <:+ p ∧ r.length < p.length) ∧
    (∀ fuel p T r, parse_object L fuel p = .ok (T, r) →
      r <:+ p ∧ r.length < p.length) ∧
    (∀ fuel p T r, parse_array L fuel p = .ok (T, r) →
      r <:+ p ∧ r.length < p.length) ∧
    (∀ p s r, parse_string_literal p = .ok (s, r) → r <:+ p ∧ r.length < p.length) ∧
    (∀ p k, parse_value L (3 * p.length + 1 + k) p = parse_value L (3 * p.length + 1) p) ∧
    (∀ s, string_to_json L s ≠ .error .OutOfFuel) ∧
    (∀ s, (∃ T, string_to_json L s = .ok T) ∨
      ∃ e, e ≠ .OutOfFuel ∧ string_to_json L s = .error e) := by
  have hno : ∀ s, string_to_json L s ≠ .error .OutOfFuel := by
    intro s h
    unfold string_to_json at h
    split at h
    · rename_i e he
      simp only [Except.error.injEq] at h
      subst h
      exact (parse_fuel L _).1 s le_rfl he
    · split at h <;> simp at h
  refine ⟨fun fuel p T r h => (parse_consumed L fuel).1 p T r h,
    fun fuel p T r h => (parse_consumed L fuel).2.1 p T r h,
    fun fuel p T r h => (parse_consumed L fuel).2.2.2.1 p T r h,
    fun p s r h => parse_string_literal_consumed h,
    parse_value_fuel_irrelevant L, hno, ?_⟩
  intro s
  cases h : string_to_json L s with
  | ok T => exact Or.inl ⟨T, rfl⟩
  | error e =>
    refine Or.inr ⟨e, ?_, rfl⟩
    rintro rfl
    exact hno s h

/-! ## Texts that parse alike in every layout -/

theorem with_rest_ok {D : Type} (T : json_node D) (rest : List Char) :
    with_rest (.ok T) rest = .ok (T, rest) := rfl

theorem with_rest_error {D : Type} (e : parse_error) (rest : List Char) :
    with_rest (.error e : Except parse_error (json_node D)) rest = .error e := rfl

theorem parse_value_unread (L : NumLib) (fuel : Nat) (x : L.double) (rest : List Char)
    (hx : L.unread x) (hr : ends_value rest = true) :
    parse_value L (fuel + 1) (L.fmt_g x ++ rest) =
      .error (.UnexpectedCharacter (peek (L.fmt_g x))) := by
  obtain ⟨hne, hws, h1, h2, _, h3, h4, h5, hnull⟩ := hx
  have hn := hnull rest hr
  obtain ⟨c, t, hf⟩ : ∃ c t, L.fmt_g x = c :: t := by
    cases hf : L.fmt_g x with
    | nil => exact absurd hf hne
    | cons c t => exact ⟨c, t, rfl⟩
  rw [hf] at hws h1 h2 h3 h4 h5 hn ⊢
  simp only [peek, List.headD_cons] at hws h1 h2 h3 h4 h5 ⊢
  rw [parse_value, List.cons_append, skip_whitespace_cons _ hws]
  rw [List.cons_append] at hn
  have hn' : ¬ (c :: List.take 3 (t ++ rest) = null_literal) := by simpa using hn
  simp [peek, h1, h2, h3, h4, h5, hn']

theorem parse_object_members_step_error (L : NumLib) (fuel : Nat) (p key R : List Char)
    (e : parse_error) (acc : List (json_node L.double))
    (h1 : skip_whitespace p = quoted key ++ ':' :: R)
    (h2 : parse_value L fuel R = .error e) :
    parse_object_members L (fuel + 1) p acc = .error e := by
  have hc : isspace ':' = false := by decide
  rw [parse_object_members, h1, parse_string_literal_quoted]
  simp only [skip_whitespace_cons R hc, peek, List.headD_cons, ne_eq, not_true_eq_false,
    if_false, List.tail_cons, parse_value_skip, h2]

theorem parse_array_elements_step_error (L : NumLib) (fuel : Nat) (p : List Char)
    (e : parse_error) (acc : List (json_node L.double))
    (h2 : parse_value L fuel p = .error e) :
    parse_array_elements L (fuel + 1) p acc = .error e := by
  rw [parse_array_elements]
  simp only [parse_value_skip, h2]

theorem render_starts_value (L : NumLib) (lay : layout) (d : Nat) (T : json_node L.double)
    (hn : ∀ x ∈ numbers_of T, L.scans x ∨ L.unread x) (p : List Char) :
    ∃ c t, render L lay d T ++ p = c :: t ∧ isspace c = false ∧ c ≠ ']' := by
  cases T with
  | NULL k => exact ⟨'n', _, rfl, by decide, by decide⟩
  | STRING k s => exact ⟨'"', _, rfl, by decide, by decide⟩
  | NUMBER k x =>
    rcases hn x (by simp [numbers_of]) with ⟨hstart, _⟩ | ⟨hne, hws, _, _, hb, _⟩
    · cases hf : L.fmt_g x with
      | nil =>
        rw [hf] at hstart
        exact absurd hstart (by decide)
      | cons c t =>
        rw [hf] at hstart
        simp only [peek, List.headD_cons] at hstart
        refine ⟨c, t ++ p, by simp [render, hf], ?_, ?_⟩
        · rcases hstart with h | h
          · exact isspace_of_isdigit h
          · subst h; decide
        · rintro rfl; revert hstart; decide
    · cases hf : L.fmt_g x with
      | nil => exact absurd hf hne
      | cons c t =>
        rw [hf] at hws hb
        simp only [peek, List.headD_cons] at hws hb
        exact ⟨c, t ++ p, by simp [render, hf], hws, hb⟩
  | OBJECT k a => cases a <;> exact ⟨'{', _, rfl, by decide, by decide⟩
  | ARRAY k a => cases a <;> exact ⟨'[', _, rfl, by decide, by decide⟩

/-- The text of the members of an Object after leading whitespace: the quoted key of the
first member, the colon, and the rest. -/
theorem render_members_cons_text (L : NumLib) (lay : layout) (d : Nat)
    (m : json_node L.double) (ms : List (json_node L.double)) (key w tail : List Char)
    (hkey : m.key = some key) :
    w ++ (render_members L lay d (m :: ms) ++ tail) =
      (w ++ lay.indent (d + 1)) ++ (quoted key ++ ':' :: (lay.after_colon ++
        (render L lay (d + 1) m ++ ((if ms.isEmpty then [] else [',']) ++
          (lay.after_item ++ (render_members L lay d ms ++ tail)))))) := by
  rw [render_members]
  simp [hkey, List.append_assoc]

/-- The text of the elements of an Array after leading whitespace. -/
theorem render_elements_cons_text (L : NumLib) (lay : layout) (d : Nat)
    (e : json_node L.double) (es : List (json_node L.double)) (w tail : List Char) :
    w ++ (render_elements L lay d (e :: es) ++ tail) =
      (w ++ lay.indent (d + 1)) ++ (render L lay (d + 1) e ++
        ((if es.isEmpty then [] else [',']) ++
          (lay.after_item ++ (render_elements L lay d es ++ tail)))) := by
  rw [render_elements]
  simp [List.append_assoc]

theorem blank_append {w v : List Char} (hw : ∀ c ∈ w, isspace c = true)
    (hv : ∀ c ∈ v, isspace c = true) : ∀ c ∈ w ++ v, isspace c = true := by
  intro c hc
  rcases List.mem_append.1 hc with h | h
  · exact hw c h
  · exact hv c h

theorem parse_alike_members (L : NumLib) :
    ∀ l : List (json_node L.double), l ≠ [] →
      (∀ m ∈ l, ∃ out : Except parse_error (json_node L.double),
        ∀ lay : layout, lay.blank → ∀ (d fuel : Nat) (rest : List Char),
          ends_value rest = true → 3 * (render L lay d m ++ rest).length + 1 ≤ fuel →
          parse_value L fuel (render L lay d m ++ rest) = with_rest out rest) →
      serializable_members l = true →
      ∃ outl : Except parse_error (List (json_node L.double)),
        ∀ lay : layout, lay.blank → ∀ (d : Nat) (rest w : List Char) (fuel : Nat)
          (acc : List (json_node L.double)), (∀ c ∈ w, isspace c = true) →
          3 * (w ++ (render_members L lay d l ++ (lay.indent d ++ '}' :: rest))).length + 2
            ≤ fuel →
          parse_object_members L fuel
              (w ++ (render_members L lay d l ++ (lay.indent d ++ '}' :: rest))) acc =
            match outl with
            | .ok ms => .ok (OBJECT none (some (acc ++ ms)), rest)
            | .error e => .error e := by
  intro l
  induction l with
  | nil => intro h; exact absurd rfl h
  | cons m ms ih =>
    intro _ hall hser
    simp only [serializable_members, Bool.and_eq_true] at hser
    obtain ⟨⟨hk, hsm⟩, hsms⟩ := hser
    obtain ⟨key, hkey⟩ := Option.isSome_iff_exists.1 hk
    obtain ⟨outm, hm⟩ := hall m (List.mem_cons_self _ _)
    -- the facts shared by all cases, for a given layout
    have turn : ∀ lay : layout, lay.blank → ∀ (d : Nat) (rest w : List Char) (fuel : Nat),
        (∀ c ∈ w, isspace c = true) →
        3 * (w ++ (render_members L lay d (m :: ms) ++
          (lay.indent d ++ '}' :: rest))).length + 2 ≤ fuel + 1 →
        ends_value ((if ms.isEmpty then [] else [',']) ++ (lay.after_item ++
          (render_members L lay d ms ++ (lay.indent d ++ '}' :: rest)))) = true →
        skip_whitespace (w ++ (render_members L lay d (m :: ms) ++
            (lay.indent d ++ '}' :: rest))) =
          quoted key ++ ':' :: (lay.after_colon ++ (render L lay (d + 1) m ++
            ((if ms.isEmpty then [] else [',']) ++ (lay.after_item ++
              (render_members L lay d ms ++ (lay.indent d ++ '}' :: rest)))))) ∧
        parse_value L fuel (lay.after_colon ++ (render L lay (d + 1) m ++
            ((if ms.isEmpty then [] else [',']) ++ (lay.after_item ++
              (render_members L lay d ms ++ (lay.indent d ++ '}' :: rest)))))) =
          with_rest outm ((if ms.isEmpty then [] else [',']) ++ (lay.after_item ++
              (render_members L lay d ms ++ (lay.indent d ++ '}' :: rest)))) ∧
        3 * (lay.after_item ++ (render_members L lay d ms ++
          (lay.indent d ++ '}' :: rest))).length + 5 ≤ fuel := by
      intro lay hlay d rest w fuel hw hfuel hX
      rw [render_members_cons_text L lay d m ms key w _ hkey] at hfuel ⊢
      refine ⟨?_, ?_, ?_⟩
      · rw [skip_whitespace_blank _ _ (blank_append hw (hlay.2.1 _)), skip_whitespace_quoted]
      · rw [parse_value_blank L fuel _ _ hlay.2.2.1]
        refine hm lay hlay (d + 1) fuel _ hX ?_
        simp only [List.length_append, List.length_cons] at hfuel ⊢
        omega
      · simp only [List.length_append, List.length_cons, quoted] at hfuel ⊢
        omega
    cases ms with
    | nil =>
      have hX : ∀ (lay : layout), lay.blank → ∀ (d : Nat) (rest : List Char),
          ends_value ((if ([] : List (json_node L.double)).isEmpty then [] else [',']) ++
            (lay.after_item ++ (render_members L lay d [] ++
              (lay.indent d ++ '}' :: rest)))) = true ∧
          skip_whitespace ((if ([] : List (json_node L.double)).isEmpty then []
            else [',']) ++ (lay.after_item ++ (render_members L lay d [] ++
              (lay.indent d ++ '}' :: rest)))) = '}' :: rest := by
        intro lay hlay d rest
        have hb := blank_append hlay.2.2.2 (hlay.2.1 d)
        simp only [List.isEmpty_nil, if_true, List.nil_append, render_members]
        rw [← List.append_assoc]
        exact ⟨ends_value_blank _ _ _ hb (Or.inr (Or.inl rfl)), by
          rw [skip_whitespace_blank _ _ hb]
          exact skip_whitespace_cons _ (by decide)⟩
      cases outm with
      | error e =>
        refine ⟨.error e, ?_⟩
        intro lay hlay d rest w fuel acc hw hfuel
        obtain ⟨fuel, rfl⟩ : ∃ f, fuel = f + 1 := ⟨fuel - 1, by omega⟩
        obtain ⟨h1, h2, _⟩ := turn lay hlay d rest w fuel hw hfuel (hX lay hlay d rest).1
        exact parse_object_members_step_error L fuel _ key _ e acc h1 h2
      | ok v =>
        refine ⟨.ok [v.set_key (some key)], ?_⟩
        intro lay hlay d rest w fuel acc hw hfuel
        obtain ⟨fuel, rfl⟩ : ∃ f, fuel = f + 1 := ⟨fuel - 1, by omega⟩
        obtain ⟨h1, h2, _⟩ := turn lay hlay d rest w fuel hw hfuel (hX lay hlay d rest).1
        rw [parse_object_members_step L fuel _ key _ _ v acc h1 h2, (hX lay hlay d rest).2]
        simp [peek]
    | cons m2 ms2 =>
      obtain ⟨outms, hms⟩ := ih (by simp) (fun x hx => hall x (List.mem_cons_of_mem _ hx))
        hsms
      have hX : ∀ (lay : layout) (d : Nat) (rest : List Char),
          ((if (m2 :: ms2).isEmpty then [] else [',']) ++ (lay.after_item ++
            (render_members L lay d (m2 :: ms2) ++ (lay.indent d ++ '}' :: rest)))) =
          ',' :: (lay.after_item ++
            (render_members L lay d (m2 :: ms2) ++ (lay.indent d ++ '}' :: rest))) := by
        intro lay d rest
        simp
      cases outm with
      | error e =>
        refine ⟨.error e, ?_⟩
        intro lay hlay d rest w fuel acc hw hfuel
        obtain ⟨fuel, rfl⟩ : ∃ f, fuel = f + 1 := ⟨fuel - 1, by omega⟩
        obtain ⟨h1, h2, _⟩ := turn lay hlay d rest w fuel hw hfuel
          (by rw [hX lay d rest]; rfl)
        exact parse_object_members_step_error L fuel _ key _ e acc h1 h2
      | ok v =>
        refine ⟨match outms with
          | .ok tl => .ok (v.set_key (some key) :: tl)
          | .error e => .error e, ?_⟩
        intro lay hlay d rest w fuel acc hw hfuel
        obtain ⟨fuel, rfl⟩ : ∃ f, fuel = f + 1 := ⟨fuel - 1, by omega⟩
        obtain ⟨h1, h2, h3⟩ := turn lay hlay d rest w fuel hw hfuel
          (by rw [hX lay d rest]; rfl)
        rw [parse_object_members_step L fuel _ key _ _ v acc h1 h2, hX lay d rest,
          skip_whitespace_cons _ (by decide)]
        simp only [peek, List.headD_cons, if_true, List.tail_cons]
        rw [hms lay hlay d rest lay.after_item fuel _ hlay.2.2.2 (by omega)]
        cases outms with
        | error e => rfl
        | ok tl => simp

theorem parse_alike_elements (L : NumLib) :
    ∀ l : List (json_node L.double), l ≠ [] →
      (∀ e ∈ l, ∃ out : Except parse_error (json_node L.double),
        ∀ lay : layout, lay.blank → ∀ (d fuel : Nat) (rest : List Char),
          ends_value rest = true → 3 * (render L lay d e ++ rest).length + 1 ≤ fuel →
          parse_value L fuel (render L lay d e ++ rest) = with_rest out rest) →
      ∃ outl : Except parse_error (List (json_node L.double)),
        ∀ lay : layout, lay.blank → ∀ (d : Nat) (rest w : List Char) (fuel : Nat)
          (acc : List (json_node L.double)), (∀ c ∈ w, isspace c = true) →
          3 * (w ++ (render_elements L lay d l ++ (lay.indent d ++ ']' :: rest))).length + 2
            ≤ fuel →
          parse_array_elements L fuel
              (w ++ (render_elements L lay d l ++ (lay.indent d ++ ']' :: rest))) acc =
            match outl with
            | .ok es => .ok (ARRAY none (some (acc ++ es)), rest)
            | .error e => .error e := by
  intro l
  induction l with
  | nil => intro h; exact absurd rfl h
  | cons e es ih =>
    intro _ hall
    obtain ⟨oute, he⟩ := hall e (List.mem_cons_self _ _)
    have turn : ∀ lay : layout, lay.blank → ∀ (d : Nat) (rest w : List Char) (fuel : Nat),
        (∀ c ∈ w, isspace c = true) →
        3 * (w ++ (render_elements L lay d (e :: es) ++
          (lay.indent d ++ ']' :: rest))).length + 2 ≤ fuel + 1 →
        ends_value ((if es.isEmpty then [] else [',']) ++ (lay.after_item ++
          (render_elements L lay d es ++ (lay.indent d ++ ']' :: rest)))) = true →
        parse_value L fuel (w ++ (render_elements L lay d (e :: es) ++
            (lay.indent d ++ ']' :: rest))) =
          with_rest oute ((if es.isEmpty then [] else [',']) ++ (lay.after_item ++
              (render_elements L lay d es ++ (lay.indent d ++ ']' :: rest)))) ∧
        3 * ((if es.isEmpty then [] else [',']) ++ (lay.after_item ++
          (render_elements L lay d es ++ (lay.indent d ++ ']' :: rest)))).length ≤ fuel := by
      intro lay hlay d rest w fuel hw hfuel hX
      rw [render_elements_cons_text L lay d e es w _] at hfuel ⊢
      refine ⟨?_, ?_⟩
      · rw [parse_value_blank L fuel _ _ (blank_append hw (hlay.2.1 _))]
        refine he lay hlay (d + 1) fuel _ hX ?_
        simp only [List.length_append, List.length_cons] at hfuel ⊢
        omega
      · simp only [List.length_append, List.length_cons] at hfuel ⊢
        omega
    cases es with
    | nil =>
      have hX : ∀ (lay : layout), lay.blank → ∀ (d : Nat) (rest : List Char),
          ends_value ((if ([] : List (json_node L.double)).isEmpty then [] else [',']) ++
            (lay.after_item ++ (render_elements L lay d [] ++
              (lay.indent d ++ ']' :: rest)))) = true ∧
          skip_whitespace ((if ([] : List (json_node L.double)).isEmpty then []
            else [',']) ++ (lay.after_item ++ (render_elements L lay d [] ++
              (lay.indent d ++ ']' :: rest)))) = ']' :: rest := by
        intro lay hlay d rest
        have hb := blank_append hlay.2.2.2 (hlay.2.1 d)
        simp only [List.isEmpty_nil, if_true, List.nil_append, render_elements]
        rw [← List.append_assoc]
        exact ⟨ends_value_blank _ _ _ hb (Or.inr (Or.inr rfl)), by
          rw [skip_whitespace_blank _ _ hb]
          exact skip_whitespace_cons _ (by decide)⟩
      cases oute with
      | error err =>
        refine ⟨.error err, ?_⟩
        intro lay hlay d rest w fuel acc hw hfuel
        obtain ⟨fuel, rfl⟩ : ∃ f, fuel = f + 1 := ⟨fuel - 1, by omega⟩
        obtain ⟨h2, _⟩ := turn lay hlay d rest w fuel hw hfuel (hX lay hlay d rest).1
        exact parse_array_elements_step_error L fuel _ err acc h2
      | ok v =>
        refine ⟨.ok [v], ?_⟩
        intro lay hlay d rest w fuel acc hw hfuel
        obtain ⟨fuel, rfl⟩ : ∃ f, fuel = f + 1 := ⟨fuel - 1, by omega⟩
        obtain ⟨h2, _⟩ := turn lay hlay d rest w fuel hw hfuel (hX lay hlay d rest).1
        rw [parse_array_elements_step L fuel _ _ v acc h2, (hX lay hlay d rest).2]
        simp [peek]
    | cons e2 es2 =>
      obtain ⟨outes, hes⟩ := ih (by simp) (fun x hx => hall x (List.mem_cons_of_mem _ hx))
      have hX : ∀ (lay : layout) (d : Nat) (rest : List Char),
          ((if (e2 :: es2).isEmpty then [] else [',']) ++ (lay.after_item ++
            (render_elements L lay d (e2 :: es2) ++ (lay.indent d ++ ']' :: rest)))) =
          ',' :: (lay.after_item ++
            (render_elements L lay d (e2 :: es2) ++ (lay.indent d ++ ']' :: rest))) := by
        intro lay d rest
        simp
      cases oute with
      | error err =>
        refine ⟨.error err, ?_⟩
        intro lay hlay d rest w fuel acc hw hfuel
        obtain ⟨fuel, rfl⟩ : ∃ f, fuel = f + 1 := ⟨fuel - 1, by omega⟩
        obtain ⟨h2, _⟩ := turn lay hlay d rest w fuel hw hfuel
          (by rw [hX lay d rest]; rfl)
        exact parse_array_elements_step_error L fuel _ err acc h2
      | ok v =>
        refine ⟨match outes with
          | .ok tl => .ok (v :: tl)
          | .error err => .error err, ?_⟩
        intro lay hlay d rest w fuel acc hw hfuel
        obtain ⟨fuel, rfl⟩ : ∃ f, fuel = f + 1 := ⟨fuel - 1, by omega⟩
        obtain ⟨h2, h3⟩ := turn lay hlay d rest w fuel hw hfuel
          (by rw [hX lay d rest]; rfl)
        rw [parse_array_elements_step L fuel _ _ v acc h2, hX lay d rest,
          skip_whitespace_cons _ (by decide)]
        simp only [peek, List.headD_cons, if_true, List.tail_cons]
        rw [hes lay hlay d rest lay.after_item fuel _ hlay.2.2.2 (by
          rw [hX lay d rest] at h3
          simp only [List.length_cons] at h3
          omega)]
        cases outes with
        | error err => rfl
        | ok tl => simp

theorem serializable_members_mem {D : Type} {l : List (json_node D)} {m : json_node D}
    (h : serializable_members l = true) (hm : m ∈ l) : serializable m = true := by
  induction l with
  | nil => simp at hm
  | cons a l ih =>
    simp only [serializable_members, Bool.and_eq_true] at h
    rcases List.mem_cons.1 hm with rfl | hm
    · exact h.1.2
    · exact ih h.2 hm

theorem serializable_elements_mem {D : Type} {l : List (json_node D)} {m : json_node D}
    (h : serializable_elements l = true) (hm : m ∈ l) : serializable m = true := by
  induction l with
  | nil => simp at hm
  | cons a l ih =>
    simp only [serializable_elements, Bool.and_eq_true] at h
    rcases List.mem_cons.1 hm with rfl | hm
    · exact h.1
    · exact ih h.2 hm

theorem numbers_of_list_mem {D : Type} {l : List (json_node D)} {m : json_node D} {x : D}
    (hm : m ∈ l) (hx : x ∈ numbers_of m) : x ∈ numbers_of_list l := by
  induction l with
  | nil => simp at hm
  | cons a l ih =>
    rcases List.mem_cons.1 hm with rfl | hm
    · simp [numbers_of_list, hx]
    · simp [numbers_of_list, ih hm]

/-- The texts of every tree in all layouts of whitespace parse alike. -/
theorem parses_alike_all (L : NumLib) : ∀ T : json_node L.double, parses_alike L T := by
  intro T
  induction T using json_node.induction_on with
  | hnull k =>
    intro _ _
    refine ⟨.ok (NULL none), ?_⟩
    intro lay _ d fuel rest _ hfuel
    obtain ⟨fuel, rfl⟩ : ∃ f, fuel = f + 1 := ⟨fuel - 1, by omega⟩
    exact parse_value_null L fuel rest
  | hstring k s =>
    intro hs _
    cases s with
    | none => simp [serializable] at hs
    | some s =>
      refine ⟨.ok (STRING none (some s)), ?_⟩
      intro lay _ d fuel rest _ hfuel
      obtain ⟨fuel, rfl⟩ : ∃ f, fuel = f + 1 := ⟨fuel - 1, by omega⟩
      exact parse_value_string L fuel s rest
  | hnumber k x =>
    intro _ hn
    rcases hn x (by simp [numbers_of]) with hx | hx
    · refine ⟨.ok (NUMBER none (L.strtod (L.fmt_g x)).1), ?_⟩
      intro lay _ d fuel rest hr hfuel
      obtain ⟨fuel, rfl⟩ : ∃ f, fuel = f + 1 := ⟨fuel - 1, by omega⟩
      exact parse_value_number L fuel x rest hx hr
    · refine ⟨.error (.UnexpectedCharacter (peek (L.fmt_g x))), ?_⟩
      intro lay _ d fuel rest hr hfuel
      obtain ⟨fuel, rfl⟩ : ∃ f, fuel = f + 1 := ⟨fuel - 1, by omega⟩
      exact parse_value_unread L fuel x rest hx hr
  | hobject k a ih =>
    intro hs hn
    have hclose : ∀ (lay : layout), lay.blank → ∀ (d : Nat) (rest : List Char),
        skip_whitespace (lay.after_open ++ (lay.indent d ++ '}' :: rest)) = '}' :: rest := by
      intro lay hlay d rest
      rw [← List.append_assoc, skip_whitespace_blank _ _ (blank_append hlay.1 (hlay.2.1 d))]
      exact skip_whitespace_cons _ (by decide)
    have hempty : ∀ a : Option (List (json_node L.double)), (OBJECT k a).children = [] →
        ∃ out : Except parse_error (json_node L.double),
          ∀ lay : layout, lay.blank → ∀ (d fuel : Nat) (rest : List Char),
            ends_value rest = true →
            3 * (render L lay d (OBJECT k a) ++ rest).length + 1 ≤ fuel →
            parse_value L fuel (render L lay d (OBJECT k a) ++ rest) = with_rest out rest := by
      intro a ha
      refine ⟨.ok (OBJECT none (some [])), ?_⟩
      intro lay hlay d fuel rest _ hfuel
      have htext : render L lay d (OBJECT k a) ++ rest =
          '{' :: (lay.after_open ++ (lay.indent d ++ '}' :: rest)) := by
        cases a with
        | none => simp [render, List.append_assoc]
        | some l =>
          have : l = [] := by simpa [json_node.children] using ha
          subst this
          simp [render, render_members, List.append_assoc]
      rw [htext] at hfuel ⊢
      obtain ⟨fuel, rfl⟩ : ∃ f, fuel = f + 2 :=
        ⟨fuel - 2, by simp only [List.length_append, List.length_cons] at hfuel; omega⟩
      rw [parse_value_object_step, hclose lay hlay d rest]
      simp [peek, with_rest]
    cases a with
    | none => exact hempty none rfl
    | some l =>
      cases l with
      | nil => exact hempty (some []) rfl
      | cons m ms =>
        have hser : serializable_members (m :: ms) = true := by
          simpa [serializable] using hs
        have hkey : ∃ key, m.key = some key := by
          simp only [serializable_members, Bool.and_eq_true] at hser
          exact Option.isSome_iff_exists.1 hser.1.1
        obtain ⟨key, hkey⟩ := hkey
        obtain ⟨outl, hl⟩ := parse_alike_members L (m :: ms) (by simp)
          (fun c hc => ih c (by simpa [json_node.children] using hc)
            (serializable_members_mem hser hc)
            (fun x hx => hn x (by
              simpa [numbers_of] using numbers_of_list_mem hc hx))) hser
        refine ⟨match outl with
          | .ok l2 => .ok (OBJECT none (some l2))
          | .error e => .error e, ?_⟩
        intro lay hlay d fuel rest _ hfuel
        have htext : render L lay d (OBJECT k (some (m :: ms))) ++ rest =
            '{' :: (lay.after_open ++ (render_members L lay d (m :: ms) ++
              (lay.indent d ++ '}' :: rest))) := by
          simp [render, List.append_assoc]
        rw [htext] at hfuel ⊢
        obtain ⟨fuel, rfl⟩ : ∃ f, fuel = f + 2 :=
          ⟨fuel - 2, by simp only [List.length_append, List.length_cons] at hfuel; omega⟩
        rw [parse_value_object_step]
        have hhead : peek (skip_whitespace (lay.after_open ++
            (render_members L lay d (m :: ms) ++ (lay.indent d ++ '}' :: rest)))) = '"' := by
          rw [render_members_cons_text L lay d m ms key lay.after_open _ hkey,
            skip_whitespace_blank _ _ (blank_append hlay.1 (hlay.2.1 _)),
            skip_whitespace_quoted]
          rfl
        rw [hhead, if_neg (by decide), hl lay hlay d rest lay.after_open fuel [] hlay.1 (by
          simp only [List.length_append, List.length_cons] at hfuel ⊢
          omega)]
        cases outl with
        | error e => rfl
        | ok l2 => simp [with_rest]
  | harray k a ih =>
    intro hs hn
    have hclose : ∀ (lay : layout), lay.blank → ∀ (d : Nat) (rest : List Char),
        skip_whitespace (lay.after_open ++ (lay.indent d ++ ']' :: rest)) = ']' :: rest := by
      intro lay hlay d rest
      rw [← List.append_assoc, skip_whitespace_blank _ _ (blank_append hlay.1 (hlay.2.1 d))]
      exact skip_whitespace_cons _ (by decide)
    have hempty : ∀ a : Option (List (json_node L.double)), (ARRAY k a).children = [] →
        ∃ out : Except parse_error (json_node L.double),
          ∀ lay : layout, lay.blank → ∀ (d fuel : Nat) (rest : List Char),
            ends_value rest = true →
            3 * (render L lay d (ARRAY k a) ++ rest).length + 1 ≤ fuel →
            parse_value L fuel (render L lay d (ARRAY k a) ++ rest) = with_rest out rest := by
      intro a ha
      refine ⟨.ok (ARRAY none (some [])), ?_⟩
      intro lay hlay d fuel rest _ hfuel
      have htext : render L lay d (ARRAY k a) ++ rest =
          '[' :: (lay.after_open ++ (lay.indent d ++ ']' :: rest)) := by
        cases a with
        | none => simp [render, List.append_assoc]
        | some l =>
          have : l = [] := by simpa [json_node.children] using ha
          subst this
          simp [render, render_elements, List.append_assoc]
      rw [htext] at hfuel ⊢
      obtain ⟨fuel, rfl⟩ : ∃ f, fuel = f + 2 :=
        ⟨fuel - 2, by simp only [List.length_append, List.length_cons] at hfuel; omega⟩
      rw [parse_value_array_step, hclose lay hlay d rest]
      simp [peek, with_rest]
    cases a with
    | none => exact hempty none rfl
    | some l =>
      cases l with
      | nil => exact hempty (some []) rfl
      | cons e es =>
        have hser : serializable_elements (e :: es) = true := by
          simpa [serializable] using hs
        have hne : ∀ x ∈ numbers_of e, L.scans x ∨ L.unread x := fun x hx =>
          hn x (by simp [numbers_of, numbers_of_list, hx])
        obtain ⟨outl, hl⟩ := parse_alike_elements L (e :: es) (by simp)
          (fun c hc => ih c (by simpa [json_node.children] using hc)
            (serializable_elements_mem hser hc)
            (fun x hx => hn x (by
              simpa [numbers_of] using numbers_of_list_mem hc hx)))
        refine ⟨match outl with
          | .ok l2 => .ok (ARRAY none (some l2))
          | .error err => .error err, ?_⟩
        intro lay hlay d fuel rest _ hfuel
        have htext : render L lay d (ARRAY k (some (e :: es))) ++ rest =
            '[' :: (lay.after_open ++ (render_elements L lay d (e :: es) ++
              (lay.indent d ++ ']' :: rest))) := by
          simp [render, List.append_assoc]
        rw [htext] at hfuel ⊢
        obtain ⟨fuel, rfl⟩ : ∃ f, fuel = f + 2 :=
          ⟨fuel - 2, by simp only [List.length_append, List.length_cons] at hfuel; omega⟩
        rw [parse_value_array_step]
        obtain ⟨c, t, hct, hcs, hcb⟩ := render_starts_value L lay (d + 1) e hne
          ((if es.isEmpty then [] else [',']) ++ (lay.after_item ++
            (render_elements L lay d es ++ (lay.indent d ++ ']' :: rest))))
        have hhead : peek (skip_whitespace (lay.after_open ++
            (render_elements L lay d (e :: es) ++ (lay.indent d ++ ']' :: rest)))) = c := by
          rw [render_elements_cons_text L lay d e es lay.after_open _,
            skip_whitespace_blank _ _ (blank_append hlay.1 (hlay.2.1 _)), hct,
            skip_whitespace_cons _ hcs]
          rfl
        rw [hhead, if_neg hcb, hl lay hlay d rest lay.after_open fuel [] hlay.1 (by
          simp only [List.length_append, List.length_cons] at hfuel ⊢
          omega)]
        cases outl with
        | error err => rfl
        | ok l2 => simp [with_rest]

/-- The two texts of a serializable tree whose numbers scan or are unread have the same
result under `string_to_json`, in any two layouts of whitespace. -/
theorem string_to_json_render_alike (L : NumLib) (T : json_node L.double)
    (hs : serializable T = true) (hn : ∀ x ∈ numbers_of T, L.scans x ∨ L.unread x)
    (lay1 lay2 : layout) (h1 : lay1.blank) (h2 : lay2.blank) :
    string_to_json L (render L lay1 0 T) = string_to_json L (render L lay2 0 T) := by
  obtain ⟨out, hout⟩ := parses_alike_all L T hs hn
  have key : ∀ lay : layout, lay.blank →
      string_to_json L (render L lay 0 T) =
        match out with
        | .ok T2 => .ok T2
        | .error e => .error e := by
    intro lay hlay
    have := hout lay hlay 0 (3 * (render L lay 0 T).length + 1) [] rfl (by simp)
    rw [List.append_nil] at this
    rw [string_to_json, this]
    cases out with
    | error e => rfl
    | ok T2 => simp [with_rest, skip_whitespace]
  rw [key lay1 h1, key lay2 h2]

/-! ## The library with an infinite value -/

theorem extLib_scans_of_intLib (v : Int) (h : intLib.scans v) : extLib.scans (some v) := by
  obtain ⟨h1, h2⟩ := h
  refine ⟨h1, fun rest hr => ?_⟩
  have h3 : int_strtod (int_fmt v ++ rest) =
      ((int_strtod (int_fmt v)).1, (int_fmt v).length) := h2 rest hr
  show (some (int_strtod (int_fmt v ++ rest)).1, (int_strtod (int_fmt v ++ rest)).2) =
    (some (int_strtod (int_fmt v)).1, (int_fmt v).length)
  rw [h3]

theorem extLib_unread_infinity : extLib.unread (none : Option Int) := by
  refine ⟨by simp [extLib], by decide, by decide, by decide, by decide, by decide,
    by decide, by decide, ?_⟩
  intro rest _ h
  have h2 : List.take 4 ('i' :: 'n' :: 'f' :: rest) = ['n', 'u', 'l', 'l'] := h
  simp at h2

theorem ext_sample_tree_scans : ∀ x ∈ numbers_of ext_sample_tree, extLib.scans x := by
  intro x hx
  have hx2 : x = some (1 : Int) ∨ x = some (-7 : Int) := by
    simpa [ext_sample_tree, numbers_of, numbers_of_list] using hx
  rcases hx2 with rfl | rfl
  · exact extLib_scans_of_intLib 1 intLib_exact_one.1
  · exact extLib_scans_of_intLib (-7) intLib_exact_minus_seven.1

theorem inf_sample_tree_numbers :
    ∀ x ∈ numbers_of inf_sample_tree, extLib.scans x ∨ extLib.unread x := by
  intro x hx
  have hx2 : x = some (1 : Int) ∨ x = (none : Option Int) ∨ x = some (-7 : Int) := by
    simpa [inf_sample_tree, numbers_of, numbers_of_list] using hx
  rcases hx2 with rfl | rfl | rfl
  · exact Or.inl (extLib_scans_of_intLib 1 intLib_exact_one.1)
  · exact Or.inr extLib_unread_infinity
  · exact Or.inl (extLib_scans_of_intLib (-7) intLib_exact_minus_seven.1)

/-! ## Idempotence and infinity; pretty and compact -/

/-- C2 (as stated, refuted). The Number node with the value +infinity is serialised by
`json_to_string` to the text `inf`, and `string_to_json` rejects that text at its first
character: there is no parsed tree to serialise again. -/
theorem infinity_text_not_parsed :
    json_to_string extLib (NUMBER none (none : Option Int)) = some ['i', 'n', 'f'] ∧
    string_to_json extLib ['i', 'n', 'f'] = .error (.UnexpectedCharacter 'i') ∧
    ¬ ∃ T', string_to_json extLib ['i', 'n', 'f'] = .ok T' ∧
      json_to_string extLib T' = some ['i', 'n', 'f'] := by
  have h : string_to_json extLib ['i', 'n', 'f'] = .error (.UnexpectedCharacter 'i') := rfl
  refine ⟨rfl, h, ?_⟩
  rintro ⟨T', h1, _⟩
  rw [h] at h1
  cases h1

/-- C3. Pretty and compact forms denote the same tree, for every tree: the pretty
serialiser gives a text exactly when the compact one does, and then `string_to_json` has
the same result on the two texts; so it succeeds on the pretty text exactly when it
succeeds on the compact text, and the two parsed trees are equal, hence structurally
equal. The assumption on the numbers holds of every `double`: the `%g` text of a number
either scans (every finite number) or is rejected at its first character (`inf`, `nan`).
An Object or Array without children has a newline between its brackets in the pretty form
and parses to the empty Object or Array. -/
theorem pretty_compact_same_tree (L : NumLib) (T : json_node L.double)
    (hnum : ∀ x ∈ numbers_of T, L.scans x ∨ L.unread x) :
    ((json_to_formatted_string L T).isSome = (json_to_string L T).isSome) ∧
    (∀ s s', json_to_string L T = some s → json_to_formatted_string L T = some s' →
      string_to_json L s' = string_to_json L s ∧
      ((∃ T', string_to_json L s' = .ok T') ↔ (∃ T', string_to_json L s = .ok T')) ∧
      (∀ T1 T2, string_to_json L s' = .ok T1 → string_to_json L s = .ok T2 →
        struct_eq T1 T2)) ∧
    (json_to_formatted_string L (OBJECT none none) = some ['{', '\n', '}'] ∧
      json_to_formatted_string L (ARRAY none (some [])) = some ['[', '\n', ']'] ∧
      string_to_json L ['{', '\n', '}'] = .ok (OBJECT none (some [])) ∧
      string_to_json L ['[', '\n', ']'] = .ok (ARRAY none (some []))) := by
  refine ⟨?_, ?_, rfl, rfl, rfl, rfl⟩
  · rw [json_to_string_eq, json_to_formatted_string_eq]
    by_cases hser : serializable T = true <;> simp [hser]
  · intro s s' hs hs'
    rw [json_to_string_eq] at hs
    rw [json_to_formatted_string_eq] at hs'
    by_cases hser : serializable T = true
    · rw [if_pos hser] at hs hs'
      have heq : string_to_json L s' = string_to_json L s := by
        rw [← Option.some.inj hs', ← Option.some.inj hs]
        exact string_to_json_render_alike L T hser hnum pretty_layout compact_layout
          pretty_layout_blank compact_layout_blank
      refine ⟨heq, by rw [heq], ?_⟩
      intro T1 T2 h1 h2
      rw [heq, h2] at h1
      simp only [Except.ok.injEq] at h1
      rw [h1]
      rfl
    · rw [if_neg hser] at hs
      cases hs

/-- C3, over `extLib`: at a tree that holds +infinity, where both parses fail at the `i`
of `inf`, and at a tree of finite numbers, where both succeed. -/
theorem pretty_compact_same_tree_witness :
    ((∀ x ∈ numbers_of inf_sample_tree, extLib.scans x ∨ extLib.unread x) ∧
      json_to_string extLib inf_sample_tree =
        some "\x7b\"a\":1,\"b\":[null,inf,-7]\x7d".toList ∧
      json_to_formatted_string extLib inf_sample_tree = some
        "\x7b\n  \"a\": 1,\n  \"b\": [\n    null,\n    inf,\n    -7\n  ]\n\x7d".toList ∧
      string_to_json extLib "\x7b\"a\":1,\"b\":[null,inf,-7]\x7d".toList =
        .error (.UnexpectedCharacter 'i') ∧
      string_to_json extLib
          "\x7b\n  \"a\": 1,\n  \"b\": [\n    null,\n    inf,\n    -7\n  ]\n\x7d".toList =
        string_to_json extLib "\x7b\"a\":1,\"b\":[null,inf,-7]\x7d".toList) ∧
    ((∀ x ∈ numbers_of ext_sample_tree, extLib.scans x ∨ extLib.unread x) ∧
      (∃ T', string_to_json extLib
        "\x7b\"a\":1,\"b\":[null,\"x\\\"\\n\",-7],\"c\":\x7b\x7d\x7d".toList = .ok T') ∧
      string_to_json extLib
          "\x7b\n  \"a\": 1,\n  \"b\": [\n    null,\n    \"x\\\"\\n\",\n    -7\n  ],\n  \"c\": \x7b\n  \x7d\n\x7d".toList =
        string_to_json extLib
          "\x7b\"a\":1,\"b\":[null,\"x\\\"\\n\",-7],\"c\":\x7b\x7d\x7d".toList) :=
  ⟨⟨inf_sample_tree_numbers, rfl, rfl, rfl,
      ((pretty_compact_same_tree extLib inf_sample_tree inf_sample_tree_numbers).2.1
        _ _ rfl rfl).1⟩,
    ⟨fun x hx => Or.inl (ext_sample_tree_scans x hx), ⟨_, rfl⟩,
      ((pretty_compact_same_tree extLib ext_sample_tree
        (fun x hx => Or.inl (ext_sample_tree_scans x hx))).2.1 _ _ rfl rfl).1⟩⟩

end Json
